import Mathlib

/-!
# Xetera/json-parser-c: lexer, parser and printer of `parser.c`

A shallow embedding of `src/parser.c`.

* The input of `lex` is a C string, a `List Char`; the byte after its last
  character is the terminating NUL, so reading index `strlen` gives `'\0'`.
* A `char*` held by a token or by a tree node is the list of the bytes of the
  block it points to, exactly as the program wrote them. `gobble_text` copies
  the lexeme into `malloc(end - start)` and writes no terminating NUL, so the
  block of a lexed string holds no NUL; a hand-built tree holds blocks that
  end in one. Whoever reads such a block as a C string (`printf("%s")`) reads
  up to the first NUL (`c_string`); on a block without NUL the read leaves the
  block, which is undefined.
* `malloc` is that of glibc on a 64-bit target: a store is harmless as long as
  it stays inside the chunk (`malloc_usable_size`), and a store that leaves the
  chunk corrupts the heap. `gobble_number` writes its terminating NUL one byte
  behind the bytes it asked for; `parse_array` and `parse_object` store their
  children in blocks of 100 slots without a bound check.
* The printer's `printf` calls are modelled by the text they write.
* `exit(1)` and undefined behaviour (a read of `tokens[i]` past the lexed
  tokens, a read of a union member the token does not hold, a store that
  leaves its chunk) are explicit `fault`s in the parser; `lex` and the printer
  return `none` on undefined behaviour. The `NULL` that `parse_json` returns
  on an unknown token is `none`; the printer, which dereferences its children,
  writes nothing (`none`) when it meets one.
* The recursion of the parser is bounded by a fuel argument; running out of
  fuel is the fault `out_of_fuel`, which stands for "has not returned yet".
* `lex` writes its tokens into an array of its caller; that array (100 slots
  in `main`) and the non-owning token back-references of the tree nodes are
  not modelled.
-/

namespace JsonParserC

/-! ## Character classes (parser.c:10-20) -/

/-- `is_whitespace`: `c == ' ' || c == '\n' || c == '\t'`. -/
def is_whitespace (c : Char) : Bool := c == ' ' || c == '\n' || c == '\t'

/-- `is_quote`: `c == '"'`. -/
def is_quote (c : Char) : Bool := c == '"'

/-- `is_number`: `c >= '0' && c <= '9' || c == '-'`. -/
def is_number (c : Char) : Bool := (decide ('0' ≤ c) && decide (c ≤ '9')) || c == '-'

/-! ## libc routines used by the lexer and the printer -/

/-- Decimal digit test used by the models of `atoi`, `atof`. -/
def is_digit (c : Char) : Bool := decide ('0' ≤ c) && decide (c ≤ '9')

/-- Value of one decimal digit character. -/
def digit_value (c : Char) : Nat := c.toNat - 48

/-- Value of a run of decimal digits, most significant first. -/
def digits_value (ds : List Char) : Nat := ds.foldl (fun a c => 10 * a + digit_value c) 0

/-- `strtol(buffer, NULL, 10)` on a buffer made of digits, `-` and `.` (all
that `gobble_number` copies): an optional `-`, the longest run of digits, the
result saturated to the range of a 64-bit `long`. -/
def strtol (buffer : List Char) : Int :=
  let v : Int :=
    match buffer with
    | '-' :: rest => - (digits_value (rest.takeWhile is_digit) : Int)
    | _ => (digits_value (buffer.takeWhile is_digit) : Int)
  max (-(2 : Int) ^ 63) (min v ((2 : Int) ^ 63 - 1))

/-- Conversion of a `long` to a 32-bit `int` (two's complement wrap). -/
def to_int32 (v : Int) : Int := (v + 2 ^ 31) % 2 ^ 32 - 2 ^ 31

/-- `atoi(buffer)`, that is `(int) strtol(buffer, NULL, 10)`. -/
def atoi (buffer : List Char) : Int := to_int32 (strtol buffer)

/-- An IEEE binary64 value as `atof` can return it on a decimal lexeme:
`±∞` when `inf`, otherwise `± mant * 2 ^ exp`. -/
structure double where
  neg : Bool
  inf : Bool
  mant : Nat
  exp : Int
deriving DecidableEq, Repr

/-- Round the fraction `num / den` to the nearest natural, ties to even. -/
def round_half_even (num den : Nat) : Nat :=
  let q := num / den
  let r := num % den
  if 2 * r < den then q else if den < 2 * r then q + 1 else if q % 2 = 0 then q else q + 1

/-- Floor of the base-2 logarithm, by repeated halving (`fuel` bounds the steps). -/
def ilog2 : Nat → Nat → Nat
  | 0, _ => 0
  | fuel + 1, n => if n < 2 then 0 else ilog2 fuel (n / 2) + 1

/-- The binary64 nearest to `± N / 10 ^ k` (round to nearest, ties to even;
subnormals below `2 ^ -1022`, infinity above the largest finite value). -/
def to_double (neg : Bool) (N k : Nat) : double :=
  if N = 0 then ⟨neg, false, 0, 0⟩ else
  let D := 10 ^ k
  let lb : Int := (ilog2 N N : Int) - (ilog2 D D : Int)
  -- `l = ⌊log2 (N / D)⌋` is `lb` or `lb - 1`
  let l : Int := if D * 2 ^ lb.toNat ≤ N * 2 ^ (-lb).toNat then lb else lb - 1
  let e : Int := max (l - 52) (-1074)
  let m := round_half_even (N * 2 ^ (-e).toNat) (D * 2 ^ e.toNat)
  let e1 : Int := if m = 2 ^ 53 then e + 1 else e
  let m1 : Nat := if m = 2 ^ 53 then 2 ^ 52 else m
  if 971 < e1 then ⟨neg, true, 0, 0⟩
  else if m1 = 0 then ⟨neg, false, 0, 0⟩
  else ⟨neg, false, m1, e1⟩

/-- `atof(buffer)`, that is `strtod(buffer, NULL)`, on a buffer made of
digits, `-` and `.`: an optional `-`, digits, an optional `.` and digits; the
longest such prefix is converted, and `0.0` is returned when it has no digit. -/
def atof (buffer : List Char) : double :=
  let neg : Bool := match buffer with
    | '-' :: _ => true
    | _ => false
  let body : List Char := match buffer with
    | '-' :: rest => rest
    | _ => buffer
  let ip := body.takeWhile is_digit
  let fp : List Char := match body.drop ip.length with
    | '.' :: rest => rest.takeWhile is_digit
    | _ => []
  if ip.length + fp.length = 0 then ⟨false, false, 0, 0⟩
  else to_double neg (digits_value (ip ++ fp)) fp.length

/-- The character of a decimal digit `d < 10`. -/
def digit_char (d : Nat) : Char := Char.ofNat (48 + d)

/-- Decimal digits of `n`, most significant first, put in front of `acc`. -/
def fmt_digits : Nat → Nat → List Char → List Char
  | 0, _, acc => acc
  | fuel + 1, n, acc =>
    if n < 10 then digit_char n :: acc
    else fmt_digits fuel (n / 10) (digit_char (n % 10) :: acc)

/-- `printf("%u", n)`: the decimal text of a natural number. -/
def fmt_u (n : Nat) : List Char := fmt_digits (n + 1) n []

/-- `printf("%d", v)`: decimal signed integer text. -/
def fmt_d (v : Int) : List Char :=
  if v < 0 then '-' :: fmt_u v.natAbs else fmt_u v.natAbs

/-- `printf("%f", d)`: sign, integer part, `.`, six fractional digits, the
value rounded to six decimals (nearest, ties to even). -/
def fmt_f (d : double) : List Char :=
  let sign : List Char := if d.neg then ['-'] else []
  if d.inf then sign ++ ['i', 'n', 'f'] else
  let q := round_half_even (d.mant * 10 ^ 6 * 2 ^ d.exp.toNat) (2 ^ (-d.exp).toNat)
  let frac := fmt_u (q % 10 ^ 6)
  sign ++ fmt_u (q / 10 ^ 6) ++ '.' :: (List.replicate (6 - frac.length) '0' ++ frac)

/-- `printf("%*s", width, "")`: `|width|` spaces (a negative width is the
`-` flag with the positive width). -/
def pad (width : Int) : List Char := List.replicate width.natAbs ' '

/-! ## Memory (libc) -/

/-- `malloc_usable_size(malloc(n))` with glibc on a 64-bit target: a chunk is a
multiple of 16 bytes, at least 32, and 8 of its bytes hold its size; the rest
is the caller's, up to the size field of the next chunk. -/
def malloc_usable_size (n : Nat) : Nat := max 32 ((n + 8 + 15) / 16 * 16) - 8

/-- A store of `width` bytes at byte `offset` of the block that
`malloc(request)` returned stays inside the chunk. A store that does not
overwrites the header of the next chunk or the blocks behind it. -/
def store_fits (request offset width : Nat) : Bool :=
  decide (offset + width ≤ malloc_usable_size request)

/-- What a reader of a C string (`printf("%s", p)`) takes from the block `p`
points to: the bytes before the first NUL. A block that holds no NUL is read
past its end, into bytes the program never wrote: undefined, `none`. -/
def c_string (block : List Char) : Option (List Char) :=
  if '\x00' ∈ block then some (block.takeWhile (fun c => c != '\x00')) else none

/-- `sizeof(json*)` on a 64-bit target. -/
def sizeof_json_pointer : Nat := 8

/-- `sizeof(json_kv_pair)` on a 64-bit target: two pointers. -/
def sizeof_json_kv_pair : Nat := 16

/-! ## Tokens (parser.c:33-55, 153-163) -/

/-- `enum token_type`. -/
inductive token_type where
  | OPEN_BRACE
  | CLOSE_BRACE
  | OPEN_BRACKET
  | CLOSE_BRACKET
  | COLON
  | COMMA
  | INTEGER_LITERAL
  | FLOAT_LITERAL
  | STRING_LITERAL
  | NULL_LITERAL
deriving DecidableEq, Repr

/-- The `value` union of a token. `unset` is the union no member of which was
written (`make_token` leaves it so). The member `string` is given by the bytes
of the block `string->value` points to. -/
inductive token_value where
  | unset
  | string (value : List Char)
  | number (n : Int)
  | number_f (d : double)
deriving DecidableEq, Repr

/-- `struct token_ref`. -/
structure token where
  type : token_type
  value : token_value
  start : Nat
  end_ : Nat
deriving DecidableEq, Repr

/-- `make_token(type, r)` with `add_index(t, r->i)`: `start = r->i`,
`end = r->i + 1`, union untouched. -/
def make_token (type : token_type) (i : Nat) : token :=
  { type := type, value := token_value.unset, start := i, end_ := i + 1 }

/-! ## Lexer (parser.c:165-261) -/

/-- `strlen(stream)`: the number of characters before the first NUL. -/
def strlen (stream : List Char) : Nat := (stream.takeWhile (fun c => c != '\x00')).length

/-- `stream[i]`; the terminating NUL is what lies behind the characters. -/
def char_at (stream : List Char) (i : Nat) : Char := stream.getD i '\x00'

/-- The loop `while (stream[r->i] != '\0' && p(stream[r->i])) advance(r, 1);`
started at `r->i = i`: the value of `r->i` when it ends. -/
def scan_while (p : Char → Bool) (stream : List Char) (i : Nat) : Nat :=
  i + ((stream.drop i).takeWhile (fun c => c != '\x00' && p c)).length

/-- The bytes `memcpy` copies: `stream[start .. stop)`. -/
def slice (stream : List Char) (start stop : Nat) : List Char :=
  (stream.drop start).take (stop - start)

/-- `gobble_text`: the token and the new `r->i`. The token is made after the
closing quote has been passed, so its `start` is the offset behind it. The
payload is the block `malloc(end - start)` with the `end - start` bytes of the
lexeme copied into it and nothing else: no terminating NUL is written. -/
def gobble_text (stream : List Char) (i : Nat) : token × Nat :=
  let i1 := i + 1
  let start := i1
  let i2 := scan_while (fun c => !is_quote c) stream i1
  let stop := i2
  let i3 := i2 + 1
  ({ make_token token_type.STRING_LITERAL i3 with
      value := token_value.string (slice stream start stop) }, i3)

/-- `gobble_number`: the token and the new `r->i`. The token is made after the
lexeme has been passed, so its `start` is the offset behind the lexeme. The
lexeme of `r->i - start` bytes is copied into `buffer = malloc(r->i - start)`
and the NUL is stored at `buffer[r->i - start]`, one byte behind the bytes
asked for: `none` when that store leaves the chunk. -/
def gobble_number (stream : List Char) (i : Nat) : Option (token × Nat) :=
  let start := i
  let i1 := scan_while is_number stream i
  let is_integer := !(char_at stream i1 == '.')
  let i2 := if is_integer then i1 else scan_while is_number stream (i1 + 1)
  let buffer := slice stream start i2
  if store_fits (i2 - start) (i2 - start) 1 then
    if is_integer then
      some ({ make_token token_type.INTEGER_LITERAL i2 with
          value := token_value.number (atoi buffer) }, i2)
    else
      some ({ make_token token_type.FLOAT_LITERAL i2 with
          value := token_value.number_f (atof buffer) }, i2)
  else none

/-- The `while (r.i < length)` loop of `lex`, started at `r.i = i`; the
tokens it appends, in order, or `none` when a store of `gobble_number` left
its chunk. Every iteration advances `r.i`, so `length - i` iterations are
enough; `fuel` bounds their number. -/
def lex_loop (stream : List Char) (length : Nat) : Nat → Nat → Option (List token)
  | 0, _ => some []
  | fuel + 1, i =>
    if i < length then
      let c := char_at stream i
      if is_whitespace c then lex_loop stream length fuel (i + 1)
      else if c == '{' then
        (lex_loop stream length fuel (i + 1)).map (List.cons (make_token token_type.OPEN_BRACE i))
      else if c == '}' then
        (lex_loop stream length fuel (i + 1)).map (List.cons (make_token token_type.CLOSE_BRACE i))
      else if c == '[' then
        (lex_loop stream length fuel (i + 1)).map (List.cons (make_token token_type.OPEN_BRACKET i))
      else if c == ']' then
        (lex_loop stream length fuel (i + 1)).map (List.cons (make_token token_type.CLOSE_BRACKET i))
      else if c == ':' then
        (lex_loop stream length fuel (i + 1)).map (List.cons (make_token token_type.COLON i))
      else if c == ',' then
        (lex_loop stream length fuel (i + 1)).map (List.cons (make_token token_type.COMMA i))
      else if is_quote c then
        (lex_loop stream length fuel (gobble_text stream i).2).map
          (List.cons (gobble_text stream i).1)
      else if is_number c then
        match gobble_number stream i with
        | none => none
        | some (t, j) => (lex_loop stream length fuel j).map (List.cons t)
      else if c == 'n' then
        (lex_loop stream length fuel (i + 4)).map (List.cons (make_token token_type.NULL_LITERAL i))
      else lex_loop stream length fuel (i + 1)
    else some []

/-- `lex(stream, tokens, &token_index)`: the tokens written, in order; `none`
when the run corrupts the heap on the way. -/
def lex (stream : List Char) : Option (List token) :=
  lex_loop stream (strlen stream) (strlen stream) 0

/-! ## Document tree (parser.c:96-150) -/

/-- `struct json` with its tag and union. A child is a `json*`, which may be
`NULL`: `none` is the null pointer. A key and the value of a String are
`char*`: the bytes of the block pointed to. -/
inductive json where
  | OBJECT (pairs : List (List Char × Option json))
  | ARRAY (values : List (Option json))
  | STRING (value : List Char)
  | INT (int_ : Int)
  | FLOAT (float_ : double)
  | NULL_

/-- What stops a run before it returns. -/
inductive fault where
  /-- `assert_token` printed its message and called `exit(1)`. -/
  | exit_1 (expected found : token_type)
  /-- `tokens[i]` was read at an index no token was written to. -/
  | token_read (i : Nat)
  /-- A member of the token's union was read that the token does not hold:
  undefined behaviour, what happens next is not determined by the program. -/
  | union_read
  /-- A child was stored behind the chunk of the block of 100 slots:
  undefined behaviour, the heap is corrupted. -/
  | heap_overrun
  /-- The fuel of the model ran out: the run has not returned yet. -/
  | out_of_fuel
deriving DecidableEq, Repr

/-! ## Parser (parser.c:295-421) -/

/-- `tokens[i]`. -/
def token_at (tokens : List token) (i : Nat) : Except fault token :=
  match tokens.get? i with
  | some t => Except.ok t
  | none => Except.error (fault.token_read i)

/-- `assert_token(t, tt)`. -/
def assert_token (t : token) (tt : token_type) : Except fault Unit :=
  if t.type ≠ tt then Except.error (fault.exit_1 tt t.type) else Except.ok ()

/-- `parse_string`: the pointer `token->value.string->value`, read whatever
the type of the token says, and `r->i + 1`. There is no kind check: on a
token whose union holds no string the read is undefined behaviour, which the
fault `union_read` marks; it is not a reported failure. -/
def parse_string (t : token) (i : Nat) : Except fault (List Char × Nat) :=
  match t.value with
  | token_value.string value => Except.ok (value, i + 1)
  | _ => Except.error fault.union_read

/-- `parse_number`: `value.number` of an `INTEGER_LITERAL`, else
`value.number_f`, and `r->i + 1`. -/
def parse_number (t : token) (i : Nat) : Except fault ((Int ⊕ double) × Nat) :=
  if t.type = token_type.INTEGER_LITERAL then
    match t.value with
    | token_value.number n => Except.ok (Sum.inl n, i + 1)
    | _ => Except.error fault.union_read
  else
    match t.value with
    | token_value.number_f d => Except.ok (Sum.inr d, i + 1)
    | _ => Except.error fault.union_read

/-- `parse_null`: `r->i + 1`. -/
def parse_null (_t : token) (i : Nat) : Nat := i + 1

mutual
/-- `parse_json`: the `json*` returned (`none` for `NULL`) and the new `r->i`. -/
def parse_json (tokens : List token) : Nat → Nat → Except fault (Option json × Nat)
  | 0, _ => Except.error fault.out_of_fuel
  | fuel + 1, i =>
    match token_at tokens i with
    | Except.error e => Except.error e
    | Except.ok t =>
      if t.type = token_type.OPEN_BRACE then
        match parse_object tokens fuel i with
        | Except.error e => Except.error e
        | Except.ok (pairs, j) => Except.ok (some (json.OBJECT pairs), j)
      else if t.type = token_type.OPEN_BRACKET then
        match parse_array tokens fuel i with
        | Except.error e => Except.error e
        | Except.ok (values, j) => Except.ok (some (json.ARRAY values), j)
      else if t.type = token_type.STRING_LITERAL then
        match parse_string t i with
        | Except.error e => Except.error e
        | Except.ok (value, j) => Except.ok (some (json.STRING value), j)
      else if t.type = token_type.INTEGER_LITERAL ∨ t.type = token_type.FLOAT_LITERAL then
        match parse_number t i with
        | Except.error e => Except.error e
        | Except.ok (Sum.inl n, j) => Except.ok (some (json.INT n), j)
        | Except.ok (Sum.inr d, j) => Except.ok (some (json.FLOAT d), j)
      else if t.type = token_type.NULL_LITERAL then
        Except.ok (some json.NULL_, parse_null t i)
      else
        -- printf("Unknown token type: %s\n", ...); return NULL;
        Except.ok (none, i)
termination_by structural fuel => fuel
/-- `parse_object_kv`: the pair and the new `r->i`. -/
def parse_object_kv (tokens : List token) :
    Nat → Nat → Except fault ((List Char × Option json) × Nat)
  | 0, _ => Except.error fault.out_of_fuel
  | fuel + 1, i =>
    match token_at tokens i with
    | Except.error e => Except.error e
    | Except.ok t =>
      match parse_string t i with
      | Except.error e => Except.error e
      | Except.ok (key, i1) =>
        match token_at tokens i1 with
        | Except.error e => Except.error e
        | Except.ok c =>
          match assert_token c token_type.COLON with
          | Except.error e => Except.error e
          | Except.ok _ =>
            match parse_json tokens fuel (i1 + 1) with
            | Except.error e => Except.error e
            | Except.ok (value, j) => Except.ok ((key, value), j)
termination_by structural fuel => fuel
/-- The `for (;;)` loop of `parse_array`, entered with `r->i = i` and the
values `acc` already stored in `array->values`, the block
`malloc(sizeof(json*) * 100)`. The store of a further value is not bound
checked. -/
def parse_array_loop (tokens : List token) :
    Nat → Nat → List (Option json) → Except fault (List (Option json) × Nat)
  | 0, _, _ => Except.error fault.out_of_fuel
  | fuel + 1, i, acc =>
    match parse_json tokens fuel i with
    | Except.error e => Except.error e
    | Except.ok (value, i1) =>
      -- array->values[array->length++] = value;
      if store_fits (sizeof_json_pointer * 100) (sizeof_json_pointer * acc.length)
          sizeof_json_pointer then
        match token_at tokens i1 with
        | Except.error e => Except.error e
        | Except.ok t1 =>
          let i2 := if t1.type = token_type.COMMA then i1 + 1 else i1
          match token_at tokens i2 with
          | Except.error e => Except.error e
          | Except.ok t2 =>
            if t2.type = token_type.CLOSE_BRACKET then Except.ok (acc ++ [value], i2 + 1)
            else parse_array_loop tokens fuel i2 (acc ++ [value])
      else Except.error fault.heap_overrun
termination_by structural fuel => fuel
/-- `parse_array`: the stored values and the new `r->i`. -/
def parse_array (tokens : List token) :
    Nat → Nat → Except fault (List (Option json) × Nat)
  | 0, _ => Except.error fault.out_of_fuel
  | fuel + 1, i =>
    match token_at tokens i with
    | Except.error e => Except.error e
    | Except.ok t =>
      match assert_token t token_type.OPEN_BRACKET with
      | Except.error e => Except.error e
      | Except.ok _ => parse_array_loop tokens fuel (i + 1) []
termination_by structural fuel => fuel
/-- The `for (;;)` loop of `parse_object`, entered with `r->i = i` and the
pairs `acc` already stored in `object->pairs`, the block
`malloc(sizeof(json_kv_pair) * 100)`. The store of a further pair is not
bound checked. -/
def parse_object_loop (tokens : List token) :
    Nat → Nat → List (List Char × Option json) →
      Except fault (List (List Char × Option json) × Nat)
  | 0, _, _ => Except.error fault.out_of_fuel
  | fuel + 1, i, acc =>
    match parse_object_kv tokens fuel i with
    | Except.error e => Except.error e
    | Except.ok (pair, i1) =>
      -- object->pairs[object->length++] = pair;
      if store_fits (sizeof_json_kv_pair * 100) (sizeof_json_kv_pair * acc.length)
          sizeof_json_kv_pair then
        match token_at tokens i1 with
        | Except.error e => Except.error e
        | Except.ok t1 =>
          let i2 := if t1.type = token_type.COMMA then i1 + 1 else i1
          match token_at tokens i2 with
          | Except.error e => Except.error e
          | Except.ok t2 =>
            if t2.type = token_type.CLOSE_BRACE then Except.ok (acc ++ [pair], i2 + 1)
            else parse_object_loop tokens fuel i2 (acc ++ [pair])
      else Except.error fault.heap_overrun
termination_by structural fuel => fuel
/-- `parse_object`: the stored pairs and the new `r->i`. -/
def parse_object (tokens : List token) :
    Nat → Nat → Except fault (List (List Char × Option json) × Nat)
  | 0, _ => Except.error fault.out_of_fuel
  | fuel + 1, i =>
    match token_at tokens i with
    | Except.error e => Except.error e
    | Except.ok t =>
      match assert_token t token_type.OPEN_BRACE with
      | Except.error e => Except.error e
      | Except.ok _ => parse_object_loop tokens fuel (i + 1) []
termination_by structural fuel => fuel
end

/-! ## Printer (parser.c:423-462) -/

mutual
/-- `pretty_print_json(j, indent, indentation_size)`: the text written, or
`none` when a `NULL` child is dereferenced or a `%s` conversion reads a block
without NUL. -/
def pretty_print_json : json → Int → Int → Option (List Char)
  | json.OBJECT pairs, indent, indentation_size =>
    match print_pairs pairs indent indentation_size with
    | none => none
    | some body => some (['{', '\n'] ++ body ++ pad indent ++ ['}'])
  | json.ARRAY values, indent, indentation_size =>
    match print_values values indent indentation_size with
    | none => none
    | some body => some (['[', '\n'] ++ body ++ pad indent ++ [']'])
  | json.STRING value, _, _ =>
    match c_string value with
    | none => none
    | some text => some (['"'] ++ text ++ ['"'])
  | json.INT v, _, _ => some (fmt_d v)
  | json.FLOAT d, _, _ => some (fmt_f d)
  | json.NULL_, _, _ => some ['n', 'u', 'l', 'l']
/-- The `for` loop over the pairs of an object, from the pair at the head of
the list on; a pair that has a successor is followed by a comma. -/
def print_pairs : List (List Char × Option json) → Int → Int → Option (List Char)
  | [], _, _ => some []
  | (_, none) :: _, _, _ => none
  | (key, some value) :: rest, indent, indentation_size =>
    match c_string key with
    | none => none
    | some name =>
      match pretty_print_json value (indent + indentation_size) indentation_size with
      | none => none
      | some text =>
        match print_pairs rest indent indentation_size with
        | none => none
        | some more =>
          some (pad indent ++ [' ', ' ', '"'] ++ name ++ ['"', ':', ' '] ++ text
            ++ (if rest.isEmpty then [] else [',']) ++ ['\n'] ++ more)
/-- The `for` loop over the values of an array, from the value at the head of
the list on; a value that has a successor is followed by a comma. -/
def print_values : List (Option json) → Int → Int → Option (List Char)
  | [], _, _ => some []
  | none :: _, _, _ => none
  | some value :: rest, indent, indentation_size =>
    match pretty_print_json value (indent + indentation_size) indentation_size with
    | none => none
    | some text =>
      match print_values rest indent indentation_size with
      | none => none
      | some more =>
        some (pad (indent + 2) ++ text ++ (if rest.isEmpty then [] else [',']) ++ ['\n'] ++ more)
end

/-- `pprint(j, indentation_size)`. -/
def pprint (j : json) (indentation_size : Int) : Option (List Char) :=
  pretty_print_json j 0 indentation_size

/-! ## Vocabulary of the specification -/

/-- A run that has returned or has failed, as opposed to one the model cut
short for lack of fuel. -/
def settled {α : Type} (r : Except fault α) : Prop := r ≠ Except.error fault.out_of_fuel

/-- The token with its span forgotten. -/
def erase_span (t : token) : token := { t with start := 0, end_ := 0 }

/-- A token without payload and without span. -/
def punct (type : token_type) : token :=
  { type := type, value := token_value.unset, start := 0, end_ := 0 }

/-- The tag of a token agrees with the union: a literal holds the member of
its kind, any other token holds none. This is what `lex` produces. -/
def token.wf (t : token) : Prop :=
  match t.type with
  | token_type.STRING_LITERAL => ∃ s, t.value = token_value.string s
  | token_type.INTEGER_LITERAL => ∃ n, t.value = token_value.number n
  | token_type.FLOAT_LITERAL => ∃ d, t.value = token_value.number_f d
  | _ => t.value = token_value.unset

mutual
/-- A Document of the specification: no `NULL` child anywhere and at least
one child in every Object and Array. -/
def is_document : json → Prop
  | json.OBJECT pairs => pairs ≠ [] ∧ is_document_pairs pairs
  | json.ARRAY values => values ≠ [] ∧ is_document_values values
  | json.STRING _ => True
  | json.INT _ => True
  | json.FLOAT _ => True
  | json.NULL_ => True
/-- Every pair holds a Document. -/
def is_document_pairs : List (List Char × Option json) → Prop
  | [] => True
  | (_, none) :: _ => False
  | (_, some v) :: rest => is_document v ∧ is_document_pairs rest
/-- Every value is a Document. -/
def is_document_values : List (Option json) → Prop
  | [] => True
  | none :: _ => False
  | some v :: rest => is_document v ∧ is_document_values rest
end

mutual
/-- The tree has no `NULL` child anywhere. -/
def complete : json → Prop
  | json.OBJECT pairs => complete_pairs pairs
  | json.ARRAY values => complete_values values
  | json.STRING _ => True
  | json.INT _ => True
  | json.FLOAT _ => True
  | json.NULL_ => True
/-- No pair has a `NULL` value, at any depth. -/
def complete_pairs : List (List Char × Option json) → Prop
  | [] => True
  | (_, none) :: _ => False
  | (_, some v) :: rest => complete v ∧ complete_pairs rest
/-- No value is `NULL`, at any depth. -/
def complete_values : List (Option json) → Prop
  | [] => True
  | none :: _ => False
  | some v :: rest => complete v ∧ complete_values rest
end

mutual
/-- The canonical token sequence of a tree: a leaf is its one literal token,
an Array is `[ v1 , ... , vk ]`, an Object is `{ key1 : v1 , ... }`. -/
def toks : json → List token
  | json.OBJECT pairs => punct token_type.OPEN_BRACE :: (toks_pairs pairs ++ [punct token_type.CLOSE_BRACE])
  | json.ARRAY values =>
    punct token_type.OPEN_BRACKET :: (toks_values values ++ [punct token_type.CLOSE_BRACKET])
  | json.STRING s => [{ punct token_type.STRING_LITERAL with value := token_value.string s }]
  | json.INT n => [{ punct token_type.INTEGER_LITERAL with value := token_value.number n }]
  | json.FLOAT d => [{ punct token_type.FLOAT_LITERAL with value := token_value.number_f d }]
  | json.NULL_ => [punct token_type.NULL_LITERAL]
/-- The pairs of an Object, separated by commas. -/
def toks_pairs : List (List Char × Option json) → List token
  | [] => []
  | (_, none) :: rest => toks_pairs rest
  | (key, some v) :: rest =>
    { punct token_type.STRING_LITERAL with value := token_value.string key }
      :: punct token_type.COLON
      :: (toks v ++ ((if rest.isEmpty then [] else [punct token_type.COMMA]) ++ toks_pairs rest))
/-- The values of an Array, separated by commas. -/
def toks_values : List (Option json) → List token
  | [] => []
  | none :: rest => toks_values rest
  | some v :: rest =>
    toks v ++ ((if rest.isEmpty then [] else [punct token_type.COMMA]) ++ toks_values rest)
end

/-- `r1` is `r2`, possibly with one COMMA token in front. -/
def opt_comma (r1 r2 : List token) : Prop :=
  r1 = r2 ∨ ∃ c, c.type = token_type.COMMA ∧ r1 = c :: r2

/-- `r` is the closing delimiter of kind `close`, possibly with one COMMA
token in front, followed by `rest`. -/
def closes (close : token_type) (r rest : List token) : Prop :=
  ∃ r2 c, opt_comma r r2 ∧ c.type = close ∧ r2 = c :: rest

mutual
/-- `renders d ts rest`: `ts` is a token sequence of the tree `d` followed by
`rest`, where the comma between two children may be missing and the last
child may be followed by a comma. Spans are free. -/
def renders : json → List token → List token → Prop
  | json.OBJECT pairs, ts, rest =>
    ∃ t ts1 r, ts = t :: ts1 ∧ t.type = token_type.OPEN_BRACE ∧ renders_pairs pairs ts1 r ∧
      closes token_type.CLOSE_BRACE r rest
  | json.ARRAY values, ts, rest =>
    ∃ t ts1 r, ts = t :: ts1 ∧ t.type = token_type.OPEN_BRACKET ∧ renders_values values ts1 r ∧
      closes token_type.CLOSE_BRACKET r rest
  | json.STRING s, ts, rest =>
    ∃ t, ts = t :: rest ∧ t.type = token_type.STRING_LITERAL ∧ t.value = token_value.string s
  | json.INT n, ts, rest =>
    ∃ t, ts = t :: rest ∧ t.type = token_type.INTEGER_LITERAL ∧ t.value = token_value.number n
  | json.FLOAT d, ts, rest =>
    ∃ t, ts = t :: rest ∧ t.type = token_type.FLOAT_LITERAL ∧ t.value = token_value.number_f d
  | json.NULL_, ts, rest => ∃ t, ts = t :: rest ∧ t.type = token_type.NULL_LITERAL
/-- The pairs of an Object, each `key : value`, a comma optional between two. -/
def renders_pairs : List (List Char × Option json) → List token → List token → Prop
  | [], _, _ => False
  | (_, none) :: _, _, _ => False
  | (key, some v) :: more, ts, rest =>
    ∃ k c ts1 r1, ts = k :: c :: ts1 ∧ k.type = token_type.STRING_LITERAL ∧
      k.value = token_value.string key ∧ c.type = token_type.COLON ∧ renders v ts1 r1 ∧
      ((more = [] ∧ r1 = rest) ∨ (more ≠ [] ∧ ∃ r2, opt_comma r1 r2 ∧ renders_pairs more r2 rest))
/-- The values of an Array, a comma optional between two. -/
def renders_values : List (Option json) → List token → List token → Prop
  | [], _, _ => False
  | none :: _, _, _ => False
  | some v :: more, ts, rest =>
    ∃ r1, renders v ts r1 ∧
      ((more = [] ∧ r1 = rest) ∨ (more ≠ [] ∧ ∃ r2, opt_comma r1 r2 ∧ renders_values more r2 rest))
end

/-- The tokens of `all` from the cursor `i` on are `ts`. -/
def at_cursor (all : List token) (i : Nat) (ts : List token) : Prop :=
  i ≤ all.length ∧ all.drop i = ts

/-- The rational number a finite `double` stands for. -/
def double.to_rat (d : double) : ℚ := (if d.neg then -1 else 1) * (d.mant : ℚ) * (2 : ℚ) ^ d.exp

/-- The token with both ends of its span moved up by `n`. -/
def shift (n : Nat) (t : token) : token :=
  { t with start := n + t.start, end_ := n + t.end_ }

/-- The tokens `lex` appends from the moment `r.i = i` on. -/
def lex_at (stream : List Char) (i : Nat) : Option (List token) :=
  lex_loop stream (strlen stream) (strlen stream - i) i

/-- A C string proper: no NUL among its characters. -/
def nul_free (s : List Char) : Prop := ∀ c ∈ s, c ≠ '\x00'

/-- One iteration of the loop of `lex` at `r.i = i`: the token it appends, if
any, and the new `r.i`; `none` when the store of `gobble_number` leaves its
chunk. -/
def lex_step (stream : List Char) (i : Nat) : Option (Option token × Nat) :=
  if is_whitespace (char_at stream i) then some (none, i + 1)
  else if char_at stream i == '{' then some (some (make_token token_type.OPEN_BRACE i), i + 1)
  else if char_at stream i == '}' then some (some (make_token token_type.CLOSE_BRACE i), i + 1)
  else if char_at stream i == '[' then some (some (make_token token_type.OPEN_BRACKET i), i + 1)
  else if char_at stream i == ']' then some (some (make_token token_type.CLOSE_BRACKET i), i + 1)
  else if char_at stream i == ':' then some (some (make_token token_type.COLON i), i + 1)
  else if char_at stream i == ',' then some (some (make_token token_type.COMMA i), i + 1)
  else if is_quote (char_at stream i) then
    some (some (gobble_text stream i).1, (gobble_text stream i).2)
  else if is_number (char_at stream i) then
    (gobble_number stream i).map (fun r => (some r.1, r.2))
  else if char_at stream i == 'n' then some (some (make_token token_type.NULL_LITERAL i), i + 4)
  else some (none, i + 1)

/-- The tokens so far with the token of one iteration, if any, in front. -/
def emit (t : Option token) (ts : List token) : List token :=
  match t with
  | some t => t :: ts
  | none => ts

/-- What the loop of `lex` makes of one iteration at `r.i = i` and of the
tokens `rest j` of the iterations from the new `r.i = j` on. -/
def lex_next (stream : List Char) (i : Nat) (rest : Nat → Option (List token)) :
    Option (List token) :=
  match lex_step stream i with
  | none => none
  | some (t, j) => (rest j).map (emit t)

/-- The nonterminals of the grammar: `value`, the run `value (',' value)*`
inside an array, and the run `kv_pair (',' kv_pair)*` inside an object. -/
inductive nonterminal where
  | value
  | elements
  | members
deriving DecidableEq, Repr

/-- The kinds of the one-token values: string, number, null. -/
def is_literal (type : token_type) : Prop :=
  type = token_type.STRING_LITERAL ∨ type = token_type.INTEGER_LITERAL ∨
    type = token_type.FLOAT_LITERAL ∨ type = token_type.NULL_LITERAL

/-- What stands between two elements or pairs: `r1` is a COMMA token followed
by `r2`; when the grammar is not `strict`, `r1` may also be `r2` itself. -/
def separator (strict : Bool) (r1 r2 : List token) : Prop :=
  (∃ m, m.type = token_type.COMMA ∧ r1 = m :: r2) ∨ (strict = false ∧ r1 = r2)

/-- `derives strict nt ts rest`: `ts` is a word of the nonterminal `nt`
followed by `rest`, in the grammar
`value := object | array | string | number | null`,
`object := '{' kv_pair (',' kv_pair)* ','? '}'`, `kv_pair := string ':' value`,
`array := '[' value (',' value)* ','? ']'`.
With `strict = false` the commas between elements and between pairs are
optional. -/
inductive derives (strict : Bool) : nonterminal → List token → List token → Prop where
  | literal (t : token) (rest : List token) :
    is_literal t.type → derives strict nonterminal.value (t :: rest) rest
  | array (o : token) (ts r rest : List token) :
    o.type = token_type.OPEN_BRACKET → derives strict nonterminal.elements ts r →
    closes token_type.CLOSE_BRACKET r rest → derives strict nonterminal.value (o :: ts) rest
  | object (o : token) (ts r rest : List token) :
    o.type = token_type.OPEN_BRACE → derives strict nonterminal.members ts r →
    closes token_type.CLOSE_BRACE r rest → derives strict nonterminal.value (o :: ts) rest
  | elements_one (ts rest : List token) :
    derives strict nonterminal.value ts rest → derives strict nonterminal.elements ts rest
  | elements_more (ts r1 r2 rest : List token) :
    derives strict nonterminal.value ts r1 → separator strict r1 r2 →
    derives strict nonterminal.elements r2 rest → derives strict nonterminal.elements ts rest
  | members_one (k c : token) (ts rest : List token) :
    k.type = token_type.STRING_LITERAL → c.type = token_type.COLON →
    derives strict nonterminal.value ts rest →
    derives strict nonterminal.members (k :: c :: ts) rest
  | members_more (k c : token) (ts r1 r2 rest : List token) :
    k.type = token_type.STRING_LITERAL → c.type = token_type.COLON →
    derives strict nonterminal.value ts r1 → separator strict r1 r2 →
    derives strict nonterminal.members r2 rest →
    derives strict nonterminal.members (k :: c :: ts) rest

/-- Lines joined by a comma and a newline; nothing behind the last line. -/
def joined : List (List Char) → List Char
  | [] => []
  | line :: more => line ++ (if more.isEmpty then [] else [',', '\n'] ++ joined more)

/-- The line of one pair: `spaces` spaces, the quoted key, a colon and a
space, the text of the value. -/
def object_line (spaces : Nat) (key text : List Char) : List Char :=
  List.replicate spaces ' ' ++ ['"'] ++ key ++ ['"', ':', ' '] ++ text

/-- The layout of an Object whose pair lines start with `spaces` spaces: `{`,
newline, the pair lines joined, newline, `n` spaces, `}`. -/
def object_layout (spaces n : Nat) (keys texts : List (List Char)) : List Char :=
  ['{', '\n'] ++ joined (List.zipWith (object_line spaces) keys texts) ++ ['\n']
    ++ List.replicate n ' ' ++ ['}']

/-- The line of one element: `spaces` spaces, the text of the value. -/
def array_line (spaces : Nat) (text : List Char) : List Char :=
  List.replicate spaces ' ' ++ text

/-- The layout of an Array whose element lines start with `spaces` spaces:
`[`, newline, the element lines joined, newline, `n` spaces, `]`. -/
def array_layout (spaces n : Nat) (texts : List (List Char)) : List Char :=
  ['[', '\n'] ++ joined (texts.map (array_line spaces)) ++ ['\n']
    ++ List.replicate n ' ' ++ [']']

/-- What the loops of the printer write for lines already rendered: each
line, a comma when a further line follows, a newline. -/
def lines_body : List (List Char) → List Char
  | [] => []
  | line :: more =>
    line ++ (if more.isEmpty then [] else [',']) ++ ['\n'] ++ lines_body more

mutual
/-- Every Object and every Array of the tree, at any depth, has at least one
child; a child may be `NULL`. -/
def nonempty_containers : json → Prop
  | json.OBJECT pairs => pairs ≠ [] ∧ nonempty_pairs pairs
  | json.ARRAY values => values ≠ [] ∧ nonempty_values values
  | json.STRING _ => True
  | json.INT _ => True
  | json.FLOAT _ => True
  | json.NULL_ => True
/-- The values of the pairs that are not `NULL` have no empty container. -/
def nonempty_pairs : List (List Char × Option json) → Prop
  | [] => True
  | (_, none) :: rest => nonempty_pairs rest
  | (_, some v) :: rest => nonempty_containers v ∧ nonempty_pairs rest
/-- The values that are not `NULL` have no empty container. -/
def nonempty_values : List (Option json) → Prop
  | [] => True
  | none :: rest => nonempty_values rest
  | some v :: rest => nonempty_containers v ∧ nonempty_values rest
end

/-- A `json*` that is `NULL` or points to a tree without empty container. -/
def nonempty_pointer : Option json → Prop
  | none => True
  | some v => nonempty_containers v

/-- A run of digits and `-` in front of `x` is maximal: `x` is empty or
begins with a character that is neither a digit nor `-`. -/
def run_ends (x : List Char) : Prop :=
  ∀ c rest, x = c :: rest → is_number c = false

/-- The decimal value of a text of the form `-?[0-9]+`, given as the sign and
the digits. -/
def decimal_value (neg : Bool) (ds : List Char) : Int :=
  if neg then -(digits_value ds : Int) else (digits_value ds : Int)

/-- The kinds made by `gobble_text` and `gobble_number`: a string or a number,
whose lexeme is passed before the token is made. -/
def lexeme_kind (type : token_type) : Bool :=
  decide (type = token_type.STRING_LITERAL) || decide (type = token_type.INTEGER_LITERAL) ||
    decide (type = token_type.FLOAT_LITERAL)

/-- `comma_deleted ts2 ts`: `ts2` is `ts` with some subset of its COMMA tokens
deleted, every other token kept in place. -/
inductive comma_deleted : List token → List token → Prop where
  | nil : comma_deleted [] []
  | keep (t : token) (a b : List token) : comma_deleted a b → comma_deleted (t :: a) (t :: b)
  | delete (c : token) (a b : List token) : c.type = token_type.COMMA →
    comma_deleted a b → comma_deleted a (c :: b)

/-- The text `s` with `k` space characters inserted immediately after every
newline character. -/
def insert_after_newlines (k : Nat) : List Char → List Char
  | [] => []
  | c :: rest =>
    if c = '\n' then c :: (List.replicate k ' ' ++ insert_after_newlines k rest)
    else c :: insert_after_newlines k rest

mutual
/-- No string value and no key of the tree contains a newline character. -/
def no_newline : json → Prop
  | json.OBJECT pairs => no_newline_pairs pairs
  | json.ARRAY values => no_newline_values values
  | json.STRING s => '\n' ∉ s
  | json.INT _ => True
  | json.FLOAT _ => True
  | json.NULL_ => True
/-- No key and no value of the pairs contains a newline character. -/
def no_newline_pairs : List (List Char × Option json) → Prop
  | [] => True
  | (key, none) :: rest => '\n' ∉ key ∧ no_newline_pairs rest
  | (key, some v) :: rest => '\n' ∉ key ∧ no_newline v ∧ no_newline_pairs rest
/-- No value of the list contains a newline character. -/
def no_newline_values : List (Option json) → Prop
  | [] => True
  | none :: rest => no_newline_values rest
  | some v :: rest => no_newline v ∧ no_newline_values rest
end

/-- `length` children of `width` bytes each fit the chunk of a block of 100
slots of that width. -/
def slots_fit (width length : Nat) : Prop :=
  width * length ≤ malloc_usable_size (width * 100)

mutual
/-- The children of every Object and of every Array of the tree, at any
depth, fit the chunk of the block of 100 slots that `parse_object` and
`parse_array` allocate for them: at most 100 pairs (1608 bytes of a chunk for
1600 asked), at most 101 values (808 bytes for 800 asked). -/
def within_capacity : json → Prop
  | json.OBJECT pairs => slots_fit sizeof_json_kv_pair pairs.length ∧ within_capacity_pairs pairs
  | json.ARRAY values => slots_fit sizeof_json_pointer values.length ∧ within_capacity_values values
  | json.STRING _ => True
  | json.INT _ => True
  | json.FLOAT _ => True
  | json.NULL_ => True
/-- The values of the pairs are within capacity. -/
def within_capacity_pairs : List (List Char × Option json) → Prop
  | [] => True
  | (_, none) :: rest => within_capacity_pairs rest
  | (_, some v) :: rest => within_capacity v ∧ within_capacity_pairs rest
/-- The values are within capacity. -/
def within_capacity_values : List (Option json) → Prop
  | [] => True
  | none :: rest => within_capacity_values rest
  | some v :: rest => within_capacity v ∧ within_capacity_values rest
end

mutual
/-- Every key and every String value of the tree is a C string: its block
holds a NUL. -/
def c_strings : json → Prop
  | json.OBJECT pairs => c_strings_pairs pairs
  | json.ARRAY values => c_strings_values values
  | json.STRING s => '\x00' ∈ s
  | json.INT _ => True
  | json.FLOAT _ => True
  | json.NULL_ => True
/-- Every key of the pairs and every string of their values is a C string. -/
def c_strings_pairs : List (List Char × Option json) → Prop
  | [] => True
  | (key, none) :: rest => '\x00' ∈ key ∧ c_strings_pairs rest
  | (key, some v) :: rest => '\x00' ∈ key ∧ c_strings v ∧ c_strings_pairs rest
/-- Every string of the values is a C string. -/
def c_strings_values : List (Option json) → Prop
  | [] => True
  | none :: rest => c_strings_values rest
  | some v :: rest => c_strings v ∧ c_strings_values rest
end

/-- The tokens of a text, spans forgotten; `none` when `lex` stores behind a
chunk. -/
def lex_erased (x : List Char) : Option (List token) := (lex x).map (List.map erase_span)

/-- What may follow a number for it to be lexed as printed: the end of the
text, or a character that is not a digit, not `-` and not `.`. -/
def boundary (x : List Char) : Prop :=
  ∀ c r, x = c :: r → is_number c = false ∧ c ≠ '.'

/-- The bytes of a block in front of its first NUL: what `%s` writes for a C
string, and what `gobble_text` copies back from the written text. -/
def text_of (block : List Char) : List Char := block.takeWhile (fun c => c != '\x00')

/-- A string value or key the printed form of which lexes back: a C string
the text of which has no `"`. -/
def plain (block : List Char) : Prop := '\x00' ∈ block ∧ '"' ∉ text_of block

mutual
/-- A Document the round trip is claimed for: leaves String (a C string
without `"`), Integer (32-bit signed) or Null, at least one child in every
Object and Array, no `NULL` child, keys C strings without `"`. -/
def printable : json → Prop
  | json.OBJECT pairs => pairs ≠ [] ∧ printable_pairs pairs
  | json.ARRAY values => values ≠ [] ∧ printable_values values
  | json.STRING s => plain s
  | json.INT v => -(2 : Int) ^ 31 ≤ v ∧ v < (2 : Int) ^ 31
  | json.FLOAT _ => False
  | json.NULL_ => True
/-- Every pair has a plain key and a printable value. -/
def printable_pairs : List (List Char × Option json) → Prop
  | [] => True
  | (_, none) :: _ => False
  | (key, some v) :: rest => plain key ∧ printable v ∧ printable_pairs rest
/-- Every value is printable. -/
def printable_values : List (Option json) → Prop
  | [] => True
  | none :: _ => False
  | some v :: rest => printable v ∧ printable_values rest
end

mutual
/-- The tree with every block of a key or String cut in front of its first
NUL: the blocks `gobble_text` makes from the printed text hold the text and no
terminator. -/
def unterminated : json → json
  | json.OBJECT pairs => json.OBJECT (unterminated_pairs pairs)
  | json.ARRAY values => json.ARRAY (unterminated_values values)
  | json.STRING s => json.STRING (text_of s)
  | json.INT v => json.INT v
  | json.FLOAT v => json.FLOAT v
  | json.NULL_ => json.NULL_
/-- The pairs with their keys and values cut. -/
def unterminated_pairs : List (List Char × Option json) → List (List Char × Option json)
  | [] => []
  | (key, none) :: rest => (text_of key, none) :: unterminated_pairs rest
  | (key, some v) :: rest => (text_of key, some (unterminated v)) :: unterminated_pairs rest
/-- The values cut. -/
def unterminated_values : List (Option json) → List (Option json)
  | [] => []
  | none :: rest => none :: unterminated_values rest
  | some v :: rest => some (unterminated v) :: unterminated_values rest
end

mutual
/-- The tree holds no block of characters: no String value and no pair (a
pair has a key). -/
def string_free : json → Prop
  | json.OBJECT pairs => pairs = []
  | json.ARRAY values => string_free_values values
  | json.STRING _ => False
  | json.INT _ => True
  | json.FLOAT _ => True
  | json.NULL_ => True
/-- No value of the list holds a block of characters. -/
def string_free_values : List (Option json) → Prop
  | [] => True
  | none :: rest => string_free_values rest
  | some v :: rest => string_free v ∧ string_free_values rest
end

/-! ## Theorems -/

/-! ### Fuel -/

/-- One more unit of fuel does not change a run that has settled. -/
theorem parse_fuel_succ (tokens : List token) : ∀ fuel : Nat,
    (∀ i, settled (parse_json tokens fuel i) →
      parse_json tokens (fuel + 1) i = parse_json tokens fuel i) ∧
    (∀ i, settled (parse_object_kv tokens fuel i) →
      parse_object_kv tokens (fuel + 1) i = parse_object_kv tokens fuel i) ∧
    (∀ i acc, settled (parse_array_loop tokens fuel i acc) →
      parse_array_loop tokens (fuel + 1) i acc = parse_array_loop tokens fuel i acc) ∧
    (∀ i, settled (parse_array tokens fuel i) →
      parse_array tokens (fuel + 1) i = parse_array tokens fuel i) ∧
    (∀ i acc, settled (parse_object_loop tokens fuel i acc) →
      parse_object_loop tokens (fuel + 1) i acc = parse_object_loop tokens fuel i acc) ∧
    (∀ i, settled (parse_object tokens fuel i) →
      parse_object tokens (fuel + 1) i = parse_object tokens fuel i) := by
  intro fuel
  induction fuel with
  | zero =>
    refine ⟨?_, ?_, ?_, ?_, ?_, ?_⟩ <;> intros <;>
      simp_all [settled, parse_json, parse_object_kv, parse_array_loop, parse_array,
        parse_object_loop, parse_object]
  | succ n ih =>
    obtain ⟨h1, h2, h3, h4, h5, h6⟩ := ih
    refine ⟨?_, ?_, ?_, ?_, ?_, ?_⟩
    · intro i hs
      rw [parse_json] at hs
      conv_lhs => rw [parse_json]
      conv_rhs => rw [parse_json]
      cases ht : token_at tokens i with
      | error e => simp
      | ok t =>
        simp only [ht] at hs ⊢
        split_ifs at hs ⊢
        · have hs2 : settled (parse_object tokens n i) := by
            intro hc; rw [hc] at hs; exact hs rfl
          rw [h6 i hs2]
        · have hs2 : settled (parse_array tokens n i) := by
            intro hc; rw [hc] at hs; exact hs rfl
          rw [h4 i hs2]
        all_goals rfl
    · intro i hs
      rw [parse_object_kv] at hs
      conv_lhs => rw [parse_object_kv]
      conv_rhs => rw [parse_object_kv]
      cases ht : token_at tokens i with
      | error e => simp
      | ok t =>
        simp only [ht] at hs ⊢
        cases hk : parse_string t i with
        | error e => simp
        | ok k =>
          obtain ⟨key, i1⟩ := k
          simp only [hk] at hs ⊢
          cases hc : token_at tokens i1 with
          | error e => simp
          | ok c =>
            simp only [hc] at hs ⊢
            cases ha : assert_token c token_type.COLON with
            | error e => simp
            | ok u =>
              simp only [ha] at hs ⊢
              have hs2 : settled (parse_json tokens n (i1 + 1)) := by
                intro hc; rw [hc] at hs; exact hs rfl
              rw [h1 _ hs2]
    · intro i acc hs
      rw [parse_array_loop] at hs
      conv_lhs => rw [parse_array_loop]
      conv_rhs => rw [parse_array_loop]
      have hs2 : settled (parse_json tokens n i) := by
        intro hc; rw [hc] at hs; exact hs rfl
      rw [h1 _ hs2]
      cases hv : parse_json tokens n i with
      | error e => simp
      | ok v =>
        obtain ⟨value, i1⟩ := v
        simp only [hv] at hs ⊢
        by_cases hfit : store_fits (sizeof_json_pointer * 100) (sizeof_json_pointer * acc.length)
            sizeof_json_pointer = true
        · simp only [hfit, ↓reduceIte] at hs ⊢
          cases ht1 : token_at tokens i1 with
          | error e => simp
          | ok t1 =>
            simp only [ht1] at hs ⊢
            cases ht2 : token_at tokens (if t1.type = token_type.COMMA then i1 + 1 else i1) with
            | error e => simp
            | ok t2 =>
              simp only [ht2] at hs ⊢
              split_ifs at hs ⊢ <;> first | rfl | exact h3 _ _ hs
        · simp [hfit]
    · intro i hs
      rw [parse_array] at hs
      conv_lhs => rw [parse_array]
      conv_rhs => rw [parse_array]
      cases ht : token_at tokens i with
      | error e => simp
      | ok t =>
        simp only [ht] at hs ⊢
        cases ha : assert_token t token_type.OPEN_BRACKET with
        | error e => simp
        | ok u =>
          simp only [ha] at hs ⊢
          exact h3 _ _ hs
    · intro i acc hs
      rw [parse_object_loop] at hs
      conv_lhs => rw [parse_object_loop]
      conv_rhs => rw [parse_object_loop]
      have hs2 : settled (parse_object_kv tokens n i) := by
        intro hc; rw [hc] at hs; exact hs rfl
      rw [h2 _ hs2]
      cases hv : parse_object_kv tokens n i with
      | error e => simp
      | ok v =>
        obtain ⟨pair, i1⟩ := v
        simp only [hv] at hs ⊢
        by_cases hfit : store_fits (sizeof_json_kv_pair * 100) (sizeof_json_kv_pair * acc.length)
            sizeof_json_kv_pair = true
        · simp only [hfit, ↓reduceIte] at hs ⊢
          cases ht1 : token_at tokens i1 with
          | error e => simp
          | ok t1 =>
            simp only [ht1] at hs ⊢
            cases ht2 : token_at tokens (if t1.type = token_type.COMMA then i1 + 1 else i1) with
            | error e => simp
            | ok t2 =>
              simp only [ht2] at hs ⊢
              split_ifs at hs ⊢ <;> first | rfl | exact h5 _ _ hs
        · simp [hfit]
    · intro i hs
      rw [parse_object] at hs
      conv_lhs => rw [parse_object]
      conv_rhs => rw [parse_object]
      cases ht : token_at tokens i with
      | error e => simp
      | ok t =>
        simp only [ht] at hs ⊢
        cases ha : assert_token t token_type.OPEN_BRACE with
        | error e => simp
        | ok u =>
          simp only [ha] at hs ⊢
          exact h5 _ _ hs

/-- A result is settled. -/
theorem settled_of_ok {α : Type} {x : Except fault α} {a : α} (h : x = Except.ok a) :
    settled x := by
  intro hc; rw [h] at hc; cases hc

/-- A run that stopped in a fault other than the lack of fuel is settled. -/
theorem settled_of_error {α : Type} {x : Except fault α} {e : fault}
    (h : x = Except.error e) (he : e ≠ fault.out_of_fuel) : settled x := by
  intro hc; rw [h] at hc; injection hc with hc; exact he hc

/-- A settled run of `parse_json` is the same with any larger fuel. -/
theorem parse_json_fuel_le {tokens : List token} {fuel fuel2 i : Nat}
    (hs : settled (parse_json tokens fuel i)) (hle : fuel ≤ fuel2) :
    parse_json tokens fuel2 i = parse_json tokens fuel i := by
  induction hle with
  | refl => rfl
  | step _ ih => rw [← ih]; exact (parse_fuel_succ tokens _).1 i (by rw [ih]; exact hs)

/-- A settled run of `parse_object_kv` is the same with any larger fuel. -/
theorem parse_object_kv_fuel_le {tokens : List token} {fuel fuel2 i : Nat}
    (hs : settled (parse_object_kv tokens fuel i)) (hle : fuel ≤ fuel2) :
    parse_object_kv tokens fuel2 i = parse_object_kv tokens fuel i := by
  induction hle with
  | refl => rfl
  | step _ ih => rw [← ih]; exact (parse_fuel_succ tokens _).2.1 i (by rw [ih]; exact hs)

/-- A settled run of the array loop is the same with any larger fuel. -/
theorem parse_array_loop_fuel_le {tokens : List token} {fuel fuel2 i : Nat}
    {acc : List (Option json)}
    (hs : settled (parse_array_loop tokens fuel i acc)) (hle : fuel ≤ fuel2) :
    parse_array_loop tokens fuel2 i acc = parse_array_loop tokens fuel i acc := by
  induction hle with
  | refl => rfl
  | step _ ih => rw [← ih]; exact (parse_fuel_succ tokens _).2.2.1 i acc (by rw [ih]; exact hs)

/-- A settled run of the object loop is the same with any larger fuel. -/
theorem parse_object_loop_fuel_le {tokens : List token} {fuel fuel2 i : Nat}
    {acc : List (List Char × Option json)}
    (hs : settled (parse_object_loop tokens fuel i acc)) (hle : fuel ≤ fuel2) :
    parse_object_loop tokens fuel2 i acc = parse_object_loop tokens fuel i acc := by
  induction hle with
  | refl => rfl
  | step _ ih =>
    rw [← ih]; exact (parse_fuel_succ tokens _).2.2.2.2.1 i acc (by rw [ih]; exact hs)

/-- Two settled runs of `parse_json` from the same cursor agree. -/
theorem parse_json_deterministic {tokens : List token} {f1 f2 i : Nat}
    (h1 : settled (parse_json tokens f1 i)) (h2 : settled (parse_json tokens f2 i)) :
    parse_json tokens f1 i = parse_json tokens f2 i := by
  rw [← parse_json_fuel_le h1 (Nat.le_max_left f1 f2),
    ← parse_json_fuel_le h2 (Nat.le_max_right f1 f2)]

/-! ### Reading tokens at the cursor -/

/-- The token under the cursor and the cursor behind it. -/
theorem at_cursor_cons {all : List token} {i : Nat} {t : token} {r : List token}
    (h : at_cursor all i (t :: r)) : token_at all i = Except.ok t ∧ at_cursor all (i + 1) r := by
  obtain ⟨hle, hd⟩ := h
  have hlt : i < all.length := by
    by_contra hc
    have : all.drop i = [] := List.drop_eq_nil_of_le (by omega)
    rw [this] at hd; cases hd
  have hget : all.get? i = some t := by
    have := List.head?_drop all i
    rw [hd] at this
    simpa using this.symm
  refine ⟨by rw [token_at, hget], by omega, ?_⟩
  have := List.tail_drop all i
  rw [hd] at this
  simpa using this.symm

/-! ### The blocks of 100 slots -/

/-- The values of an Array fit their chunk up to the 101st. -/
theorem slots_fit_array (n : Nat) : slots_fit sizeof_json_pointer n ↔ n ≤ 101 := by
  have h : malloc_usable_size (sizeof_json_pointer * 100) = 808 := by decide
  unfold slots_fit
  rw [h]
  simp only [sizeof_json_pointer]
  omega

/-- The pairs of an Object fit their chunk up to the 100th. -/
theorem slots_fit_object (n : Nat) : slots_fit sizeof_json_kv_pair n ↔ n ≤ 100 := by
  have h : malloc_usable_size (sizeof_json_kv_pair * 100) = 1608 := by decide
  unfold slots_fit
  rw [h]
  simp only [sizeof_json_kv_pair]
  omega

/-- The store of a child behind `k` stored children stays inside the chunk
when `k + 1` children fit it. -/
theorem store_fits_slot (width k : Nat) :
    store_fits (width * 100) (width * k) width = true ↔ slots_fit width (k + 1) := by
  unfold store_fits slots_fit
  rw [decide_eq_true_iff, Nat.mul_add, Nat.mul_one]

/-- Fewer children fit as well. -/
theorem slots_fit_le {width m n : Nat} (h : slots_fit width n) (hle : m ≤ n) :
    slots_fit width m :=
  Nat.le_trans (Nat.mul_le_mul_left width hle) h

/-! ### The parser on token sequences of a tree -/

/-- A rendered value begins with a token that is neither a comma nor a
closing delimiter. -/
theorem renders_head {d : json} {ts rest : List token} (h : renders d ts rest) :
    ∃ t r, ts = t :: r ∧ t.type ≠ token_type.COMMA ∧ t.type ≠ token_type.CLOSE_BRACKET ∧
      t.type ≠ token_type.CLOSE_BRACE := by
  cases d with
  | OBJECT pairs =>
    rw [renders] at h
    obtain ⟨t, ts1, r, rfl, ht, -, -⟩ := h
    exact ⟨t, ts1, rfl, by simp [ht]⟩
  | ARRAY values =>
    rw [renders] at h
    obtain ⟨t, ts1, r, rfl, ht, -, -⟩ := h
    exact ⟨t, ts1, rfl, by simp [ht]⟩
  | STRING s =>
    rw [renders] at h
    obtain ⟨t, rfl, ht, -⟩ := h
    exact ⟨t, rest, rfl, by simp [ht]⟩
  | INT n =>
    rw [renders] at h
    obtain ⟨t, rfl, ht, -⟩ := h
    exact ⟨t, rest, rfl, by simp [ht]⟩
  | FLOAT x =>
    rw [renders] at h
    obtain ⟨t, rfl, ht, -⟩ := h
    exact ⟨t, rest, rfl, by simp [ht]⟩
  | NULL_ =>
    rw [renders] at h
    obtain ⟨t, rfl, ht⟩ := h
    exact ⟨t, rest, rfl, by simp [ht]⟩

/-- Rendered values begin with a token that is neither a comma nor a closing
delimiter. -/
theorem renders_values_head {vs : List (Option json)} {ts rest : List token}
    (h : renders_values vs ts rest) :
    ∃ t r, ts = t :: r ∧ t.type ≠ token_type.COMMA ∧ t.type ≠ token_type.CLOSE_BRACKET ∧
      t.type ≠ token_type.CLOSE_BRACE := by
  match vs, h with
  | some v :: more, h =>
    rw [renders_values] at h
    obtain ⟨r1, hv, -⟩ := h
    exact renders_head hv

/-- Rendered pairs begin with a string token. -/
theorem renders_pairs_head {ps : List (List Char × Option json)} {ts rest : List token}
    (h : renders_pairs ps ts rest) :
    ∃ t r, ts = t :: r ∧ t.type ≠ token_type.COMMA ∧ t.type ≠ token_type.CLOSE_BRACKET ∧
      t.type ≠ token_type.CLOSE_BRACE := by
  match ps, h with
  | (key, some v) :: more, h =>
    rw [renders_pairs] at h
    obtain ⟨k, c, ts1, r1, rfl, hk, -⟩ := h
    exact ⟨k, _, rfl, by simp [hk]⟩

/-- The end of a loop iteration at the last child: an optional comma, then
the closing delimiter. -/
theorem loop_tail_close {all : List token} {c1 : Nat} {r rest : List token}
    {close : token_type} (hclose : close ≠ token_type.COMMA)
    (hcl : closes close r rest) (hc1 : at_cursor all c1 r) :
    ∃ t1 t2 c2, token_at all c1 = Except.ok t1 ∧
      token_at all (if t1.type = token_type.COMMA then c1 + 1 else c1) = Except.ok t2 ∧
      t2.type = close ∧ (if t1.type = token_type.COMMA then c1 + 1 else c1) + 1 = c2 ∧
      at_cursor all c2 rest := by
  obtain ⟨r2, c, hoc, hct, rfl⟩ := hcl
  rcases hoc with rfl | ⟨m, hm, rfl⟩
  · obtain ⟨h1, h2⟩ := at_cursor_cons hc1
    have hne : ¬ c.type = token_type.COMMA := by rw [hct]; exact hclose
    exact ⟨c, c, c1 + 1, h1, by simp [hne, h1], hct, by simp [hne], h2⟩
  · obtain ⟨h1, h2⟩ := at_cursor_cons hc1
    obtain ⟨h3, h4⟩ := at_cursor_cons h2
    exact ⟨m, c, c1 + 2, h1, by simp [hm, h3], hct, by simp [hm], h4⟩

/-- The end of a loop iteration before a further child: an optional comma,
then a token that does not close the container. -/
theorem loop_tail_more {all : List token} {c1 : Nat} {r1 r2 : List token} {t : token}
    {r : List token} (hoc : opt_comma r1 r2) (hr2 : r2 = t :: r)
    (hne : t.type ≠ token_type.COMMA) (hc1 : at_cursor all c1 r1) :
    ∃ t1, token_at all c1 = Except.ok t1 ∧
      token_at all (if t1.type = token_type.COMMA then c1 + 1 else c1) = Except.ok t ∧
      at_cursor all (if t1.type = token_type.COMMA then c1 + 1 else c1) r2 := by
  subst hr2
  rcases hoc with rfl | ⟨m, hm, rfl⟩
  · obtain ⟨h1, -⟩ := at_cursor_cons hc1
    exact ⟨t, h1, by simp [hne, h1], by simp [hne, hc1]⟩
  · obtain ⟨h1, h2⟩ := at_cursor_cons hc1
    obtain ⟨h3, -⟩ := at_cursor_cons h2
    exact ⟨m, h1, by simp [hm, h3], by simp [hm, h2]⟩

mutual
/-- The parser on the tokens of a tree at the cursor: when the children fit
their blocks it returns the tree and stops behind the tokens; when they do
not, it stores a child behind the chunk of a block. -/
theorem parse_renders : ∀ (d : json) (ts rest all : List token) (i : Nat),
    renders d ts rest → at_cursor all i ts →
    ∃ fuel, (within_capacity d ∧
        ∃ c, parse_json all fuel i = Except.ok (some d, c) ∧ at_cursor all c rest) ∨
      (¬ within_capacity d ∧ parse_json all fuel i = Except.error fault.heap_overrun)
  | json.OBJECT pairs, ts, rest, all, i, h, hc => by
    rw [renders] at h
    obtain ⟨t, ts1, r, rfl, ht, hp, hcl⟩ := h
    obtain ⟨htok, hc1⟩ := at_cursor_cons hc
    obtain ⟨fuel, hrun⟩ := parse_renders_pairs pairs ts1 r rest all (i + 1) [] hp hcl hc1
    refine ⟨fuel + 2, ?_⟩
    rw [within_capacity]
    simp only [List.length_nil, Nat.zero_add] at hrun
    rcases hrun with ⟨hcap, c, hrun, hc2⟩ | ⟨hcap, hrun⟩
    · refine Or.inl ⟨hcap, c, ?_, hc2⟩
      rw [parse_json, parse_object]
      simp [htok, ht, assert_token, hrun]
    · refine Or.inr ⟨hcap, ?_⟩
      rw [parse_json, parse_object]
      simp [htok, ht, assert_token, hrun]
  | json.ARRAY values, ts, rest, all, i, h, hc => by
    rw [renders] at h
    obtain ⟨t, ts1, r, rfl, ht, hp, hcl⟩ := h
    obtain ⟨htok, hc1⟩ := at_cursor_cons hc
    obtain ⟨fuel, hrun⟩ := parse_renders_values values ts1 r rest all (i + 1) [] hp hcl hc1
    refine ⟨fuel + 2, ?_⟩
    rw [within_capacity]
    simp only [List.length_nil, Nat.zero_add] at hrun
    rcases hrun with ⟨hcap, c, hrun, hc2⟩ | ⟨hcap, hrun⟩
    · refine Or.inl ⟨hcap, c, ?_, hc2⟩
      rw [parse_json, parse_array]
      simp [htok, ht, assert_token, hrun]
    · refine Or.inr ⟨hcap, ?_⟩
      rw [parse_json, parse_array]
      simp [htok, ht, assert_token, hrun]
  | json.STRING s, ts, rest, all, i, h, hc => by
    rw [renders] at h
    obtain ⟨t, rfl, ht, hv⟩ := h
    obtain ⟨htok, hc1⟩ := at_cursor_cons hc
    refine ⟨1, Or.inl ⟨by rw [within_capacity]; trivial, i + 1, ?_, hc1⟩⟩
    rw [parse_json]
    simp [htok, ht, parse_string, hv]
  | json.INT n, ts, rest, all, i, h, hc => by
    rw [renders] at h
    obtain ⟨t, rfl, ht, hv⟩ := h
    obtain ⟨htok, hc1⟩ := at_cursor_cons hc
    refine ⟨1, Or.inl ⟨by rw [within_capacity]; trivial, i + 1, ?_, hc1⟩⟩
    rw [parse_json]
    simp [htok, ht, parse_number, hv]
  | json.FLOAT x, ts, rest, all, i, h, hc => by
    rw [renders] at h
    obtain ⟨t, rfl, ht, hv⟩ := h
    obtain ⟨htok, hc1⟩ := at_cursor_cons hc
    refine ⟨1, Or.inl ⟨by rw [within_capacity]; trivial, i + 1, ?_, hc1⟩⟩
    rw [parse_json]
    simp [htok, ht, parse_number, hv]
  | json.NULL_, ts, rest, all, i, h, hc => by
    rw [renders] at h
    obtain ⟨t, rfl, ht⟩ := h
    obtain ⟨htok, hc1⟩ := at_cursor_cons hc
    refine ⟨1, Or.inl ⟨by rw [within_capacity]; trivial, i + 1, ?_, hc1⟩⟩
    rw [parse_json]
    simp [htok, ht, parse_null]
/-- The object loop on the tokens of pairs at the cursor, `acc` already
stored: when all pairs fit the block, and the children of the new ones fit
theirs, it stores the new pairs and stops behind the closing brace; when not,
it stores behind the chunk of a block. -/
theorem parse_renders_pairs : ∀ (ps : List (List Char × Option json))
    (ts r rest all : List token) (i : Nat) (acc : List (List Char × Option json)),
    renders_pairs ps ts r → closes token_type.CLOSE_BRACE r rest → at_cursor all i ts →
    ∃ fuel, ((slots_fit sizeof_json_kv_pair (acc.length + ps.length) ∧ within_capacity_pairs ps) ∧
        ∃ c, parse_object_loop all fuel i acc = Except.ok (acc ++ ps, c) ∧ at_cursor all c rest) ∨
      (¬ (slots_fit sizeof_json_kv_pair (acc.length + ps.length) ∧ within_capacity_pairs ps) ∧
        parse_object_loop all fuel i acc = Except.error fault.heap_overrun)
  | [], _, _, _, _, _, _, h, _, _ => by rw [renders_pairs] at h; exact h.elim
  | (_, none) :: _, _, _, _, _, _, _, h, _, _ => by rw [renders_pairs] at h; exact h.elim
  | (key, some v) :: more, ts, r, rest, all, i, acc, h, hcl, hc => by
    rw [renders_pairs] at h
    obtain ⟨k, c, ts1, r1, rfl, hk, hkv, hcol, hv, hrest⟩ := h
    obtain ⟨htk, hck⟩ := at_cursor_cons hc
    obtain ⟨htc, hcc⟩ := at_cursor_cons hck
    obtain ⟨f1, hchild⟩ := parse_renders v ts1 r1 all (i + 1 + 1) hv hcc
    rw [within_capacity_pairs, List.length_cons]
    rcases hchild with ⟨hwv, c1, hrun1, hc1⟩ | ⟨hwv, hrun1⟩
    · have hkvrun : ∀ f, f1 ≤ f →
          parse_object_kv all (f + 1) i = Except.ok ((key, some v), c1) := by
        intro f hf
        rw [parse_object_kv]
        have := parse_json_fuel_le (settled_of_ok hrun1) hf
        simp [htk, parse_string, hkv, htc, assert_token, hcol, this, hrun1]
      by_cases hfit : store_fits (sizeof_json_kv_pair * 100) (sizeof_json_kv_pair * acc.length)
          sizeof_json_kv_pair = true
      · have hslot := (store_fits_slot _ _).mp hfit
        rcases hrest with ⟨rfl, rfl⟩ | ⟨hne, r2, hoc, hmore⟩
        · obtain ⟨t1, t2, c2, h1, h2, h3, h4, h5⟩ := loop_tail_close (by decide) hcl hc1
          refine ⟨f1 + 2, Or.inl ⟨⟨hslot, hwv, by rw [within_capacity_pairs]; trivial⟩, c2, ?_, h5⟩⟩
          rw [parse_object_loop, hkvrun f1 (le_refl _)]
          simp [hfit, h1, h2, h3, h4]
        · obtain ⟨t, r', hr2, hn1, -, hn3⟩ := renders_pairs_head hmore
          obtain ⟨t1, h1, h2, h3⟩ := loop_tail_more hoc hr2 hn1 hc1
          obtain ⟨f2, hloop⟩ :=
            parse_renders_pairs more r2 r rest all _ (acc ++ [(key, some v)]) hmore hcl h3
          have hlen : (acc ++ [(key, some v)]).length + more.length =
              acc.length + (more.length + 1) := by
            rw [List.length_append, List.length_singleton]; omega
          rw [hlen] at hloop
          have hkv2 := parse_object_kv_fuel_le (settled_of_ok (hkvrun f1 (le_refl _)))
            (Nat.le_max_left (f1 + 1) f2)
          have hstep : ∀ x, parse_object_loop all f2 (if t1.type = token_type.COMMA
                then c1 + 1 else c1) (acc ++ [(key, some v)]) = x → settled x →
              parse_object_loop all (max (f1 + 1) f2 + 1) i acc = x := by
            intro x hx hs
            rw [parse_object_loop, hkv2, hkvrun f1 (le_refl _)]
            simp only [hfit, ↓reduceIte, h1, h2, hn3]
            rw [parse_object_loop_fuel_le (by rw [hx]; exact hs) (Nat.le_max_right (f1 + 1) f2),
              hx]
          refine ⟨max (f1 + 1) f2 + 1, ?_⟩
          rcases hloop with ⟨⟨hcap, hwm⟩, c2, hrun2, hc2⟩ | ⟨hcap, hrun2⟩
          · refine Or.inl ⟨⟨hcap, hwv, hwm⟩, c2, ?_, hc2⟩
            rw [hstep _ hrun2 (settled_of_ok rfl)]
            simp
          · refine Or.inr ⟨fun hx => hcap ⟨hx.1, hx.2.2⟩, ?_⟩
            exact hstep _ hrun2 (settled_of_error rfl (by decide))
      · refine ⟨f1 + 2, Or.inr ⟨fun hx => hfit ((store_fits_slot _ _).mpr
          (slots_fit_le hx.1 (by omega))), ?_⟩⟩
        rw [parse_object_loop, hkvrun f1 (le_refl _)]
        simp [hfit]
    · refine ⟨f1 + 2, Or.inr ⟨fun hx => hwv hx.2.1, ?_⟩⟩
      have hkv1 : parse_object_kv all (f1 + 1) i = Except.error fault.heap_overrun := by
        rw [parse_object_kv]
        simp [htk, parse_string, hkv, htc, assert_token, hcol, hrun1]
      rw [parse_object_loop, hkv1]
/-- The array loop on the tokens of values at the cursor, `acc` already
stored: when all values fit the block, and the children of the new ones fit
theirs, it stores the new values and stops behind the closing bracket; when
not, it stores behind the chunk of a block. -/
theorem parse_renders_values : ∀ (vs : List (Option json))
    (ts r rest all : List token) (i : Nat) (acc : List (Option json)),
    renders_values vs ts r → closes token_type.CLOSE_BRACKET r rest → at_cursor all i ts →
    ∃ fuel, ((slots_fit sizeof_json_pointer (acc.length + vs.length) ∧ within_capacity_values vs) ∧
        ∃ c, parse_array_loop all fuel i acc = Except.ok (acc ++ vs, c) ∧ at_cursor all c rest) ∨
      (¬ (slots_fit sizeof_json_pointer (acc.length + vs.length) ∧ within_capacity_values vs) ∧
        parse_array_loop all fuel i acc = Except.error fault.heap_overrun)
  | [], _, _, _, _, _, _, h, _, _ => by rw [renders_values] at h; exact h.elim
  | none :: _, _, _, _, _, _, _, h, _, _ => by rw [renders_values] at h; exact h.elim
  | some v :: more, ts, r, rest, all, i, acc, h, hcl, hc => by
    rw [renders_values] at h
    obtain ⟨r1, hv, hrest⟩ := h
    obtain ⟨f1, hchild⟩ := parse_renders v ts r1 all i hv hc
    rw [within_capacity_values, List.length_cons]
    rcases hchild with ⟨hwv, c1, hrun1, hc1⟩ | ⟨hwv, hrun1⟩
    · by_cases hfit : store_fits (sizeof_json_pointer * 100) (sizeof_json_pointer * acc.length)
          sizeof_json_pointer = true
      · have hslot := (store_fits_slot _ _).mp hfit
        rcases hrest with ⟨rfl, rfl⟩ | ⟨hne, r2, hoc, hmore⟩
        · obtain ⟨t1, t2, c2, h1, h2, h3, h4, h5⟩ := loop_tail_close (by decide) hcl hc1
          refine ⟨f1 + 1, Or.inl ⟨⟨hslot, hwv, by rw [within_capacity_values]; trivial⟩, c2, ?_, h5⟩⟩
          rw [parse_array_loop, hrun1]
          simp [hfit, h1, h2, h3, h4]
        · obtain ⟨t, r', hr2, hn1, hn2, -⟩ := renders_values_head hmore
          obtain ⟨t1, h1, h2, h3⟩ := loop_tail_more hoc hr2 hn1 hc1
          obtain ⟨f2, hloop⟩ :=
            parse_renders_values more r2 r rest all _ (acc ++ [some v]) hmore hcl h3
          have hlen : (acc ++ [some v]).length + more.length =
              acc.length + (more.length + 1) := by
            rw [List.length_append, List.length_singleton]; omega
          rw [hlen] at hloop
          have hj2 := parse_json_fuel_le (settled_of_ok hrun1) (Nat.le_max_left f1 f2)
          have hstep : ∀ x, parse_array_loop all f2 (if t1.type = token_type.COMMA
                then c1 + 1 else c1) (acc ++ [some v]) = x → settled x →
              parse_array_loop all (max f1 f2 + 1) i acc = x := by
            intro x hx hs
            rw [parse_array_loop, hj2, hrun1]
            simp only [hfit, ↓reduceIte, h1, h2, hn2]
            rw [parse_array_loop_fuel_le (by rw [hx]; exact hs) (Nat.le_max_right f1 f2), hx]
          refine ⟨max f1 f2 + 1, ?_⟩
          rcases hloop with ⟨⟨hcap, hwm⟩, c2, hrun2, hc2⟩ | ⟨hcap, hrun2⟩
          · refine Or.inl ⟨⟨hcap, hwv, hwm⟩, c2, ?_, hc2⟩
            rw [hstep _ hrun2 (settled_of_ok rfl)]
            simp
          · refine Or.inr ⟨fun hx => hcap ⟨hx.1, hx.2.2⟩, ?_⟩
            exact hstep _ hrun2 (settled_of_error rfl (by decide))
      · refine ⟨f1 + 1, Or.inr ⟨fun hx => hfit ((store_fits_slot _ _).mpr
          (slots_fit_le hx.1 (by omega))), ?_⟩⟩
        rw [parse_array_loop, hrun1]
        simp [hfit]
    · refine ⟨f1 + 1, Or.inr ⟨fun hx => hwv hx.2.1, ?_⟩⟩
      rw [parse_array_loop, hrun1]
end
/-! ### Canonical token sequences -/

/-- What `erase_span` keeps. -/
theorem erase_span_eq {t u : token} (h : erase_span t = u) :
    t.type = u.type ∧ t.value = u.value := by
  subst h; exact ⟨rfl, rfl⟩

/-- A container whose tokens are the canonical ones up to spans: its opening
token, the tokens of its children, its closing token. -/
theorem map_erase_container {ts inner : List token} {o c : token}
    (h : ts.map erase_span = o :: (inner ++ [c])) :
    ∃ t tv tc, ts = t :: (tv ++ [tc]) ∧ erase_span t = o ∧ tv.map erase_span = inner ∧
      erase_span tc = c := by
  obtain ⟨t, ts1, rfl, ht, h1⟩ := List.map_eq_cons_iff.mp h
  obtain ⟨tv, tcs, rfl, h2, h3⟩ := List.map_eq_append_iff.mp h1
  obtain ⟨tc, tcs2, rfl, h4, h5⟩ := List.map_eq_cons_iff.mp h3
  have : tcs2 = [] := by simpa using h5
  subst this
  exact ⟨t, tv, tc, rfl, ht, h2, h4⟩

mutual
/-- The canonical tokens of a Document, with any spans, render it. -/
theorem renders_toks : ∀ (d : json) (ts s : List token), is_document d →
    ts.map erase_span = toks d → renders d (ts ++ s) s
  | json.OBJECT pairs, ts, s, hd, h => by
    rw [is_document] at hd
    rw [toks] at h
    obtain ⟨t, tv, tc, rfl, ht, hv, hc⟩ := map_erase_container h
    rw [renders]
    refine ⟨t, tv ++ [tc] ++ s, tc :: s, by simp, (erase_span_eq ht).1, ?_,
      ⟨tc :: s, tc, Or.inl rfl, (erase_span_eq hc).1, rfl⟩⟩
    have := renders_toks_pairs pairs tv (tc :: s) hd.2 hd.1 hv
    simpa using this
  | json.ARRAY values, ts, s, hd, h => by
    rw [is_document] at hd
    rw [toks] at h
    obtain ⟨t, tv, tc, rfl, ht, hv, hc⟩ := map_erase_container h
    rw [renders]
    refine ⟨t, tv ++ [tc] ++ s, tc :: s, by simp, (erase_span_eq ht).1, ?_,
      ⟨tc :: s, tc, Or.inl rfl, (erase_span_eq hc).1, rfl⟩⟩
    have := renders_toks_values values tv (tc :: s) hd.2 hd.1 hv
    simpa using this
  | json.STRING v, ts, s, _, h => by
    rw [toks] at h
    obtain ⟨t, ts1, rfl, ht, h1⟩ := List.map_eq_cons_iff.mp h
    have : ts1 = [] := by simpa using h1
    subst this
    rw [renders]
    exact ⟨t, rfl, (erase_span_eq ht).1, (erase_span_eq ht).2⟩
  | json.INT v, ts, s, _, h => by
    rw [toks] at h
    obtain ⟨t, ts1, rfl, ht, h1⟩ := List.map_eq_cons_iff.mp h
    have : ts1 = [] := by simpa using h1
    subst this
    rw [renders]
    exact ⟨t, rfl, (erase_span_eq ht).1, (erase_span_eq ht).2⟩
  | json.FLOAT v, ts, s, _, h => by
    rw [toks] at h
    obtain ⟨t, ts1, rfl, ht, h1⟩ := List.map_eq_cons_iff.mp h
    have : ts1 = [] := by simpa using h1
    subst this
    rw [renders]
    exact ⟨t, rfl, (erase_span_eq ht).1, (erase_span_eq ht).2⟩
  | json.NULL_, ts, s, _, h => by
    rw [toks] at h
    obtain ⟨t, ts1, rfl, ht, h1⟩ := List.map_eq_cons_iff.mp h
    have : ts1 = [] := by simpa using h1
    subst this
    rw [renders]
    exact ⟨t, rfl, (erase_span_eq ht).1⟩
/-- The canonical tokens of the pairs of an Object render them. -/
theorem renders_toks_pairs : ∀ (ps : List (List Char × Option json)) (ts r : List token),
    is_document_pairs ps → ps ≠ [] → ts.map erase_span = toks_pairs ps →
    renders_pairs ps (ts ++ r) r
  | [], _, _, _, hne, _ => (hne rfl).elim
  | (_, none) :: _, _, _, hd, _, _ => by rw [is_document_pairs] at hd; exact hd.elim
  | (key, some v) :: more, ts, r, hd, _, h => by
    rw [is_document_pairs] at hd
    rw [toks_pairs] at h
    obtain ⟨k, ts1, rfl, hk, h1⟩ := List.map_eq_cons_iff.mp h
    obtain ⟨c, ts2, rfl, hc, h2⟩ := List.map_eq_cons_iff.mp h1
    obtain ⟨tv, ts3, rfl, h3, h4⟩ := List.map_eq_append_iff.mp h2
    rw [renders_pairs]
    by_cases hm : more = []
    · subst hm
      have : ts3 = [] := by simpa [toks_pairs] using h4
      subst this
      refine ⟨k, c, tv ++ r, r, by simp, (erase_span_eq hk).1, (erase_span_eq hk).2,
        (erase_span_eq hc).1, renders_toks v tv r hd.1 h3, Or.inl ⟨rfl, rfl⟩⟩
    · have hne : more.isEmpty = false := by
        cases more with
        | nil => exact (hm rfl).elim
        | cons a b => rfl
      rw [hne] at h4
      obtain ⟨tm, ts4, rfl, h5, h6⟩ := List.map_eq_append_iff.mp h4
      obtain ⟨m, tm2, rfl, h7, h8⟩ := List.map_eq_cons_iff.mp (by simpa using h5)
      have : tm2 = [] := by simpa using h8
      subst this
      refine ⟨k, c, tv ++ (m :: (ts4 ++ r)), m :: (ts4 ++ r), by simp,
        (erase_span_eq hk).1, (erase_span_eq hk).2, (erase_span_eq hc).1,
        renders_toks v tv _ hd.1 h3, Or.inr ⟨hm, ts4 ++ r, Or.inr ⟨m, (erase_span_eq h7).1, rfl⟩,
          renders_toks_pairs more ts4 r hd.2 hm h6⟩⟩
/-- The canonical tokens of the values of an Array render them. -/
theorem renders_toks_values : ∀ (vs : List (Option json)) (ts r : List token),
    is_document_values vs → vs ≠ [] → ts.map erase_span = toks_values vs →
    renders_values vs (ts ++ r) r
  | [], _, _, _, hne, _ => (hne rfl).elim
  | none :: _, _, _, hd, _, _ => by rw [is_document_values] at hd; exact hd.elim
  | some v :: more, ts, r, hd, _, h => by
    rw [is_document_values] at hd
    rw [toks_values] at h
    obtain ⟨tv, ts3, rfl, h3, h4⟩ := List.map_eq_append_iff.mp h
    rw [renders_values]
    by_cases hm : more = []
    · subst hm
      have : ts3 = [] := by simpa [toks_values] using h4
      subst this
      exact ⟨r, by simpa using renders_toks v tv r hd.1 h3, Or.inl ⟨rfl, rfl⟩⟩
    · have hne : more.isEmpty = false := by
        cases more with
        | nil => exact (hm rfl).elim
        | cons a b => rfl
      rw [hne] at h4
      obtain ⟨tm, ts4, rfl, h5, h6⟩ := List.map_eq_append_iff.mp h4
      obtain ⟨m, tm2, rfl, h7, h8⟩ := List.map_eq_cons_iff.mp (by simpa using h5)
      have : tm2 = [] := by simpa using h8
      subst this
      refine ⟨m :: (ts4 ++ r), by simpa using renders_toks v tv _ hd.1 h3,
        Or.inr ⟨hm, ts4 ++ r, Or.inr ⟨m, (erase_span_eq h7).1, rfl⟩,
          renders_toks_values more ts4 r hd.2 hm h6⟩⟩
end

/-- The cursor behind a prefix stands at what follows the prefix. -/
theorem at_cursor_append (p ts : List token) : at_cursor (p ++ ts) p.length ts := by
  constructor
  · simp
  · simp

/-- The cursor that stands at a suffix is the length of what precedes it. -/
theorem at_cursor_length {p ts s : List token} {c : Nat} (h : at_cursor (p ++ ts ++ s) c s) :
    c = p.length + ts.length := by
  obtain ⟨hle, hd⟩ := h
  have h1 := congrArg List.length hd
  simp only [List.length_drop, List.length_append] at h1 hle
  omega

/-- The parser on a rendered tree whose children fit their blocks, between a
prefix and a suffix: with enough fuel it returns the tree and stops at the
first token of the suffix. -/
theorem parse_of_renders {d : json} {p ts s : List token} (h : renders d (ts ++ s) s)
    (hcap : within_capacity d) :
    ∃ fuel, ∀ fuel2, fuel ≤ fuel2 →
      parse_json (p ++ ts ++ s) fuel2 p.length = Except.ok (some d, p.length + ts.length) := by
  have hc : at_cursor (p ++ ts ++ s) p.length (ts ++ s) := by
    rw [List.append_assoc]; exact at_cursor_append p (ts ++ s)
  obtain ⟨fuel, hrun⟩ := parse_renders d (ts ++ s) s (p ++ ts ++ s) p.length h hc
  rcases hrun with ⟨-, c, hrun, hc2⟩ | ⟨hn, -⟩
  · have hcl := at_cursor_length hc2
    subst hcl
    refine ⟨fuel, fun fuel2 hle => ?_⟩
    rw [parse_json_fuel_le (settled_of_ok hrun) hle, hrun]
  · exact absurd hcap hn

/-- The parser on a rendered tree some children of which do not fit their
block: with enough fuel it stores a child behind the chunk of the block. -/
theorem overrun_of_renders {d : json} {p ts s : List token} (h : renders d (ts ++ s) s)
    (hcap : ¬ within_capacity d) :
    ∃ fuel, ∀ fuel2, fuel ≤ fuel2 →
      parse_json (p ++ ts ++ s) fuel2 p.length = Except.error fault.heap_overrun := by
  have hc : at_cursor (p ++ ts ++ s) p.length (ts ++ s) := by
    rw [List.append_assoc]; exact at_cursor_append p (ts ++ s)
  obtain ⟨fuel, hrun⟩ := parse_renders d (ts ++ s) s (p ++ ts ++ s) p.length h hc
  rcases hrun with ⟨hw, -⟩ | ⟨-, hrun⟩
  · exact absurd hw hcap
  · refine ⟨fuel, fun fuel2 hle => ?_⟩
    rw [parse_json_fuel_le (settled_of_error hrun (by decide)) hle, hrun]

/-- What `parse_json` has returned it returns with any fuel added. -/
theorem parse_json_add_ok {tokens : List token} {i : Nat} {a : Option json × Nat}
    (fuel k : Nat) (h : parse_json tokens fuel i = Except.ok a) :
    parse_json tokens (fuel + k) i = Except.ok a := by
  rw [parse_json_fuel_le (settled_of_ok h) (Nat.le_add_right fuel k), h]

/-- The fault `parse_json` has stopped in it stops in with any fuel added. -/
theorem parse_json_add_error {tokens : List token} {i : Nat} {e : fault}
    (fuel k : Nat) (h : parse_json tokens fuel i = Except.error e) (he : e ≠ fault.out_of_fuel) :
    parse_json tokens (fuel + k) i = Except.error e := by
  rw [parse_json_fuel_le (settled_of_error h he) (Nat.le_add_right fuel k), h]

mutual
/-- The canonical tokens carry no span. -/
theorem toks_erased : ∀ d : json, (toks d).map erase_span = toks d
  | json.OBJECT pairs => by
    rw [toks]
    simp only [List.map_cons, List.map_append, List.map_nil, toks_pairs_erased pairs]
    rfl
  | json.ARRAY values => by
    rw [toks]
    simp only [List.map_cons, List.map_append, List.map_nil, toks_values_erased values]
    rfl
  | json.STRING _ => rfl
  | json.INT _ => rfl
  | json.FLOAT _ => rfl
  | json.NULL_ => rfl
/-- The canonical tokens of pairs carry no span. -/
theorem toks_pairs_erased : ∀ ps : List (List Char × Option json),
    (toks_pairs ps).map erase_span = toks_pairs ps
  | [] => rfl
  | (_, none) :: rest => by rw [toks_pairs]; exact toks_pairs_erased rest
  | (key, some v) :: rest => by
    rw [toks_pairs]
    simp only [List.map_cons, List.map_append, toks_erased v, toks_pairs_erased rest]
    cases rest <;> rfl
/-- The canonical tokens of values carry no span. -/
theorem toks_values_erased : ∀ vs : List (Option json),
    (toks_values vs).map erase_span = toks_values vs
  | [] => rfl
  | none :: rest => by rw [toks_values]; exact toks_values_erased rest
  | some v :: rest => by
    rw [toks_values]
    simp only [List.map_append, toks_erased v, toks_values_erased rest]
    cases rest <;> rfl
end

/-- Copies of one Document are the values of a Document. -/
theorem is_document_values_replicate (v : json) (hv : is_document v) :
    ∀ n, is_document_values (List.replicate n (some v))
  | 0 => by rw [List.replicate_zero, is_document_values]; trivial
  | n + 1 => by
    rw [List.replicate_succ, is_document_values]
    exact ⟨hv, is_document_values_replicate v hv n⟩

/-- C2 (the code within and beyond the blocks of 100 slots). Parser
correctness and cursor discipline: for a Document `d` (no `NULL` child, every
container non-empty), any tokens `ts` that are the canonical sequence `toks d`
up to spans, any prefix `p` and suffix `s`, and every fuel from some bound on:
when the children of every container of `d` fit the chunk of its block of 100
slots, `parse_json` on `p ++ ts ++ s` from cursor `|p|` returns `d` (pairs in
encounter order, duplicate keys kept) with the cursor at `|p| + |toks d|`;
when they do not, as in an Array of 110 values, `parse_json` does not return
`d`: `parse_array` or `parse_object`, which check no bound, store a child
behind the chunk of the block. -/
theorem parse_json_canonical (d : json) (hd : is_document d) (p ts s : List token)
    (hts : ts.map erase_span = toks d) :
    (within_capacity d → ∃ fuel, ∀ fuel2, fuel ≤ fuel2 →
      parse_json (p ++ ts ++ s) fuel2 p.length =
        Except.ok (some d, p.length + (toks d).length)) ∧
    (¬ within_capacity d → ∃ fuel, ∀ fuel2, fuel ≤ fuel2 →
      parse_json (p ++ ts ++ s) fuel2 p.length = Except.error fault.heap_overrun) := by
  have hlen : (toks d).length = ts.length := by rw [← hts, List.length_map]
  rw [hlen]
  exact ⟨parse_of_renders (renders_toks d ts s hd hts),
    overrun_of_renders (renders_toks d ts s hd hts)⟩

/-- C2 at the Object `{"k": 1, "k": [null]}` with a duplicate key, behind one
stray token and in front of another, and at the failing input, the canonical
tokens of the Array of 110 Null values. -/
theorem parse_json_canonical_witness :
    (is_document (json.OBJECT [(['k'], some (json.INT 1)),
      (['k'], some (json.ARRAY [some json.NULL_]))]) ∧
    within_capacity (json.OBJECT [(['k'], some (json.INT 1)),
      (['k'], some (json.ARRAY [some json.NULL_]))]) ∧
    ∃ fuel, ∀ fuel2, fuel ≤ fuel2 →
      parse_json ([punct token_type.COLON] ++
          toks (json.OBJECT [(['k'], some (json.INT 1)),
            (['k'], some (json.ARRAY [some json.NULL_]))]) ++ [punct token_type.COMMA])
          fuel2 [punct token_type.COLON].length =
        Except.ok (some (json.OBJECT [(['k'], some (json.INT 1)),
          (['k'], some (json.ARRAY [some json.NULL_]))]),
          [punct token_type.COLON].length +
            (toks (json.OBJECT [(['k'], some (json.INT 1)),
              (['k'], some (json.ARRAY [some json.NULL_]))])).length)) ∧
    (is_document (json.ARRAY (List.replicate 110 (some json.NULL_))) ∧
    ¬ within_capacity (json.ARRAY (List.replicate 110 (some json.NULL_))) ∧
    ∃ fuel, ∀ fuel2, fuel ≤ fuel2 →
      parse_json ([] ++ toks (json.ARRAY (List.replicate 110 (some json.NULL_))) ++ [])
          fuel2 ([] : List token).length = Except.error fault.heap_overrun) :=
  have hd : is_document (json.OBJECT [(['k'], some (json.INT 1)),
      (['k'], some (json.ARRAY [some json.NULL_]))]) := by
    simp [is_document, is_document_pairs, is_document_values]
  have hcap : within_capacity (json.OBJECT [(['k'], some (json.INT 1)),
      (['k'], some (json.ARRAY [some json.NULL_]))]) := by
    simp [within_capacity, within_capacity_pairs, within_capacity_values, slots_fit_object,
      slots_fit_array]
  have hd2 : is_document (json.ARRAY (List.replicate 110 (some json.NULL_))) := by
    rw [is_document]
    exact ⟨by simp, is_document_values_replicate json.NULL_ (by rw [is_document]; trivial) 110⟩
  have hcap2 : ¬ within_capacity (json.ARRAY (List.replicate 110 (some json.NULL_))) := by
    rw [within_capacity, slots_fit_array, List.length_replicate]
    intro h
    exact absurd h.1 (by decide)
  ⟨⟨hd, hcap, (parse_json_canonical _ hd _ _ _ (toks_erased _)).1 hcap⟩,
    ⟨hd2, hcap2, (parse_json_canonical _ hd2 [] _ [] (toks_erased _)).2 hcap2⟩⟩

/-- C3 as stated fails at the tokens of `[1,]`, an array of the grammar of the
specification (`array := '[' value (',' value)* ','? ']'`) that parses to the
Array of the Integer 1: with one more Comma in front of the `]` the tokens are
those of `[1,,]`, on which the loop of `parse_array` takes the second comma
for a value, for which `parse_json` returns `NULL`, and the Array returned
holds the Integer 1 and a `NULL`. -/
theorem trailing_comma_doubled :
    lex "[1,]".toList = some
      [make_token token_type.OPEN_BRACKET 0,
       { make_token token_type.INTEGER_LITERAL 2 with value := token_value.number 1 },
       make_token token_type.COMMA 2, make_token token_type.CLOSE_BRACKET 3] ∧
    lex "[1,,]".toList = some
      [make_token token_type.OPEN_BRACKET 0,
       { make_token token_type.INTEGER_LITERAL 2 with value := token_value.number 1 },
       make_token token_type.COMMA 2, make_token token_type.COMMA 3,
       make_token token_type.CLOSE_BRACKET 4] ∧
    derives true nonterminal.value
      [make_token token_type.OPEN_BRACKET 0,
       { make_token token_type.INTEGER_LITERAL 2 with value := token_value.number 1 },
       make_token token_type.COMMA 2, make_token token_type.CLOSE_BRACKET 3] [] ∧
    parse_json
      [make_token token_type.OPEN_BRACKET 0,
       { make_token token_type.INTEGER_LITERAL 2 with value := token_value.number 1 },
       make_token token_type.COMMA 2, make_token token_type.CLOSE_BRACKET 3] 4 0 =
      Except.ok (some (json.ARRAY [some (json.INT 1)]), 4) ∧
    parse_json
      [make_token token_type.OPEN_BRACKET 0,
       { make_token token_type.INTEGER_LITERAL 2 with value := token_value.number 1 },
       make_token token_type.COMMA 2, make_token token_type.COMMA 3,
       make_token token_type.CLOSE_BRACKET 4] 5 0 =
      Except.ok (some (json.ARRAY [some (json.INT 1), none]), 5) := by
  refine ⟨by decide, by decide, ?_, rfl, rfl⟩
  exact derives.array _ _ [make_token token_type.COMMA 2, make_token token_type.CLOSE_BRACKET 3]
    [] rfl (derives.elements_one _ _ (derives.literal _ _ (Or.inr (Or.inl rfl))))
    ⟨[make_token token_type.CLOSE_BRACKET 3], make_token token_type.CLOSE_BRACKET 3,
      Or.inr ⟨make_token token_type.COMMA 2, rfl, rfl⟩, rfl, rfl⟩


/-- C4 (the code at the failing input `1,`). The IntegerLiteral is stamped
after its lexeme has been passed, so it and the Comma behind it both carry the
span `[1, 2)`: the starts are equal, not increasing. -/
theorem lex_spans_coincide :
    lex "1,".toList = some
      [{ type := token_type.INTEGER_LITERAL, value := token_value.number 1, start := 1, end_ := 2 },
       { type := token_type.COMMA, value := token_value.unset, start := 1, end_ := 2 }] := by
  decide

/-- C5 (the code at the failing input `{"a":}`). `parse_json` on the closing
brace returns `NULL` and leaves the cursor; `parse_object_kv` stores that
`NULL` as the value, the loop sees the brace and ends: an Object with the one
pair `("a", NULL)` is returned, cursor 4, for every fuel from 5 on. -/
theorem missing_value_yields_object :
    ∃ ts, lex "\x7b\"a\":\x7d".toList = some ts ∧
      ∀ k, parse_json ts (5 + k) 0 = Except.ok (some (json.OBJECT [(['a'], none)]), 4) := by
  refine ⟨_, (by decide : lex "\x7b\"a\":\x7d".toList = some
    [make_token token_type.OPEN_BRACE 0,
     { make_token token_type.STRING_LITERAL 4 with value := token_value.string ['a'] },
     make_token token_type.COLON 4, make_token token_type.CLOSE_BRACE 5]), fun k => ?_⟩
  exact parse_json_add_ok 5 k rfl

/-- `parse_json` on a colon returns `NULL` and leaves the cursor. -/
theorem parse_json_colon (tokens : List token) (i : Nat) (t : token)
    (ht : token_at tokens i = Except.ok t) (hty : t.type = token_type.COLON) (fuel : Nat) :
    parse_json tokens (fuel + 1) i = Except.ok (none, i) := by
  rw [parse_json]
  simp [ht, hty]

/-- One iteration of the array loop at a colon, which neither `parse_json` nor
the two tests behind it move past: the `NULL` is stored and the loop goes
round at the same cursor. -/
theorem array_loop_stuck (tokens : List token) (i : Nat) (t : token)
    (ht : token_at tokens i = Except.ok t) (hty : t.type = token_type.COLON) (fuel : Nat)
    (acc : List (Option json)) :
    parse_array_loop tokens (fuel + 2) i acc =
      if store_fits (sizeof_json_pointer * 100) (sizeof_json_pointer * acc.length)
          sizeof_json_pointer then
        parse_array_loop tokens (fuel + 1) i (acc ++ [none])
      else Except.error fault.heap_overrun := by
  rw [parse_array_loop, parse_json_colon tokens i t ht hty fuel]
  simp only [ht, hty, reduceCtorEq, if_false, if_true]

/-- The array loop at a colon does not return: it is still going round, or it
has stored behind the chunk of its block. -/
theorem array_loop_never_returns (tokens : List token) (i : Nat) (t : token)
    (ht : token_at tokens i = Except.ok t) (hty : t.type = token_type.COLON) (fuel : Nat) :
    ∀ acc : List (Option json),
      parse_array_loop tokens fuel i acc = Except.error fault.out_of_fuel ∨
      parse_array_loop tokens fuel i acc = Except.error fault.heap_overrun := by
  induction fuel with
  | zero => intro acc; exact Or.inl rfl
  | succ n ih =>
    intro acc
    cases n with
    | zero => exact Or.inl rfl
    | succ m =>
      rw [array_loop_stuck tokens i t ht hty m acc]
      by_cases hfit : store_fits (sizeof_json_pointer * 100) (sizeof_json_pointer * acc.length)
          sizeof_json_pointer = true
      · rw [if_pos hfit]
        exact ih (acc ++ [none])
      · rw [if_neg hfit]
        exact Or.inr rfl

/-- The array loop at a colon with `n` free slots left in the chunk: the store
of iteration `n + 1` leaves the chunk. -/
theorem array_loop_overruns (tokens : List token) (i : Nat) (t : token)
    (ht : token_at tokens i = Except.ok t) (hty : t.type = token_type.COLON) :
    ∀ (n : Nat) (acc : List (Option json)), acc.length + n = 101 → ∀ k,
      parse_array_loop tokens (n + k + 2) i acc = Except.error fault.heap_overrun := by
  intro n
  induction n with
  | zero =>
    intro acc hlen k
    rw [array_loop_stuck tokens i t ht hty (0 + k) acc]
    have hfit : ¬ store_fits (sizeof_json_pointer * 100) (sizeof_json_pointer * acc.length)
        sizeof_json_pointer = true := by
      rw [store_fits_slot, slots_fit_array]
      omega
    rw [if_neg hfit]
  | succ n ih =>
    intro acc hlen k
    rw [array_loop_stuck tokens i t ht hty (n + 1 + k) acc]
    have hfit : store_fits (sizeof_json_pointer * 100) (sizeof_json_pointer * acc.length)
        sizeof_json_pointer = true := by
      rw [store_fits_slot, slots_fit_array]
      omega
    rw [if_pos hfit]
    have e : n + 1 + k + 1 = n + k + 2 := by omega
    rw [e]
    exact ih (acc ++ [none]) (by rw [List.length_append, List.length_singleton]; omega) k

/-- C7 (the code at the failing input `[:`). The loop of `parse_array` stays
at cursor 1, where `parse_json` returns `NULL` without advancing: every
iteration stores the `NULL` and goes round at the same cursor. Whatever the
fuel, `parse_json` has not returned and has not failed with a diagnostic: it
is still going round, or, from the 102nd iteration on, it has stored behind
the chunk of the block of 100 slots. -/
theorem parse_json_diverges :
    ∃ ts, lex "[:".toList = some ts ∧
      (∀ fuel acc, parse_array_loop ts (fuel + 2) 1 acc =
        if store_fits (sizeof_json_pointer * 100) (sizeof_json_pointer * acc.length)
            sizeof_json_pointer then
          parse_array_loop ts (fuel + 1) 1 (acc ++ [none])
        else Except.error fault.heap_overrun) ∧
      (∀ fuel, parse_json ts fuel 0 = Except.error fault.out_of_fuel ∨
        parse_json ts fuel 0 = Except.error fault.heap_overrun) ∧
      (∀ k, parse_json ts (105 + k) 0 = Except.error fault.heap_overrun) := by
  have hj : ∀ f, parse_json [make_token token_type.OPEN_BRACKET 0,
      make_token token_type.COLON 1] (f + 2) 0 =
      match parse_array_loop [make_token token_type.OPEN_BRACKET 0,
        make_token token_type.COLON 1] f 1 [] with
      | Except.error e => Except.error e
      | Except.ok (values, j) => Except.ok (some (json.ARRAY values), j) := by
    intro f
    rw [parse_json, parse_array]
    rfl
  refine ⟨[make_token token_type.OPEN_BRACKET 0, make_token token_type.COLON 1], by decide,
    fun fuel acc => array_loop_stuck [make_token token_type.OPEN_BRACKET 0,
      make_token token_type.COLON 1] 1 (make_token token_type.COLON 1) rfl rfl fuel acc,
    fun fuel => ?_, fun k => ?_⟩
  · cases fuel with
    | zero => exact Or.inl rfl
    | succ n =>
      cases n with
      | zero => exact Or.inl rfl
      | succ m =>
        rw [hj m]
        rcases array_loop_never_returns [make_token token_type.OPEN_BRACKET 0,
          make_token token_type.COLON 1] 1 (make_token token_type.COLON 1) rfl rfl m [] with h | h
        · rw [h]; exact Or.inl rfl
        · rw [h]; exact Or.inr rfl
  · have e : 105 + k = (101 + k + 2) + 2 := by omega
    rw [e, hj, array_loop_overruns [make_token token_type.OPEN_BRACKET 0,
      make_token token_type.COLON 1] 1 (make_token token_type.COLON 1) rfl rfl 101 [] rfl k]

/-- C8 (the code at the input of the claim). `{"a": [1, 2.5, null, {"b":
"c"}]}` lexes and parses (for every fuel from 15 on) to a tree of the claimed
shape: the Object with the one pair `a`, whose value is the Array of Integer
1, Float 2.5 (exactly), Null and the Object with the one pair `b`, String `c`,
the cursor ending behind the last of the 17 tokens. But the blocks of the
keys `a`, `b` and of the string `c` hold the one byte `gobble_text` copied and
no NUL: they are no C strings, `pprint` of the tree reads past them, and what
it writes is not determined. The text of the claim is what `pprint` with
indentation 2 writes for the tree whose strings end in a NUL. -/
theorem nested_structure :
    ∃ ts, lex "\x7b\"a\": [1, 2.5, null, \x7b\"b\": \"c\"\x7d]\x7d".toList = some ts ∧
    (∀ k, parse_json ts (15 + k) 0 =
      Except.ok (some (json.OBJECT [(['a'], some (json.ARRAY [some (json.INT 1),
        some (json.FLOAT { neg := false, inf := false, mant := 5629499534213120, exp := -51 }),
        some json.NULL_,
        some (json.OBJECT [(['b'], some (json.STRING ['c']))])]))]), 17)) ∧
    double.to_rat { neg := false, inf := false, mant := 5629499534213120, exp := -51 } = 5 / 2 ∧
    c_string ['a'] = none ∧ c_string ['b'] = none ∧ c_string ['c'] = none ∧
    pprint (json.OBJECT [(['a'], some (json.ARRAY [some (json.INT 1),
        some (json.FLOAT { neg := false, inf := false, mant := 5629499534213120, exp := -51 }),
        some json.NULL_,
        some (json.OBJECT [(['b'], some (json.STRING ['c']))])]))]) 2 = none ∧
    pprint (json.OBJECT [(['a', '\x00'], some (json.ARRAY [some (json.INT 1),
        some (json.FLOAT { neg := false, inf := false, mant := 5629499534213120, exp := -51 }),
        some json.NULL_,
        some (json.OBJECT [(['b', '\x00'], some (json.STRING ['c', '\x00']))])]))]) 2 =
      some ("\x7b\n  \"a\": [\n    1,\n    2.500000,\n    null,\n    \x7b\n      \"b\": \"c\"\n"
        ++ "    \x7d\n  ]\n\x7d").toList := by
  refine ⟨_, (by decide : lex "\x7b\"a\": [1, 2.5, null, \x7b\"b\": \"c\"\x7d]\x7d".toList = some
        [make_token token_type.OPEN_BRACE 0,
         { make_token token_type.STRING_LITERAL 4 with value := token_value.string ['a'] },
         make_token token_type.COLON 4,
         make_token token_type.OPEN_BRACKET 6,
         { make_token token_type.INTEGER_LITERAL 8 with value := token_value.number 1 },
         make_token token_type.COMMA 8,
         { type := token_type.FLOAT_LITERAL, start := 13, end_ := 14,
           value := token_value.number_f ⟨false, false, 5629499534213120, -51⟩ },
         make_token token_type.COMMA 13,
         make_token token_type.NULL_LITERAL 15,
         make_token token_type.COMMA 19,
         make_token token_type.OPEN_BRACE 21,
         { make_token token_type.STRING_LITERAL 25 with value := token_value.string ['b'] },
         make_token token_type.COLON 25,
         { make_token token_type.STRING_LITERAL 30 with value := token_value.string ['c'] },
         make_token token_type.CLOSE_BRACE 30,
         make_token token_type.CLOSE_BRACKET 31,
         make_token token_type.CLOSE_BRACE 32]), fun k => parse_json_add_ok 15 k rfl, ?_,
    by decide, by decide, by decide, by decide, by decide⟩
  simp only [double.to_rat]
  norm_num

/-- C10. Missing colon is fatal: when `parse_object_kv` reads a key at the
cursor (a token whose union holds a string, as a StringLiteral does; the code
never looks at the type of the key token) and a token follows it, then, if
that token is not a Colon, `parse_object_kv` stops in `exit(1)` with expected kind Colon
and the kind found, and so does the loop of `parse_object` around it whatever
pairs it has stored (no pair, no tree); if it is a Colon, the value is parsed
by `parse_json` from two tokens behind the key and paired with the key. -/
theorem missing_colon_is_fatal (tokens : List token) (i fuel : Nat) (k c : token)
    (key : List Char)
    (hk : token_at tokens i = Except.ok k)
    (hkv : k.value = token_value.string key)
    (hc : token_at tokens (i + 1) = Except.ok c) :
    (c.type ≠ token_type.COLON →
      parse_object_kv tokens (fuel + 1) i =
        Except.error (fault.exit_1 token_type.COLON c.type) ∧
      ∀ acc, parse_object_loop tokens (fuel + 2) i acc =
        Except.error (fault.exit_1 token_type.COLON c.type)) ∧
    (c.type = token_type.COLON →
      parse_object_kv tokens (fuel + 1) i =
        match parse_json tokens fuel (i + 2) with
        | Except.error e => Except.error e
        | Except.ok (value, j) => Except.ok ((key, value), j)) := by
  have hps : parse_string k i = Except.ok (key, i + 1) := by
    simp [parse_string, hkv]
  constructor
  · intro hne
    have hkv1 : parse_object_kv tokens (fuel + 1) i =
        Except.error (fault.exit_1 token_type.COLON c.type) := by
      rw [parse_object_kv]
      simp [hk, hps, hc, assert_token, hne]
    refine ⟨hkv1, fun acc => ?_⟩
    rw [parse_object_loop, hkv1]
  · intro heq
    rw [parse_object_kv]
    simp [hk, hps, hc, assert_token, heq]

/-- C10 at the tokens of `{"a" 1}` and of `{"a": 1}`, cursor on the key. -/
theorem missing_colon_is_fatal_witness :
    lex "\x7b\"a\" 1\x7d".toList = some
      [make_token token_type.OPEN_BRACE 0,
       { make_token token_type.STRING_LITERAL 4 with value := token_value.string ['a'] },
       { make_token token_type.INTEGER_LITERAL 6 with value := token_value.number 1 },
       make_token token_type.CLOSE_BRACE 6] ∧
    lex "\x7b\"a\": 1\x7d".toList = some
      [make_token token_type.OPEN_BRACE 0,
       { make_token token_type.STRING_LITERAL 4 with value := token_value.string ['a'] },
       make_token token_type.COLON 4,
       { make_token token_type.INTEGER_LITERAL 7 with value := token_value.number 1 },
       make_token token_type.CLOSE_BRACE 7] ∧
    (parse_object_kv
        [make_token token_type.OPEN_BRACE 0,
         { make_token token_type.STRING_LITERAL 4 with value := token_value.string ['a'] },
         { make_token token_type.INTEGER_LITERAL 6 with value := token_value.number 1 },
         make_token token_type.CLOSE_BRACE 6] (3 + 1) 1 =
        Except.error (fault.exit_1 token_type.COLON token_type.INTEGER_LITERAL) ∧
      ∀ acc, parse_object_loop
        [make_token token_type.OPEN_BRACE 0,
         { make_token token_type.STRING_LITERAL 4 with value := token_value.string ['a'] },
         { make_token token_type.INTEGER_LITERAL 6 with value := token_value.number 1 },
         make_token token_type.CLOSE_BRACE 6] (3 + 2) 1 acc =
        Except.error (fault.exit_1 token_type.COLON token_type.INTEGER_LITERAL)) ∧
    parse_object_kv
      [make_token token_type.OPEN_BRACE 0,
       { make_token token_type.STRING_LITERAL 4 with value := token_value.string ['a'] },
       make_token token_type.COLON 4,
       { make_token token_type.INTEGER_LITERAL 7 with value := token_value.number 1 },
       make_token token_type.CLOSE_BRACE 7] (3 + 1) 1 =
      Except.ok ((['a'], some (json.INT 1)), 4) :=
  ⟨by decide, by decide,
   (missing_colon_is_fatal
      [make_token token_type.OPEN_BRACE 0,
       { make_token token_type.STRING_LITERAL 4 with value := token_value.string ['a'] },
       { make_token token_type.INTEGER_LITERAL 6 with value := token_value.number 1 },
       make_token token_type.CLOSE_BRACE 6] 1 3
      { make_token token_type.STRING_LITERAL 4 with value := token_value.string ['a'] }
      { make_token token_type.INTEGER_LITERAL 6 with value := token_value.number 1 }
      ['a'] rfl rfl rfl).1 (by decide),
   ((missing_colon_is_fatal
      [make_token token_type.OPEN_BRACE 0,
       { make_token token_type.STRING_LITERAL 4 with value := token_value.string ['a'] },
       make_token token_type.COLON 4,
       { make_token token_type.INTEGER_LITERAL 7 with value := token_value.number 1 },
       make_token token_type.CLOSE_BRACE 7] 1 3
      { make_token token_type.STRING_LITERAL 4 with value := token_value.string ['a'] }
      (make_token token_type.COLON 4)
      ['a'] rfl rfl rfl).2 rfl).trans rfl⟩
/-! ### The lexer: positions, fuel, prefixes -/

/-- Reading behind a prefix. -/
theorem char_at_append (pre s : List Char) (i : Nat) :
    char_at (pre ++ s) (pre.length + i) = char_at s i := by
  unfold char_at
  rw [List.getD_append_right _ _ _ _ (Nat.le_add_right _ _)]
  simp

/-- Scanning behind a prefix. -/
theorem scan_while_append (p : Char → Bool) (pre s : List Char) (i : Nat) :
    scan_while p (pre ++ s) (pre.length + i) = pre.length + scan_while p s i := by
  unfold scan_while
  rw [List.drop_append]
  omega

/-- Copying behind a prefix. -/
theorem slice_append (pre s : List Char) (a b : Nat) :
    slice (pre ++ s) (pre.length + a) (pre.length + b) = slice s a b := by
  unfold slice
  rw [List.drop_append]
  congr 1
  omega

/-- `gobble_text` behind a prefix. -/
theorem gobble_text_append (pre s : List Char) (i : Nat) :
    gobble_text (pre ++ s) (pre.length + i) =
      (shift pre.length (gobble_text s i).1, pre.length + (gobble_text s i).2) := by
  simp only [gobble_text, make_token, shift]
  rw [show pre.length + i + 1 = pre.length + (i + 1) by omega, scan_while_append, slice_append]
  simp only [Prod.mk.injEq, token.mk.injEq, true_and]
  refine ⟨⟨?_, ?_⟩, ?_⟩ <;> omega

/-- `make_token` behind a prefix. -/
theorem make_token_shift (type : token_type) (n i : Nat) :
    make_token type (n + i) = shift n (make_token type i) := by
  simp only [make_token, shift, token.mk.injEq, true_and]
  omega

/-- `gobble_number` on a run that no `.` follows. -/
theorem gobble_number_int (stream : List Char) (i : Nat)
    (h : (char_at stream (scan_while is_number stream i) == '.') = false) :
    gobble_number stream i =
      if store_fits (scan_while is_number stream i - i) (scan_while is_number stream i - i) 1 then
        some ({ make_token token_type.INTEGER_LITERAL (scan_while is_number stream i) with
          value := token_value.number (atoi (slice stream i (scan_while is_number stream i))) },
          scan_while is_number stream i)
      else none := by
  simp only [gobble_number, h, Bool.not_false, if_true]

/-- `gobble_number` on a run that a `.` follows. -/
theorem gobble_number_dot (stream : List Char) (i : Nat)
    (h : (char_at stream (scan_while is_number stream i) == '.') = true) :
    gobble_number stream i =
      if store_fits (scan_while is_number stream (scan_while is_number stream i + 1) - i)
          (scan_while is_number stream (scan_while is_number stream i + 1) - i) 1 then
        some ({ make_token token_type.FLOAT_LITERAL
            (scan_while is_number stream (scan_while is_number stream i + 1)) with
          value := token_value.number_f (atof (slice stream i
            (scan_while is_number stream (scan_while is_number stream i + 1)))) },
          scan_while is_number stream (scan_while is_number stream i + 1))
      else none := by
  simp only [gobble_number, h, Bool.not_true, Bool.false_eq_true, if_false]

/-- `gobble_number` behind a prefix. -/
theorem gobble_number_append (pre s : List Char) (i : Nat) :
    gobble_number (pre ++ s) (pre.length + i) =
      (gobble_number s i).map (fun r => (shift pre.length r.1, pre.length + r.2)) := by
  have hsub : ∀ j, pre.length + j - (pre.length + i) = j - i := fun j => by omega
  by_cases h : (char_at s (scan_while is_number s i) == '.') = true
  · have h2 : (char_at (pre ++ s) (scan_while is_number (pre ++ s) (pre.length + i)) == '.')
        = true := by rw [scan_while_append, char_at_append]; exact h
    rw [gobble_number_dot _ _ h2, gobble_number_dot _ _ h, scan_while_append,
      show pre.length + scan_while is_number s i + 1 =
        pre.length + (scan_while is_number s i + 1) by omega, scan_while_append, slice_append,
      hsub]
    by_cases hfit : store_fits (scan_while is_number s (scan_while is_number s i + 1) - i)
        (scan_while is_number s (scan_while is_number s i + 1) - i) 1 = true
    · rw [if_pos hfit, if_pos hfit, make_token_shift]
      rfl
    · rw [if_neg hfit, if_neg hfit]
      rfl
  · have hb : (char_at s (scan_while is_number s i) == '.') = false := by simpa using h
    have h2 : (char_at (pre ++ s) (scan_while is_number (pre ++ s) (pre.length + i)) == '.')
        = false := by rw [scan_while_append, char_at_append]; exact hb
    rw [gobble_number_int _ _ h2, gobble_number_int _ _ hb, scan_while_append, slice_append,
      hsub]
    by_cases hfit : store_fits (scan_while is_number s i - i)
        (scan_while is_number s i - i) 1 = true
    · rw [if_pos hfit, if_pos hfit, make_token_shift]
      rfl
    · rw [if_neg hfit, if_neg hfit]
      rfl

/-- An iteration without token leaves the tokens as they are. -/
theorem map_emit_none (x : Option (List token)) : x.map (emit none) = x := by
  cases x <;> rfl

/-- The loop of `lex` as a repetition of `lex_step`. -/
theorem lex_loop_succ (stream : List Char) (len fuel i : Nat) :
    lex_loop stream len (fuel + 1) i =
      if i < len then lex_next stream i (lex_loop stream len fuel) else some [] := by
  rw [lex_loop]
  by_cases hlt : i < len
  · rw [if_pos hlt, if_pos hlt]
    unfold lex_next lex_step
    by_cases h1 : is_whitespace (char_at stream i) = true
    · rw [if_pos h1, if_pos h1]
      exact (map_emit_none _).symm
    · rw [if_neg h1, if_neg h1]
      by_cases h2 : (char_at stream i == '{') = true
      · rw [if_pos h2, if_pos h2]
        rfl
      · rw [if_neg h2, if_neg h2]
        by_cases h3 : (char_at stream i == '}') = true
        · rw [if_pos h3, if_pos h3]
          rfl
        · rw [if_neg h3, if_neg h3]
          by_cases h4 : (char_at stream i == '[') = true
          · rw [if_pos h4, if_pos h4]
            rfl
          · rw [if_neg h4, if_neg h4]
            by_cases h5 : (char_at stream i == ']') = true
            · rw [if_pos h5, if_pos h5]
              rfl
            · rw [if_neg h5, if_neg h5]
              by_cases h6 : (char_at stream i == ':') = true
              · rw [if_pos h6, if_pos h6]
                rfl
              · rw [if_neg h6, if_neg h6]
                by_cases h7 : (char_at stream i == ',') = true
                · rw [if_pos h7, if_pos h7]
                  rfl
                · rw [if_neg h7, if_neg h7]
                  by_cases h8 : is_quote (char_at stream i) = true
                  · rw [if_pos h8, if_pos h8]
                    rfl
                  · rw [if_neg h8, if_neg h8]
                    by_cases h9 : is_number (char_at stream i) = true
                    · rw [if_pos h9, if_pos h9]
                      cases gobble_number stream i with
                      | none => rfl
                      | some r => rfl
                    · rw [if_neg h9, if_neg h9]
                      by_cases h10 : (char_at stream i == 'n') = true
                      · rw [if_pos h10, if_pos h10]
                        rfl
                      · rw [if_neg h10, if_neg h10]
                        exact (map_emit_none _).symm
  · rw [if_neg hlt, if_neg hlt]

/-- One iteration behind a prefix. -/
theorem lex_step_append (pre s : List Char) (i : Nat) :
    lex_step (pre ++ s) (pre.length + i) =
      (lex_step s i).map (fun r => (r.1.map (shift pre.length), pre.length + r.2)) := by
  unfold lex_step
  rw [char_at_append]
  by_cases h1 : is_whitespace (char_at s i) = true
  · rw [if_pos h1, if_pos h1]
    rfl
  · rw [if_neg h1, if_neg h1]
    by_cases h2 : (char_at s i == '{') = true
    · rw [if_pos h2, if_pos h2]
      rw [make_token_shift]; rfl
    · rw [if_neg h2, if_neg h2]
      by_cases h3 : (char_at s i == '}') = true
      · rw [if_pos h3, if_pos h3]
        rw [make_token_shift]; rfl
      · rw [if_neg h3, if_neg h3]
        by_cases h4 : (char_at s i == '[') = true
        · rw [if_pos h4, if_pos h4]
          rw [make_token_shift]; rfl
        · rw [if_neg h4, if_neg h4]
          by_cases h5 : (char_at s i == ']') = true
          · rw [if_pos h5, if_pos h5]
            rw [make_token_shift]; rfl
          · rw [if_neg h5, if_neg h5]
            by_cases h6 : (char_at s i == ':') = true
            · rw [if_pos h6, if_pos h6]
              rw [make_token_shift]; rfl
            · rw [if_neg h6, if_neg h6]
              by_cases h7 : (char_at s i == ',') = true
              · rw [if_pos h7, if_pos h7]
                rw [make_token_shift]; rfl
              · rw [if_neg h7, if_neg h7]
                by_cases h8 : is_quote (char_at s i) = true
                · rw [if_pos h8, if_pos h8]
                  rw [gobble_text_append]; rfl
                · rw [if_neg h8, if_neg h8]
                  by_cases h9 : is_number (char_at s i) = true
                  · rw [if_pos h9, if_pos h9]
                    rw [gobble_number_append]
                    cases gobble_number s i with
                    | none => rfl
                    | some r => rfl
                  · rw [if_neg h9, if_neg h9]
                    by_cases h10 : (char_at s i == 'n') = true
                    · rw [if_pos h10, if_pos h10]
                      rw [make_token_shift]; rfl
                    · rw [if_neg h10, if_neg h10]
                      rfl

/-- The loop of `lex` behind a prefix: the same tokens, spans moved up by the
length of the prefix. -/
theorem lex_loop_append (pre s : List Char) (len : Nat) : ∀ (fuel i : Nat),
    lex_loop (pre ++ s) (pre.length + len) fuel (pre.length + i) =
      (lex_loop s len fuel i).map (List.map (shift pre.length)) := by
  intro fuel
  induction fuel with
  | zero => intro i; rfl
  | succ n ih =>
    intro i
    rw [lex_loop_succ, lex_loop_succ]
    by_cases hlt : i < len
    · have hlt2 : pre.length + i < pre.length + len := by omega
      rw [if_pos hlt, if_pos hlt2]
      unfold lex_next
      rw [lex_step_append]
      cases lex_step s i with
      | none => rfl
      | some r =>
        obtain ⟨t, j⟩ := r
        simp only [Option.map_some']
        rw [ih]
        cases lex_loop s len n j with
        | none => rfl
        | some ts => cases t <;> simp [emit]
    · have hlt2 : ¬ pre.length + i < pre.length + len := by omega
      rw [if_neg hlt, if_neg hlt2]
      rfl

/-- `gobble_text` moves the cursor forward. -/
theorem gobble_text_gt (stream : List Char) (i : Nat) : i < (gobble_text stream i).2 := by
  simp only [gobble_text, scan_while]
  omega

/-- A scan that starts on a character that passes the test moves forward. -/
theorem scan_while_gt (stream : List Char) (i : Nat)
    (h : is_number (char_at stream i) = true) : i < scan_while is_number stream i := by
  unfold scan_while
  have hlt : i < stream.length := by
    by_contra hc
    have : char_at stream i = '\x00' := by
      unfold char_at
      exact List.getD_eq_default _ _ (by omega)
    rw [this] at h
    exact absurd h (by decide)
  have hd : stream.drop i = char_at stream i :: stream.drop (i + 1) := by
    unfold char_at
    rw [List.getD_eq_getElem _ _ hlt]
    exact List.drop_eq_getElem_cons hlt
  rw [hd]
  have hne : (char_at stream i != '\x00') = true := by
    by_contra hc
    have : char_at stream i = '\x00' := by simpa using hc
    rw [this] at h
    exact absurd h (by decide)
  rw [List.takeWhile_cons_of_pos (by simp [hne, h])]
  simp

/-- A scan does not move backwards. -/
theorem scan_while_ge (p : Char → Bool) (stream : List Char) (i : Nat) :
    i ≤ scan_while p stream i := by
  unfold scan_while
  omega

/-- `gobble_number` moves the cursor forward when it starts on a digit or `-`. -/
theorem gobble_number_gt (stream : List Char) (i : Nat)
    (h : is_number (char_at stream i) = true) (r : token × Nat)
    (hr : gobble_number stream i = some r) : i < r.2 := by
  have hs := scan_while_gt stream i h
  by_cases hdot : (char_at stream (scan_while is_number stream i) == '.') = true
  · rw [gobble_number_dot _ _ hdot] at hr
    have hge := scan_while_ge is_number stream (scan_while is_number stream i + 1)
    by_cases hfit : store_fits (scan_while is_number stream (scan_while is_number stream i + 1) - i)
        (scan_while is_number stream (scan_while is_number stream i + 1) - i) 1 = true
    · rw [if_pos hfit] at hr
      have e := Option.some.inj hr
      subst e
      show i < scan_while is_number stream (scan_while is_number stream i + 1)
      omega
    · rw [if_neg hfit] at hr
      exact Option.noConfusion hr
  · have hb : (char_at stream (scan_while is_number stream i) == '.') = false := by
      simpa using hdot
    rw [gobble_number_int _ _ hb] at hr
    by_cases hfit : store_fits (scan_while is_number stream i - i)
        (scan_while is_number stream i - i) 1 = true
    · rw [if_pos hfit] at hr
      have e := Option.some.inj hr
      subst e
      exact hs
    · rw [if_neg hfit] at hr
      exact Option.noConfusion hr

/-- Every iteration moves the cursor forward. -/
theorem lex_step_gt (stream : List Char) (i : Nat) (r : Option token × Nat)
    (h : lex_step stream i = some r) : i < r.2 := by
  unfold lex_step at h
  by_cases h1 : is_whitespace (char_at stream i) = true
  · rw [if_pos h1] at h
    have ht := Option.some.inj h; subst ht
    exact Nat.lt_succ_self i
  · rw [if_neg h1] at h
    by_cases h2 : (char_at stream i == '{') = true
    · rw [if_pos h2] at h
      have ht := Option.some.inj h; subst ht
      exact Nat.lt_succ_self i
    · rw [if_neg h2] at h
      by_cases h3 : (char_at stream i == '}') = true
      · rw [if_pos h3] at h
        have ht := Option.some.inj h; subst ht
        exact Nat.lt_succ_self i
      · rw [if_neg h3] at h
        by_cases h4 : (char_at stream i == '[') = true
        · rw [if_pos h4] at h
          have ht := Option.some.inj h; subst ht
          exact Nat.lt_succ_self i
        · rw [if_neg h4] at h
          by_cases h5 : (char_at stream i == ']') = true
          · rw [if_pos h5] at h
            have ht := Option.some.inj h; subst ht
            exact Nat.lt_succ_self i
          · rw [if_neg h5] at h
            by_cases h6 : (char_at stream i == ':') = true
            · rw [if_pos h6] at h
              have ht := Option.some.inj h; subst ht
              exact Nat.lt_succ_self i
            · rw [if_neg h6] at h
              by_cases h7 : (char_at stream i == ',') = true
              · rw [if_pos h7] at h
                have ht := Option.some.inj h; subst ht
                exact Nat.lt_succ_self i
              · rw [if_neg h7] at h
                by_cases h8 : is_quote (char_at stream i) = true
                · rw [if_pos h8] at h
                  have ht := Option.some.inj h; subst ht
                  exact gobble_text_gt stream i
                · rw [if_neg h8] at h
                  by_cases h9 : is_number (char_at stream i) = true
                  · rw [if_pos h9] at h
                    cases hg : gobble_number stream i with
                    | none => rw [hg] at h; exact Option.noConfusion h
                    | some r2 =>
                      rw [hg] at h
                      have ht := Option.some.inj h; subst ht
                      exact gobble_number_gt stream i h9 r2 hg
                  · rw [if_neg h9] at h
                    by_cases h10 : (char_at stream i == 'n') = true
                    · rw [if_pos h10] at h
                      have ht := Option.some.inj h; subst ht
                      exact Nat.lt_add_of_pos_right (by decide)
                    · rw [if_neg h10] at h
                      have ht := Option.some.inj h; subst ht
                      exact Nat.lt_succ_self i

/-- Fuel beyond the characters that are left changes nothing. -/
theorem lex_loop_fuel (stream : List Char) (len : Nat) : ∀ (fuel j : Nat), len - j ≤ fuel →
    lex_loop stream len fuel j = lex_loop stream len (len - j) j := by
  intro fuel
  induction fuel using Nat.strong_induction_on with
  | _ fuel ih =>
    intro j hle
    by_cases hlt : j < len
    · obtain ⟨n, rfl⟩ : ∃ n, fuel = n + 1 := ⟨fuel - 1, by omega⟩
      obtain ⟨m, hm⟩ : ∃ m, len - j = m + 1 := ⟨len - j - 1, by omega⟩
      rw [hm, lex_loop_succ, lex_loop_succ, if_pos hlt, if_pos hlt]
      unfold lex_next
      cases hst : lex_step stream j with
      | none => rfl
      | some r =>
        obtain ⟨t, j2⟩ := r
        have hgt : j < j2 := lex_step_gt stream j _ hst
        simp only
        rw [ih n (by omega) _ (by omega), ih m (by omega) _ (by omega)]
    · have h0 : len - j = 0 := by omega
      rw [h0]
      cases fuel with
      | zero => rfl
      | succ n => rw [lex_loop_succ, if_neg hlt]; rfl

/-- `strlen` of a prefix without NUL followed by more. -/
theorem strlen_append (pre s : List Char) (h : nul_free pre) :
    strlen (pre ++ s) = pre.length + strlen s := by
  induction pre with
  | nil => simp
  | cons c pre ih =>
    have hc : (c != '\x00') = true := by simpa using h c (List.mem_cons_self _ _)
    have ih2 := ih (fun d hd => h d (List.mem_cons_of_mem _ hd))
    simp only [strlen] at ih2 ⊢
    rw [List.cons_append, List.takeWhile_cons_of_pos (p := fun c => c != '\x00') hc]
    simp only [List.length_cons, ih2]
    omega

/-- `strlen` of a string without NUL. -/
theorem strlen_nul_free (s : List Char) (h : nul_free s) : strlen s = s.length := by
  have := strlen_append s [] h
  simpa [strlen] using this

/-- `lex` is the loop from offset 0. -/
theorem lex_eq_lex_at (stream : List Char) : lex stream = lex_at stream 0 := rfl

/-- The tokens lexed behind a prefix without NUL are those of the rest, spans
moved up by the length of the prefix. -/
theorem lex_at_append (pre s : List Char) (h : nul_free pre) (i : Nat) :
    lex_at (pre ++ s) (pre.length + i) = (lex_at s i).map (List.map (shift pre.length)) := by
  unfold lex_at
  rw [strlen_append pre s h,
    show pre.length + strlen s - (pre.length + i) = strlen s - i by omega]
  exact lex_loop_append pre s (strlen s) _ i

/-- One iteration of the loop of `lex` at an offset inside the string. -/
theorem lex_at_step (stream : List Char) (i : Nat) (hlt : i < strlen stream) :
    lex_at stream i = lex_next stream i (lex_at stream) := by
  obtain ⟨m, hm⟩ : ∃ m, strlen stream - i = m + 1 := ⟨strlen stream - i - 1, by omega⟩
  unfold lex_at
  rw [hm, lex_loop_succ, if_pos hlt]
  unfold lex_next
  cases hst : lex_step stream i with
  | none => rfl
  | some r =>
    obtain ⟨t, j⟩ := r
    have hgt : i < j := lex_step_gt stream i _ hst
    simp only
    rw [lex_loop_fuel stream (strlen stream) m j (by omega)]

/-- Behind the end of the string nothing is lexed. -/
theorem lex_at_end (stream : List Char) (i : Nat) (h : strlen stream ≤ i) :
    lex_at stream i = some [] := by
  unfold lex_at
  rw [show strlen stream - i = 0 by omega]
  rfl

/-- Lexing a first lexeme `pre`: when the first iteration consumes exactly
`pre`, the rest is lexed as on its own, spans moved up by the length of `pre`. -/
theorem lex_first_lexeme (pre x : List Char) (hpre : nul_free pre) (hne : pre ≠ [])
    (t : Option token) (h : lex_step (pre ++ x) 0 = some (t, pre.length)) :
    lex (pre ++ x) = (lex x).map (fun ts => emit t (ts.map (shift pre.length))) := by
  have hpos : 0 < pre.length := List.length_pos.mpr hne
  have hlt : 0 < strlen (pre ++ x) := by rw [strlen_append pre x hpre]; omega
  rw [lex_eq_lex_at, lex_at_step _ 0 hlt]
  unfold lex_next
  rw [h]
  have := lex_at_append pre x hpre 0
  rw [Nat.add_zero] at this
  simp only
  rw [this, lex_eq_lex_at, Option.map_map]
  rfl

/-- When the first iteration on `pre ++ x` leaves the chunk of its block,
`lex` produces no tokens. -/
theorem lex_first_overrun (pre x : List Char) (hpre : nul_free pre) (hne : pre ≠ [])
    (h : lex_step (pre ++ x) 0 = none) : lex (pre ++ x) = none := by
  have hpos : 0 < pre.length := List.length_pos.mpr hne
  have hlt : 0 < strlen (pre ++ x) := by rw [strlen_append pre x hpre]; omega
  rw [lex_eq_lex_at, lex_at_step _ 0 hlt]
  unfold lex_next
  rw [h]

/-- A scan runs over characters that pass the test and stops at one that does not. -/
theorem takeWhile_append_stop (p : Char → Bool) (s : List Char) (d : Char) (r : List Char)
    (hs : ∀ c ∈ s, p c = true) (hd : p d = false) : (s ++ d :: r).takeWhile p = s := by
  induction s with
  | nil => simp [List.takeWhile, hd]
  | cons c s ih =>
    rw [List.cons_append, List.takeWhile_cons_of_pos (hs c (List.mem_cons_self _ _)),
      ih (fun e he => hs e (List.mem_cons_of_mem _ he))]

/-- A scan runs over characters that pass the test up to the end of the string. -/
theorem takeWhile_all (p : Char → Bool) (s : List Char) (hs : ∀ c ∈ s, p c = true) :
    s.takeWhile p = s := by
  induction s with
  | nil => rfl
  | cons c s ih =>
    rw [List.takeWhile_cons_of_pos (hs c (List.mem_cons_self _ _)),
      ih (fun e he => hs e (List.mem_cons_of_mem _ he))]

/-- The iteration of `lex` on an opening quote. -/
theorem lex_step_quote (stream : List Char) (i : Nat) (h : char_at stream i = '"') :
    lex_step stream i = some (some (gobble_text stream i).1, (gobble_text stream i).2) := by
  unfold lex_step
  rw [h]
  rfl

/-- `gobble_text` on a quoted text without quote and NUL inside. -/
theorem gobble_text_quoted (s rest : List Char) (hq : '"' ∉ s) (hn : nul_free s) :
    gobble_text ('"' :: (s ++ '"' :: rest)) 0 =
      ({ type := token_type.STRING_LITERAL, value := token_value.string s,
         start := s.length + 2, end_ := s.length + 3 }, s.length + 2) := by
  have hscan : ((s ++ '"' :: rest).takeWhile (fun c => c != '\x00' && !is_quote c)) = s := by
    apply takeWhile_append_stop
    · intro c hc
      have h1 : c ≠ '\x00' := hn c hc
      have h2 : c ≠ '"' := fun e => hq (e ▸ hc)
      simp [is_quote, h1, h2]
    · rfl
  simp only [gobble_text, scan_while, slice, make_token, Nat.zero_add, List.drop_succ_cons,
    List.drop_zero, hscan]
  rw [show 1 + s.length - 1 = s.length by omega, List.take_left']
  · simp only [Prod.mk.injEq, token.mk.injEq, true_and]
    omega
  · rfl

/-- `lex` on a quoted text without quote and NUL inside, followed by more:
the StringLiteral of that text, then the tokens of what follows, spans moved. -/
theorem lex_quoted (s rest : List Char) (hq : '"' ∉ s) (hn : nul_free s) :
    lex ('"' :: (s ++ '"' :: rest)) =
      (lex rest).map (fun ts =>
        { type := token_type.STRING_LITERAL, value := token_value.string s,
          start := s.length + 2, end_ := s.length + 3 } :: ts.map (shift (s.length + 2))) := by
  have hpre : nul_free ('"' :: (s ++ ['"'])) := by
    intro c hc
    rcases List.mem_cons.mp hc with rfl | hc
    · decide
    · rcases List.mem_append.mp hc with hc | hc
      · exact hn c hc
      · rw [List.mem_singleton.mp hc]; decide
  have hstep : lex_step (('"' :: (s ++ ['"'])) ++ rest) 0 =
      some (some { type := token_type.STRING_LITERAL, value := token_value.string s,
                   start := s.length + 2, end_ := s.length + 3 },
        ('"' :: (s ++ ['"'])).length) := by
    have e : ('"' :: (s ++ ['"'])) ++ rest = '"' :: (s ++ '"' :: rest) := by simp
    rw [e, lex_step_quote ('"' :: (s ++ '"' :: rest)) 0 rfl, gobble_text_quoted s rest hq hn]
    simp
  have := lex_first_lexeme _ rest hpre (by simp) _ hstep
  simpa [emit] using this

/-- A block without NUL holds no C string. -/
theorem c_string_nul_free (s : List Char) (hn : nul_free s) : c_string s = none := by
  unfold c_string
  rw [if_neg (fun h => hn _ h rfl)]

/-- The C string of a block that is a text without NUL and its terminator. -/
theorem c_string_terminated (s : List Char) (hn : nul_free s) :
    c_string (s ++ ['\x00']) = some s := by
  unfold c_string
  rw [if_pos (List.mem_append_right _ (List.mem_singleton_self _))]
  congr 1
  exact takeWhile_append_stop _ s '\x00' [] (fun c hc => by simpa using hn c hc) rfl

/-- C9 (the code on a quoted text). String quote termination: for a text `s`
without `"` (and, being part of a C string, without NUL; backslashes are
ordinary characters) and any text `rest`, `lex` on `"` `s` `"` `rest` ends the
string at the first `"` and emits first a StringLiteral, then the tokens of
`rest` with their spans moved up by `|s| + 2` (no tokens at all when the
lexing of `rest` corrupts the heap). The payload of the StringLiteral is the
block of the `|s|` bytes of `s` and nothing else: `gobble_text` writes no
terminating NUL, so the payload is not the C string `s`; whoever reads it as a
string runs past the block. In particular on the six characters `"a\"b"` the
first token is the StringLiteral with the bytes `a\` and lexing resumes at
`b"`; and the payload of the 24 characters `a` is a block of 24 bytes without
NUL. -/
theorem string_ends_at_first_quote (s rest : List Char) (hq : '"' ∉ s) (hn : nul_free s) :
    lex ('"' :: (s ++ '"' :: rest)) =
      (lex rest).map (fun ts =>
        { type := token_type.STRING_LITERAL, value := token_value.string s,
          start := s.length + 2, end_ := s.length + 3 } :: ts.map (shift (s.length + 2))) ∧
    c_string s = none ∧
    lex ['"', 'a', '\\', '"', 'b', '"'] =
      (lex ['b', '"']).map (fun ts =>
        { type := token_type.STRING_LITERAL, value := token_value.string ['a', '\\'],
          start := 4, end_ := 5 } :: ts.map (shift 4)) ∧
    lex "\"aaaaaaaaaaaaaaaaaaaaaaaa\"".toList = some
      [{ type := token_type.STRING_LITERAL,
         value := token_value.string "aaaaaaaaaaaaaaaaaaaaaaaa".toList, start := 26, end_ := 27 }] ∧
    c_string "aaaaaaaaaaaaaaaaaaaaaaaa".toList = none :=
  ⟨lex_quoted s rest hq hn, c_string_nul_free s hn,
    lex_quoted ['a', '\\'] ['b', '"'] (by decide) (by unfold nul_free; decide),
    by decide, by decide⟩

/-- C9 at the text `ab` followed by `,1`. -/
theorem string_ends_at_first_quote_witness :
    '"' ∉ ['a', 'b'] ∧ nul_free ['a', 'b'] ∧
    lex ('"' :: (['a', 'b'] ++ '"' :: [',', '1'])) =
      (lex [',', '1']).map (fun ts =>
        { type := token_type.STRING_LITERAL, value := token_value.string ['a', 'b'],
          start := ['a', 'b'].length + 2, end_ := ['a', 'b'].length + 3 } ::
          ts.map (shift (['a', 'b'].length + 2))) ∧
    c_string ['a', 'b'] = none :=
  have hq : '"' ∉ ['a', 'b'] := by decide
  have hn : nul_free ['a', 'b'] := by unfold nul_free; decide
  ⟨hq, hn, (string_ends_at_first_quote ['a', 'b'] [',', '1'] hq hn).1,
    (string_ends_at_first_quote ['a', 'b'] [',', '1'] hq hn).2.1⟩
/-! ### Decimal text of integers -/

/-- A digit character is a digit. -/
theorem is_digit_digit_char (d : Nat) (h : d < 10) : is_digit (digit_char d) = true := by
  interval_cases d <;> rfl

/-- The value of a digit character. -/
theorem digit_value_digit_char (d : Nat) (h : d < 10) : digit_value (digit_char d) = d := by
  interval_cases d <;> rfl

/-- The value of digits read with a number already in hand. -/
theorem foldl_digits (ds : List Char) : ∀ a : Nat,
    ds.foldl (fun a c => 10 * a + digit_value c) a = a * 10 ^ ds.length + digits_value ds := by
  induction ds with
  | nil => intro a; simp [digits_value]
  | cons c ds ih =>
    intro a
    simp only [List.foldl_cons, digits_value, List.length_cons]
    rw [ih (10 * a + digit_value c), ih (10 * 0 + digit_value c)]
    ring

/-- The value of a digit followed by digits. -/
theorem digits_value_cons (c : Char) (ds : List Char) :
    digits_value (c :: ds) = digit_value c * 10 ^ ds.length + digits_value ds := by
  simp only [digits_value, List.foldl_cons]
  rw [foldl_digits ds (10 * 0 + digit_value c)]
  simp [digits_value]

/-- The digits written for `n`: all digits, not empty, and of value `n`. -/
theorem fmt_digits_spec : ∀ (fuel n : Nat) (acc : List Char), n < fuel →
    (∀ c ∈ acc, is_digit c = true) →
    (∀ c ∈ fmt_digits fuel n acc, is_digit c = true) ∧
    fmt_digits fuel n acc ≠ [] ∧
    digits_value (fmt_digits fuel n acc) = n * 10 ^ acc.length + digits_value acc := by
  intro fuel
  induction fuel with
  | zero => intro n acc h; omega
  | succ k ih =>
    intro n acc hlt hacc
    rw [fmt_digits]
    by_cases h10 : n < 10
    · rw [if_pos h10]
      refine ⟨?_, by simp, ?_⟩
      · intro c hc
        rcases List.mem_cons.mp hc with rfl | hc
        · exact is_digit_digit_char n h10
        · exact hacc c hc
      · rw [digits_value_cons, digit_value_digit_char n h10]
    · rw [if_neg h10]
      have hacc2 : ∀ c ∈ digit_char (n % 10) :: acc, is_digit c = true := by
        intro c hc
        rcases List.mem_cons.mp hc with rfl | hc
        · exact is_digit_digit_char _ (Nat.mod_lt _ (by decide))
        · exact hacc c hc
      obtain ⟨h1, h2, h3⟩ := ih (n / 10) (digit_char (n % 10) :: acc) (by omega) hacc2
      refine ⟨h1, h2, ?_⟩
      rw [h3, digits_value_cons, digit_value_digit_char _ (Nat.mod_lt _ (by decide)),
        List.length_cons, pow_succ]
      have hdm := Nat.div_add_mod n 10
      calc n / 10 * (10 ^ acc.length * 10) + (n % 10 * 10 ^ acc.length + digits_value acc)
          = (10 * (n / 10) + n % 10) * 10 ^ acc.length + digits_value acc := by ring
        _ = n * 10 ^ acc.length + digits_value acc := by rw [hdm]

/-- `fmt_u n` is made of digits, is not empty, and reads back as `n`. -/
theorem fmt_u_spec (n : Nat) :
    (∀ c ∈ fmt_u n, is_digit c = true) ∧ fmt_u n ≠ [] ∧ digits_value (fmt_u n) = n := by
  have := fmt_digits_spec (n + 1) n [] (Nat.lt_succ_self n) (by simp)
  simpa [fmt_u, digits_value] using this

/-- A digit is a character `is_number` accepts, and is not NUL, `-` or `.`. -/
theorem is_digit_facts (c : Char) (h : is_digit c = true) :
    is_number c = true ∧ c ≠ '\x00' ∧ c ≠ '-' ∧ c ≠ '.' := by
  refine ⟨by simp only [is_number]; simp only [is_digit] at h; simp [h], ?_, ?_, ?_⟩ <;>
    (intro e; subst e; exact absurd h (by decide))

/-- The text `printf("%d")` writes: every character is a digit or `-`, none
is NUL, and there is at least one. -/
theorem fmt_d_chars (v : Int) :
    (∀ c ∈ fmt_d v, is_number c = true ∧ c ≠ '\x00') ∧ fmt_d v ≠ [] := by
  obtain ⟨h1, h2, -⟩ := fmt_u_spec v.natAbs
  unfold fmt_d
  split_ifs
  · refine ⟨?_, by simp⟩
    intro c hc
    rcases List.mem_cons.mp hc with rfl | hc
    · exact ⟨by decide, by decide⟩
    · exact ⟨(is_digit_facts c (h1 c hc)).1, (is_digit_facts c (h1 c hc)).2.1⟩
  · exact ⟨fun c hc => ⟨(is_digit_facts c (h1 c hc)).1, (is_digit_facts c (h1 c hc)).2.1⟩, h2⟩

/-- `atoi` reads back what `printf("%d")` wrote, for a 32-bit integer. -/
theorem atoi_fmt_d (v : Int) (hlo : -(2 : Int) ^ 31 ≤ v) (hhi : v < (2 : Int) ^ 31) :
    atoi (fmt_d v) = v := by
  obtain ⟨h1, h2, h3⟩ := fmt_u_spec v.natAbs
  have htw : (fmt_u v.natAbs).takeWhile is_digit = fmt_u v.natAbs := takeWhile_all _ _ h1
  have hval : strtol (fmt_d v) = v := by
    unfold strtol fmt_d
    by_cases hneg : v < 0
    · rw [if_pos hneg]
      simp only [htw, h3]
      have : ((v.natAbs : Nat) : Int) = -v := by omega
      rw [this]
      norm_num at hlo hhi ⊢
      omega
    · rw [if_neg hneg]
      have hhead : ∀ r, fmt_u v.natAbs ≠ '-' :: r := by
        intro r e
        have := (is_digit_facts '-' (h1 '-' (by rw [e]; exact List.mem_cons_self _ _))).2.2.1
        exact this rfl
      have hm : (match fmt_u v.natAbs with
          | '-' :: rest => - (digits_value (rest.takeWhile is_digit) : Int)
          | _ => (digits_value ((fmt_u v.natAbs).takeWhile is_digit) : Int)) =
          (digits_value ((fmt_u v.natAbs).takeWhile is_digit) : Int) := by
        split
        · next rest e => exact absurd e (hhead rest)
        · rfl
      simp only [hm, htw, h3]
      have : ((v.natAbs : Nat) : Int) = v := by omega
      rw [this]
      norm_num at hlo hhi ⊢
      omega
  unfold atoi to_int32
  rw [hval]
  norm_num at hlo hhi ⊢
  omega

/-! ### The grammar and the parser -/

/-- The token read at the cursor heads what lies from the cursor on. -/
theorem drop_of_token_at {tokens : List token} {i : Nat} {t : token}
    (h : token_at tokens i = Except.ok t) : tokens.drop i = t :: tokens.drop (i + 1) := by
  unfold token_at at h
  cases hg : tokens.get? i with
  | none => rw [hg] at h; cases h
  | some u =>
    rw [hg] at h
    have hu : u = t := by injection h
    subst hu
    obtain ⟨hlt, rfl⟩ := List.get?_eq_some.mp hg
    exact List.drop_eq_getElem_cons hlt

/-- A word of the grammar is in front of what follows it. -/
theorem derives_suffix {strict : Bool} {nt : nonterminal} {ts rest : List token}
    (h : derives strict nt ts rest) : ∃ w, ts = w ++ rest := by
  have hcl : ∀ {close : token_type} {r rest : List token}, closes close r rest →
      ∃ w, r = w ++ rest := by
    intro close r rest hc
    obtain ⟨r2, c, hoc, -, rfl⟩ := hc
    rcases hoc with rfl | ⟨m, -, rfl⟩
    · exact ⟨[c], rfl⟩
    · exact ⟨[m, c], rfl⟩
  have hsep : ∀ {r1 r2 : List token}, separator strict r1 r2 → ∃ w, r1 = w ++ r2 := by
    intro r1 r2 hs
    rcases hs with ⟨m, -, rfl⟩ | ⟨-, rfl⟩
    · exact ⟨[m], rfl⟩
    · exact ⟨[], rfl⟩
  induction h with
  | literal t rest _ => exact ⟨[t], rfl⟩
  | array o ts r rest _ _ hc ih =>
    obtain ⟨w1, rfl⟩ := ih
    obtain ⟨w2, rfl⟩ := hcl hc
    exact ⟨o :: (w1 ++ w2), by simp⟩
  | object o ts r rest _ _ hc ih =>
    obtain ⟨w1, rfl⟩ := ih
    obtain ⟨w2, rfl⟩ := hcl hc
    exact ⟨o :: (w1 ++ w2), by simp⟩
  | elements_one ts rest _ ih => exact ih
  | elements_more ts r1 r2 rest _ hs _ ih1 ih2 =>
    obtain ⟨w1, rfl⟩ := ih1
    obtain ⟨w2, rfl⟩ := hsep hs
    obtain ⟨w3, rfl⟩ := ih2
    exact ⟨w1 ++ (w2 ++ w3), by simp⟩
  | members_one k c ts rest _ _ _ ih =>
    obtain ⟨w1, rfl⟩ := ih
    exact ⟨k :: c :: w1, by simp⟩
  | members_more k c ts r1 r2 rest _ _ _ hs _ ih1 ih2 =>
    obtain ⟨w1, rfl⟩ := ih1
    obtain ⟨w2, rfl⟩ := hsep hs
    obtain ⟨w3, rfl⟩ := ih2
    exact ⟨k :: c :: (w1 ++ (w2 ++ w3)), by simp⟩

/-- A word of the grammar with optional commas, made of well-formed tokens,
is a token sequence of some tree. -/
theorem renders_of_derives {nt : nonterminal} {ts rest : List token}
    (h : derives false nt ts rest) : (∀ t ∈ ts, t.wf) →
    match nt with
    | nonterminal.value => ∃ d, renders d ts rest
    | nonterminal.elements => ∃ vs, renders_values vs ts rest
    | nonterminal.members => ∃ ps, renders_pairs ps ts rest := by
  have hsep : ∀ {r1 r2 : List token}, separator false r1 r2 → opt_comma r1 r2 := by
    intro r1 r2 hs
    rcases hs with ⟨m, hm, rfl⟩ | ⟨-, rfl⟩
    · exact Or.inr ⟨m, hm, rfl⟩
    · exact Or.inl rfl
  have hsepw : ∀ {r1 r2 : List token}, separator false r1 r2 → (∀ t ∈ r1, t.wf) →
      ∀ t ∈ r2, t.wf := by
    intro r1 r2 hs hw t ht
    rcases hs with ⟨m, -, rfl⟩ | ⟨-, rfl⟩
    · exact hw t (List.mem_cons_of_mem _ ht)
    · exact hw t ht
  induction h with
  | literal t rest hl =>
    intro hw
    have hwt := hw t (List.mem_cons_self _ _)
    unfold token.wf at hwt
    rcases hl with hl | hl | hl | hl
    · rw [hl] at hwt
      obtain ⟨s, hs⟩ := hwt
      exact ⟨json.STRING s, by rw [renders]; exact ⟨t, rfl, hl, hs⟩⟩
    · rw [hl] at hwt
      obtain ⟨n, hn⟩ := hwt
      exact ⟨json.INT n, by rw [renders]; exact ⟨t, rfl, hl, hn⟩⟩
    · rw [hl] at hwt
      obtain ⟨x, hx⟩ := hwt
      exact ⟨json.FLOAT x, by rw [renders]; exact ⟨t, rfl, hl, hx⟩⟩
    · exact ⟨json.NULL_, by rw [renders]; exact ⟨t, rfl, hl⟩⟩
  | array o ts r rest ho _ hc ih =>
    intro hw
    obtain ⟨vs, hvs⟩ := ih (fun t ht => hw t (List.mem_cons_of_mem _ ht))
    exact ⟨json.ARRAY vs, by rw [renders]; exact ⟨o, ts, r, rfl, ho, hvs, hc⟩⟩
  | object o ts r rest ho _ hc ih =>
    intro hw
    obtain ⟨ps, hps⟩ := ih (fun t ht => hw t (List.mem_cons_of_mem _ ht))
    exact ⟨json.OBJECT ps, by rw [renders]; exact ⟨o, ts, r, rfl, ho, hps, hc⟩⟩
  | elements_one ts rest _ ih =>
    intro hw
    obtain ⟨d, hd⟩ := ih hw
    exact ⟨[some d], by rw [renders_values]; exact ⟨rest, hd, Or.inl ⟨rfl, rfl⟩⟩⟩
  | elements_more ts r1 r2 rest h1 hs _ ih1 ih2 =>
    intro hw
    obtain ⟨d, hd⟩ := ih1 hw
    obtain ⟨w, rfl⟩ := derives_suffix h1
    have hw1 : ∀ t ∈ r1, t.wf := fun t ht => hw t (List.mem_append_right _ ht)
    obtain ⟨vs, hvs⟩ := ih2 (hsepw hs hw1)
    have hne : vs ≠ [] := by
      intro e; subst e; rw [renders_values] at hvs; exact hvs
    exact ⟨some d :: vs, by
      rw [renders_values]; exact ⟨r1, hd, Or.inr ⟨hne, r2, hsep hs, hvs⟩⟩⟩
  | members_one k c ts rest hk hc _ ih =>
    intro hw
    obtain ⟨d, hd⟩ := ih (fun t ht => hw t (List.mem_cons_of_mem _ (List.mem_cons_of_mem _ ht)))
    have hwk := hw k (List.mem_cons_self _ _)
    unfold token.wf at hwk
    rw [hk] at hwk
    obtain ⟨key, hkey⟩ := hwk
    exact ⟨[(key, some d)], by
      rw [renders_pairs]; exact ⟨k, c, ts, rest, rfl, hk, hkey, hc, hd, Or.inl ⟨rfl, rfl⟩⟩⟩
  | members_more k c ts r1 r2 rest hk hc h1 hs _ ih1 ih2 =>
    intro hw
    have hwts : ∀ t ∈ ts, t.wf :=
      fun t ht => hw t (List.mem_cons_of_mem _ (List.mem_cons_of_mem _ ht))
    obtain ⟨d, hd⟩ := ih1 hwts
    obtain ⟨w, rfl⟩ := derives_suffix h1
    have hw1 : ∀ t ∈ r1, t.wf := fun t ht => hwts t (List.mem_append_right _ ht)
    obtain ⟨ps, hps⟩ := ih2 (hsepw hs hw1)
    have hne : ps ≠ [] := by
      intro e; subst e; rw [renders_pairs] at hps; exact hps
    have hwk := hw k (List.mem_cons_self _ _)
    unfold token.wf at hwk
    rw [hk] at hwk
    obtain ⟨key, hkey⟩ := hwk
    exact ⟨(key, some d) :: ps, by
      rw [renders_pairs]
      exact ⟨k, c, w ++ r1, r1, rfl, hk, hkey, hc, hd, Or.inr ⟨hne, r2, hsep hs, hps⟩⟩⟩

/-- A token read at the cursor is one of the tokens. -/
theorem mem_of_token_at {tokens : List token} {i : Nat} {t : token}
    (h : token_at tokens i = Except.ok t) : t ∈ tokens := by
  have := drop_of_token_at h
  have hm : t ∈ tokens.drop i := by rw [this]; exact List.mem_cons_self _ _
  exact List.mem_of_mem_drop hm

/-- A well-formed token that holds a string is a StringLiteral. -/
theorem type_of_string_payload {t : token} {s : List Char} (hw : t.wf)
    (hv : t.value = token_value.string s) : t.type = token_type.STRING_LITERAL := by
  unfold token.wf at hw
  rw [hv] at hw
  cases hty : t.type <;> rw [hty] at hw <;> simp at hw

/-- The values of an array without `NULL`, one of them in front. -/
theorem complete_values_cons {v : Option json} {vs : List (Option json)}
    (h : complete_values (v :: vs)) : ∃ d, v = some d ∧ complete d ∧ complete_values vs := by
  cases v with
  | none => rw [complete_values] at h; exact h.elim
  | some d => rw [complete_values] at h; exact ⟨d, rfl, h.1, h.2⟩

/-- The pairs of an object without `NULL`, one of them in front. -/
theorem complete_pairs_cons {key : List Char} {v : Option json}
    {ps : List (List Char × Option json)}
    (h : complete_pairs ((key, v) :: ps)) : ∃ d, v = some d ∧ complete d ∧ complete_pairs ps := by
  cases v with
  | none => rw [complete_pairs] at h; exact h.elim
  | some d => rw [complete_pairs] at h; exact ⟨d, rfl, h.1, h.2⟩

/-- The end of a loop iteration, read backwards: the optional comma and the
closing delimiter, or the optional comma before a further child. -/
theorem loop_tail_sound {tokens : List token} {i1 : Nat} {t1 t2 : token}
    (h1 : token_at tokens i1 = Except.ok t1)
    (h2 : token_at tokens (if t1.type = token_type.COMMA then i1 + 1 else i1) = Except.ok t2) :
    (∀ close, t2.type = close →
      closes close (tokens.drop i1)
        (tokens.drop ((if t1.type = token_type.COMMA then i1 + 1 else i1) + 1))) ∧
    separator false (tokens.drop i1)
      (tokens.drop (if t1.type = token_type.COMMA then i1 + 1 else i1)) := by
  have d1 := drop_of_token_at h1
  have d2 := drop_of_token_at h2
  by_cases hc : t1.type = token_type.COMMA
  · simp only [hc, if_true] at h2 d2 ⊢
    refine ⟨fun close hcl => ⟨tokens.drop (i1 + 1), t2, Or.inr ⟨t1, hc, d1⟩, hcl, d2⟩, ?_⟩
    exact Or.inl ⟨t1, hc, d1⟩
  · simp only [hc, if_false] at h2 d2 ⊢
    refine ⟨fun close hcl => ⟨tokens.drop i1, t2, Or.inl rfl, hcl, d2⟩, ?_⟩
    exact Or.inr ⟨rfl, rfl⟩

/-- What the parser returns, when the tree has no `NULL` child, is a word of
the grammar with optional commas, from the cursor it started at to the cursor
it stopped at. -/
theorem parse_sound (tokens : List token) (hwf : ∀ t ∈ tokens, t.wf) : ∀ fuel : Nat,
    (∀ i d c, parse_json tokens fuel i = Except.ok (some d, c) → complete d →
      derives false nonterminal.value (tokens.drop i) (tokens.drop c)) ∧
    (∀ i key v c, parse_object_kv tokens fuel i = Except.ok ((key, some v), c) → complete v →
      ∃ k col, tokens.drop i = k :: col :: tokens.drop (i + 2) ∧
        k.type = token_type.STRING_LITERAL ∧ col.type = token_type.COLON ∧
        derives false nonterminal.value (tokens.drop (i + 2)) (tokens.drop c)) ∧
    (∀ i acc vs c, parse_array_loop tokens fuel i acc = Except.ok (vs, c) →
      ∃ new, vs = acc ++ new ∧ (complete_values new →
        ∃ r, derives false nonterminal.elements (tokens.drop i) r ∧
          closes token_type.CLOSE_BRACKET r (tokens.drop c))) ∧
    (∀ i vs c, parse_array tokens fuel i = Except.ok (vs, c) → complete_values vs →
      ∃ o, tokens.drop i = o :: tokens.drop (i + 1) ∧ o.type = token_type.OPEN_BRACKET ∧
        ∃ r, derives false nonterminal.elements (tokens.drop (i + 1)) r ∧
          closes token_type.CLOSE_BRACKET r (tokens.drop c)) ∧
    (∀ i acc ps c, parse_object_loop tokens fuel i acc = Except.ok (ps, c) →
      ∃ new, ps = acc ++ new ∧ (complete_pairs new →
        ∃ r, derives false nonterminal.members (tokens.drop i) r ∧
          closes token_type.CLOSE_BRACE r (tokens.drop c))) ∧
    (∀ i ps c, parse_object tokens fuel i = Except.ok (ps, c) → complete_pairs ps →
      ∃ o, tokens.drop i = o :: tokens.drop (i + 1) ∧ o.type = token_type.OPEN_BRACE ∧
        ∃ r, derives false nonterminal.members (tokens.drop (i + 1)) r ∧
          closes token_type.CLOSE_BRACE r (tokens.drop c)) := by
  intro fuel
  induction fuel with
  | zero =>
    refine ⟨?_, ?_, ?_, ?_, ?_, ?_⟩ <;> intros <;>
      simp_all [parse_json, parse_object_kv, parse_array_loop, parse_array,
        parse_object_loop, parse_object]
  | succ n ih =>
    obtain ⟨h1, h2, h3, h4, h5, h6⟩ := ih
    refine ⟨?_, ?_, ?_, ?_, ?_, ?_⟩
    · intro i d c hrun hd
      rw [parse_json] at hrun
      cases ht : token_at tokens i with
      | error e => simp [ht] at hrun
      | ok t =>
        simp only [ht] at hrun
        have hdrop := drop_of_token_at ht
        split_ifs at hrun with c1 c2 c3 c4 c5
        · cases hp : parse_object tokens n i with
          | error e => simp [hp] at hrun
          | ok r =>
            obtain ⟨pairs, j⟩ := r
            simp only [hp, Except.ok.injEq, Prod.mk.injEq, Option.some.injEq] at hrun
            obtain ⟨rfl, rfl⟩ := hrun
            rw [complete] at hd
            obtain ⟨o, ho, hot, r, hr, hcl⟩ := h6 i pairs j hp hd
            rw [ho]
            exact derives.object o _ r _ hot hr hcl
        · cases hp : parse_array tokens n i with
          | error e => simp [hp] at hrun
          | ok r =>
            obtain ⟨values, j⟩ := r
            simp only [hp, Except.ok.injEq, Prod.mk.injEq, Option.some.injEq] at hrun
            obtain ⟨rfl, rfl⟩ := hrun
            rw [complete] at hd
            obtain ⟨o, ho, hot, r, hr, hcl⟩ := h4 i values j hp hd
            rw [ho]
            exact derives.array o _ r _ hot hr hcl
        · cases hp : parse_string t i with
          | error e => simp [hp] at hrun
          | ok r =>
            obtain ⟨value, j⟩ := r
            simp only [hp, Except.ok.injEq, Prod.mk.injEq, Option.some.injEq] at hrun
            obtain ⟨rfl, rfl⟩ := hrun
            have hj : j = i + 1 := by
              unfold parse_string at hp
              split at hp
              · injection hp with hp; injection hp with _ hp; exact hp.symm
              · cases hp
            subst hj
            rw [hdrop]
            exact derives.literal t _ (Or.inl c3)
        · have hlit : is_literal t.type := by
            rcases c4 with c4 | c4
            · exact Or.inr (Or.inl c4)
            · exact Or.inr (Or.inr (Or.inl c4))
          have hj : ∀ x j, parse_number t i = Except.ok (x, j) → j = i + 1 := by
            intro x j hp
            unfold parse_number at hp
            split_ifs at hp
            · split at hp
              · injection hp with hp; injection hp with _ hp; exact hp.symm
              · cases hp
            · split at hp
              · injection hp with hp; injection hp with _ hp; exact hp.symm
              · cases hp
          cases hp : parse_number t i with
          | error e => simp [hp] at hrun
          | ok r =>
            obtain ⟨x, j⟩ := r
            have := hj x j hp
            subst this
            cases x with
            | inl a =>
              simp only [hp, Except.ok.injEq, Prod.mk.injEq, Option.some.injEq] at hrun
              obtain ⟨-, rfl⟩ := hrun
              rw [hdrop]
              exact derives.literal t _ hlit
            | inr a =>
              simp only [hp, Except.ok.injEq, Prod.mk.injEq, Option.some.injEq] at hrun
              obtain ⟨-, rfl⟩ := hrun
              rw [hdrop]
              exact derives.literal t _ hlit
        · simp only [parse_null, Except.ok.injEq, Prod.mk.injEq, Option.some.injEq] at hrun
          obtain ⟨-, rfl⟩ := hrun
          rw [hdrop]
          exact derives.literal t _ (Or.inr (Or.inr (Or.inr c5)))
        · simp at hrun
    · intro i key v c hrun hv
      rw [parse_object_kv] at hrun
      cases ht : token_at tokens i with
      | error e => simp [ht] at hrun
      | ok t =>
        simp only [ht] at hrun
        cases hk : parse_string t i with
        | error e => simp [hk] at hrun
        | ok r =>
          obtain ⟨key2, i1⟩ := r
          simp only [hk] at hrun
          have hkey : t.value = token_value.string key2 ∧ i1 = i + 1 := by
            unfold parse_string at hk
            split at hk
            · next s hs =>
              injection hk with hk; injection hk with hk1 hk2
              exact ⟨by rw [hs, hk1], hk2.symm⟩
            · cases hk
          obtain ⟨hkv, rfl⟩ := hkey
          cases hc : token_at tokens (i + 1) with
          | error e => simp [hc] at hrun
          | ok col =>
            simp only [hc] at hrun
            by_cases hcol : col.type = token_type.COLON
            · simp only [assert_token, hcol, ne_eq, not_true_eq_false, if_false] at hrun
              cases hj : parse_json tokens n (i + 1 + 1) with
              | error e => simp [hj] at hrun
              | ok r =>
                obtain ⟨value, j⟩ := r
                simp only [hj, Except.ok.injEq, Prod.mk.injEq] at hrun
                obtain ⟨⟨rfl, rfl⟩, rfl⟩ := hrun
                refine ⟨t, col, ?_, type_of_string_payload (hwf t (mem_of_token_at ht)) hkv,
                  hcol, h1 (i + 2) v j hj hv⟩
                rw [drop_of_token_at ht, drop_of_token_at hc]
            · simp [assert_token, hcol] at hrun
    · intro i acc vs c hrun
      rw [parse_array_loop] at hrun
      cases hj : parse_json tokens n i with
      | error e => simp [hj] at hrun
      | ok r =>
        obtain ⟨value, i1⟩ := r
        simp only [hj] at hrun
        by_cases hfit : store_fits (sizeof_json_pointer * 100) (sizeof_json_pointer * acc.length)
            sizeof_json_pointer = true
        · simp only [hfit, ↓reduceIte] at hrun
          cases ht1 : token_at tokens i1 with
          | error e => simp [ht1] at hrun
          | ok t1 =>
            simp only [ht1] at hrun
            cases ht2 : token_at tokens (if t1.type = token_type.COMMA then i1 + 1 else i1) with
            | error e => simp [ht2] at hrun
            | ok t2 =>
              simp only [ht2] at hrun
              obtain ⟨hclose, hsep⟩ := loop_tail_sound ht1 ht2
              by_cases hcb : t2.type = token_type.CLOSE_BRACKET
              · simp only [hcb, if_true, Except.ok.injEq, Prod.mk.injEq] at hrun
                obtain ⟨rfl, rfl⟩ := hrun
                refine ⟨[value], rfl, fun hcv => ?_⟩
                obtain ⟨d, rfl, hd, -⟩ := complete_values_cons hcv
                exact ⟨_, derives.elements_one _ _ (h1 i d i1 hj hd), hclose _ hcb⟩
              · simp only [hcb, if_false] at hrun
                obtain ⟨new, rfl, hnew⟩ := h3 _ _ vs c hrun
                refine ⟨value :: new, by simp, fun hcv => ?_⟩
                obtain ⟨d, rfl, hd, hrest⟩ := complete_values_cons hcv
                obtain ⟨r, hr, hcl⟩ := hnew hrest
                exact ⟨r, derives.elements_more _ _ _ _ (h1 i d i1 hj hd) hsep hr, hcl⟩
        · simp [hfit] at hrun
    · intro i vs c hrun hcv
      rw [parse_array] at hrun
      cases ht : token_at tokens i with
      | error e => simp [ht] at hrun
      | ok t =>
        simp only [ht] at hrun
        by_cases hob : t.type = token_type.OPEN_BRACKET
        · simp only [assert_token, hob, ne_eq, not_true_eq_false, if_false] at hrun
          obtain ⟨new, hvs, hnew⟩ := h3 _ _ vs c hrun
          rw [List.nil_append] at hvs
          subst hvs
          exact ⟨t, drop_of_token_at ht, hob, hnew hcv⟩
        · simp [assert_token, hob] at hrun
    · intro i acc ps c hrun
      rw [parse_object_loop] at hrun
      cases hj : parse_object_kv tokens n i with
      | error e => simp [hj] at hrun
      | ok r =>
        obtain ⟨⟨key, value⟩, i1⟩ := r
        simp only [hj] at hrun
        by_cases hfit : store_fits (sizeof_json_kv_pair * 100) (sizeof_json_kv_pair * acc.length)
            sizeof_json_kv_pair = true
        · simp only [hfit, ↓reduceIte] at hrun
          cases ht1 : token_at tokens i1 with
          | error e => simp [ht1] at hrun
          | ok t1 =>
            simp only [ht1] at hrun
            cases ht2 : token_at tokens (if t1.type = token_type.COMMA then i1 + 1 else i1) with
            | error e => simp [ht2] at hrun
            | ok t2 =>
              simp only [ht2] at hrun
              obtain ⟨hclose, hsep⟩ := loop_tail_sound ht1 ht2
              by_cases hcb : t2.type = token_type.CLOSE_BRACE
              · simp only [hcb, if_true, Except.ok.injEq, Prod.mk.injEq] at hrun
                obtain ⟨rfl, rfl⟩ := hrun
                refine ⟨[(key, value)], rfl, fun hcv => ?_⟩
                obtain ⟨d, rfl, hd, -⟩ := complete_pairs_cons hcv
                obtain ⟨k, col, hdrop, hk, hcol, hder⟩ := h2 i key d i1 hj hd
                rw [hdrop]
                exact ⟨_, derives.members_one k col _ _ hk hcol hder, hclose _ hcb⟩
              · simp only [hcb, if_false] at hrun
                obtain ⟨new, rfl, hnew⟩ := h5 _ _ ps c hrun
                refine ⟨(key, value) :: new, by simp, fun hcv => ?_⟩
                obtain ⟨d, rfl, hd, hrest⟩ := complete_pairs_cons hcv
                obtain ⟨r, hr, hcl⟩ := hnew hrest
                obtain ⟨k, col, hdrop, hk, hcol, hder⟩ := h2 i key d i1 hj hd
                rw [hdrop]
                exact ⟨r, derives.members_more k col _ _ _ _ hk hcol hder hsep hr, hcl⟩
        · simp [hfit] at hrun
    · intro i ps c hrun hcv
      rw [parse_object] at hrun
      cases ht : token_at tokens i with
      | error e => simp [ht] at hrun
      | ok t =>
        simp only [ht] at hrun
        by_cases hob : t.type = token_type.OPEN_BRACE
        · simp only [assert_token, hob, ne_eq, not_true_eq_false, if_false] at hrun
          obtain ⟨new, hvs, hnew⟩ := h5 _ _ ps c hrun
          rw [List.nil_append] at hvs
          subst hvs
          exact ⟨t, drop_of_token_at ht, hob, hnew hcv⟩
        · simp [assert_token, hob] at hrun

/-- C6 as stated fails on the tokens of `[1 2]`: `parse_json` returns the
Array of 1 and 2 with the cursor at the length of the sequence, yet the
sequence is not a `value` of the grammar, which wants a comma between the two
elements. -/
theorem comma_free_array_accepted :
    ∃ ts, lex "[1 2]".toList = some ts ∧
      parse_json ts 5 0 =
        Except.ok (some (json.ARRAY [some (json.INT 1), some (json.INT 2)]), ts.length) ∧
      ¬ derives true nonterminal.value ts [] := by
  refine ⟨_, (by decide : lex "[1 2]".toList = some
      [make_token token_type.OPEN_BRACKET 0,
       { type := token_type.INTEGER_LITERAL, value := token_value.number 1, start := 2, end_ := 3 },
       { type := token_type.INTEGER_LITERAL, value := token_value.number 2, start := 4, end_ := 5 },
       make_token token_type.CLOSE_BRACKET 4]), rfl, ?_⟩
  intro h
  cases h with
  | object _ _ _ _ ho => simp [make_token] at ho
  | array _ _ r _ _ he hc =>
    cases he with
    | elements_one _ _ hv =>
      cases hv with
      | literal _ _ _ =>
        obtain ⟨r2, c, hoc, hct, hr2⟩ := hc
        subst hr2
        rcases hoc with hoc | ⟨m, hm, hoc⟩
        · simp at hoc
        · simp only [List.cons.injEq] at hoc
          obtain ⟨rfl, -⟩ := hoc
          simp at hm
      | array _ _ _ _ ho => simp at ho
      | object _ _ _ _ ho => simp at ho
    | elements_more _ r1 r2 _ hv hs _ =>
      cases hv with
      | literal _ _ _ =>
        rcases hs with ⟨m, hm, hs⟩ | ⟨hs, -⟩
        · simp only [List.cons.injEq] at hs
          obtain ⟨rfl, -⟩ := hs
          simp at hm
        · cases hs
      | array _ _ _ _ ho => simp at ho
      | object _ _ _ _ ho => simp at ho

/-- C6, amended. For every sequence `ts` of well-formed tokens on which
`parse_json` from cursor 0 returns a tree without `NULL` child, the final
cursor equals the length of `ts` if and only if `ts` is exactly one `value`
of the grammar in which the commas between elements and between pairs are
optional (`object := '{' kv_pair (','? kv_pair)* ','? '}'`,
`array := '[' value (','? value)* ','? ']'`), with no trailing tokens. -/
theorem cursor_exhaustion (ts : List token) (hwf : ∀ t ∈ ts, t.wf) (fuel c : Nat) (d : json)
    (hrun : parse_json ts fuel 0 = Except.ok (some d, c)) (hd : complete d) :
    c = ts.length ↔ derives false nonterminal.value ts [] := by
  constructor
  · intro hc
    subst hc
    have := (parse_sound ts hwf fuel).1 0 d ts.length hrun hd
    simpa using this
  · intro hder
    obtain ⟨d2, hr⟩ := renders_of_derives hder hwf
    obtain ⟨fuel2, hrun2⟩ := parse_renders d2 ts [] ts 0 hr ⟨Nat.zero_le _, rfl⟩
    rcases hrun2 with ⟨-, c2, hrun2, hle, hdrop⟩ | ⟨-, hrun2⟩
    · have hc2 : c2 = ts.length := by
        have := List.drop_eq_nil_iff.mp hdrop
        omega
      have heq := parse_json_deterministic (settled_of_ok hrun) (settled_of_ok hrun2)
      rw [hrun, hrun2] at heq
      injection heq with heq
      injection heq with _ heq
      rw [heq, hc2]
    · have heq := parse_json_deterministic (settled_of_ok hrun)
        (settled_of_error hrun2 (by decide))
      rw [hrun, hrun2] at heq
      cases heq

/-- C6, amended, at the tokens of `[1 2]`. -/
theorem cursor_exhaustion_witness :
    lex "[1 2]".toList = some
      [make_token token_type.OPEN_BRACKET 0,
       { type := token_type.INTEGER_LITERAL, value := token_value.number 1, start := 2, end_ := 3 },
       { type := token_type.INTEGER_LITERAL, value := token_value.number 2, start := 4, end_ := 5 },
       make_token token_type.CLOSE_BRACKET 4] ∧
    (∀ t ∈ [make_token token_type.OPEN_BRACKET 0,
       { type := token_type.INTEGER_LITERAL, value := token_value.number 1, start := 2, end_ := 3 },
       { type := token_type.INTEGER_LITERAL, value := token_value.number 2, start := 4, end_ := 5 },
       make_token token_type.CLOSE_BRACKET 4], t.wf) ∧
    parse_json [make_token token_type.OPEN_BRACKET 0,
       { type := token_type.INTEGER_LITERAL, value := token_value.number 1, start := 2, end_ := 3 },
       { type := token_type.INTEGER_LITERAL, value := token_value.number 2, start := 4, end_ := 5 },
       make_token token_type.CLOSE_BRACKET 4] 5 0 =
      Except.ok (some (json.ARRAY [some (json.INT 1), some (json.INT 2)]), 4) ∧
    complete (json.ARRAY [some (json.INT 1), some (json.INT 2)]) ∧
    (4 = [make_token token_type.OPEN_BRACKET 0,
       { type := token_type.INTEGER_LITERAL, value := token_value.number 1, start := 2, end_ := 3 },
       { type := token_type.INTEGER_LITERAL, value := token_value.number 2, start := 4, end_ := 5 },
       make_token token_type.CLOSE_BRACKET 4].length ↔
      derives false nonterminal.value [make_token token_type.OPEN_BRACKET 0,
       { type := token_type.INTEGER_LITERAL, value := token_value.number 1, start := 2, end_ := 3 },
       { type := token_type.INTEGER_LITERAL, value := token_value.number 2, start := 4, end_ := 5 },
       make_token token_type.CLOSE_BRACKET 4] []) :=
  have hwf : ∀ t ∈ [make_token token_type.OPEN_BRACKET 0,
       { type := token_type.INTEGER_LITERAL, value := token_value.number 1, start := 2, end_ := 3 },
       { type := token_type.INTEGER_LITERAL, value := token_value.number 2, start := 4, end_ := 5 },
       make_token token_type.CLOSE_BRACKET 4], t.wf := by
    simp [token.wf, make_token]
  have hd : complete (json.ARRAY [some (json.INT 1), some (json.INT 2)]) := by
    simp [complete, complete_values]
  ⟨by decide, hwf, rfl, hd, cursor_exhaustion _ hwf 5 4 _ rfl hd⟩
/-! ### What `lex` produces is well-formed -/

/-- The token of `gobble_number` holds the member of its kind. -/
theorem gobble_number_wf (stream : List Char) (i : Nat) (r : token × Nat)
    (h : gobble_number stream i = some r) : r.1.wf := by
  by_cases hdot : (char_at stream (scan_while is_number stream i) == '.') = true
  · rw [gobble_number_dot _ _ hdot] at h
    split_ifs at h
    cases h
    exact ⟨_, rfl⟩
  · have hb : (char_at stream (scan_while is_number stream i) == '.') = false := by
      simpa using hdot
    rw [gobble_number_int _ _ hb] at h
    split_ifs at h
    cases h
    exact ⟨_, rfl⟩

/-- The token of one iteration of `lex`, if any, is well-formed. -/
theorem lex_step_wf (stream : List Char) (i : Nat) (t : token) (j : Nat)
    (h : lex_step stream i = some (some t, j)) : t.wf := by
  unfold lex_step at h
  by_cases h1 : is_whitespace (char_at stream i) = true
  · rw [if_pos h1] at h
    cases h
  · rw [if_neg h1] at h
    by_cases h2 : (char_at stream i == '{') = true
    · rw [if_pos h2] at h
      cases h
      rfl
    · rw [if_neg h2] at h
      by_cases h3 : (char_at stream i == '}') = true
      · rw [if_pos h3] at h
        cases h
        rfl
      · rw [if_neg h3] at h
        by_cases h4 : (char_at stream i == '[') = true
        · rw [if_pos h4] at h
          cases h
          rfl
        · rw [if_neg h4] at h
          by_cases h5 : (char_at stream i == ']') = true
          · rw [if_pos h5] at h
            cases h
            rfl
          · rw [if_neg h5] at h
            by_cases h6 : (char_at stream i == ':') = true
            · rw [if_pos h6] at h
              cases h
              rfl
            · rw [if_neg h6] at h
              by_cases h7 : (char_at stream i == ',') = true
              · rw [if_pos h7] at h
                cases h
                rfl
              · rw [if_neg h7] at h
                by_cases h8 : is_quote (char_at stream i) = true
                · rw [if_pos h8] at h
                  cases h
                  exact ⟨_, rfl⟩
                · rw [if_neg h8] at h
                  by_cases h9 : is_number (char_at stream i) = true
                  · rw [if_pos h9] at h
                    cases hg : gobble_number stream i with
                    | none => rw [hg] at h; cases h
                    | some r =>
                      rw [hg] at h
                      cases h
                      exact gobble_number_wf stream i r hg
                  · rw [if_neg h9] at h
                    by_cases h10 : (char_at stream i == 'n') = true
                    · rw [if_pos h10] at h
                      cases h
                      rfl
                    · rw [if_neg h10] at h
                      cases h

/-- What holds of the token of every iteration holds of every token the loop
of `lex` appends. -/
theorem lex_loop_forall (P : token → Prop) (stream : List Char) (len : Nat)
    (hstep : ∀ i t j, lex_step stream i = some (some t, j) → P t) : ∀ (fuel i : Nat)
    (ts : List token), lex_loop stream len fuel i = some ts → ∀ t ∈ ts, P t := by
  intro fuel
  induction fuel with
  | zero =>
    intro i ts h t ht
    cases h
    cases ht
  | succ n ih =>
    intro i ts h t ht
    rw [lex_loop_succ] at h
    by_cases hlt : i < len
    · rw [if_pos hlt] at h
      unfold lex_next at h
      cases hs : lex_step stream i with
      | none => rw [hs] at h; cases h
      | some r =>
        obtain ⟨u, j⟩ := r
        rw [hs] at h
        simp only at h
        cases hl : lex_loop stream len n j with
        | none => rw [hl] at h; cases h
        | some ts2 =>
          rw [hl] at h
          cases h
          cases u with
          | none => exact ih j ts2 hl t ht
          | some u =>
            rcases List.mem_cons.mp ht with rfl | ht
            · exact hstep i t j hs
            · exact ih j ts2 hl t ht
    · rw [if_neg hlt] at h
      cases h
      cases ht

/-- Every token `lex` produces is well-formed. -/
theorem lex_wf (stream : List Char) (ts : List token) (h : lex stream = some ts) :
    ∀ t ∈ ts, t.wf :=
  lex_loop_forall token.wf stream _ (lex_step_wf stream) _ 0 ts h

/-- On a token that cannot start a value, `parse_json` prints its message and
returns `NULL`: no failure, and the cursor stays where it was. -/
theorem parse_json_unknown_token (tokens : List token) (fuel i : Nat) (t : token)
    (ht : token_at tokens i = Except.ok t)
    (hty : t.type = token_type.CLOSE_BRACE ∨ t.type = token_type.CLOSE_BRACKET ∨
      t.type = token_type.COLON ∨ t.type = token_type.COMMA) :
    parse_json tokens (fuel + 1) i = Except.ok (none, i) := by
  rw [parse_json]
  rcases hty with h | h | h | h <;> simp [ht, h]

/-! ### Keys -/

/-- `parse_string` on a well-formed token that is not a StringLiteral reads a
member the union does not hold. -/
theorem parse_string_not_string (t : token) (i : Nat) (hwf : t.wf)
    (hty : t.type ≠ token_type.STRING_LITERAL) :
    parse_string t i = Except.error fault.union_read := by
  unfold token.wf at hwf
  unfold parse_string
  cases h : t.type <;> rw [h] at hwf <;> simp only at hwf
  case STRING_LITERAL => exact absurd h hty
  case INTEGER_LITERAL => obtain ⟨n, hn⟩ := hwf; rw [hn]
  case FLOAT_LITERAL => obtain ⟨d, hd⟩ := hwf; rw [hd]
  all_goals rw [hwf]

/-- C11 (the code at a key position that holds no string). When the token at
the cursor is a well-formed token that is not a StringLiteral,
`parse_object_kv` does not check its kind: `parse_string` reads
`token->value.string->value`, the string member of a union that holds none.
That read is undefined behaviour, which the model marks with the fault
`union_read`: the run is no reported failure (there is no `exit(1)`, the fault
is not `exit_1`), and what the program does from there on, crash or return a
tree with a garbage key, is not determined by the program. The same undefined
read is reached by the loop of `parse_object` entered at that cursor, by
`parse_json` on a `{` directly in front of it, and by the loop when the cursor
is reached after a stored pair and its optional comma without a closing brace
there. In particular the tokens of `{1:2}` reach it for every fuel from 4
on. -/
theorem key_must_be_string (tokens : List token) (fuel i : Nat) (t : token)
    (ht : token_at tokens i = Except.ok t) (hwf : t.wf)
    (hty : t.type ≠ token_type.STRING_LITERAL) :
    parse_object_kv tokens (fuel + 1) i = Except.error fault.union_read ∧
    (∀ acc, parse_object_loop tokens (fuel + 2) i acc = Except.error fault.union_read) ∧
    (∀ o ob, i = o + 1 → token_at tokens o = Except.ok ob → ob.type = token_type.OPEN_BRACE →
      parse_json tokens (fuel + 4) o = Except.error fault.union_read) ∧
    (∀ acc pair i0 i1 t1, parse_object_kv tokens (fuel + 2) i0 = Except.ok (pair, i1) →
      store_fits (sizeof_json_kv_pair * 100) (sizeof_json_kv_pair * acc.length)
        sizeof_json_kv_pair = true →
      token_at tokens i1 = Except.ok t1 →
      i = (if t1.type = token_type.COMMA then i1 + 1 else i1) →
      t.type ≠ token_type.CLOSE_BRACE →
      parse_object_loop tokens (fuel + 3) i0 acc = Except.error fault.union_read) ∧
    (∃ ts, lex "\x7b1:2\x7d".toList = some ts ∧
      ∀ k, parse_json ts (4 + k) 0 = Except.error fault.union_read) := by
  have hkv : ∀ f, parse_object_kv tokens (f + 1) i = Except.error fault.union_read := by
    intro f
    rw [parse_object_kv]
    simp only [ht, parse_string_not_string t i hwf hty]
  have hloop : ∀ f acc, parse_object_loop tokens (f + 2) i acc =
      Except.error fault.union_read := by
    intro f acc
    rw [parse_object_loop, hkv f]
  refine ⟨hkv fuel, hloop fuel, ?_, ?_, ?_⟩
  · intro o ob hi hob hobt
    subst hi
    rw [parse_json]
    simp only [hob, hobt, if_true]
    rw [parse_object]
    simp only [hob, assert_token, hobt, ne_eq, not_true_eq_false, if_false]
    rw [hloop fuel]
  · intro acc pair i0 i1 t1 hpair hfit ht1 hi hcb
    rw [parse_object_loop, hpair]
    simp only [hfit, ↓reduceIte, ht1]
    rw [← hi]
    simp only [ht, hcb, if_false]
    exact hloop fuel _
  · refine ⟨_, (by decide : lex "\x7b1:2\x7d".toList = some
      [make_token token_type.OPEN_BRACE 0,
       { make_token token_type.INTEGER_LITERAL 2 with value := token_value.number 1 },
       make_token token_type.COLON 2,
       { make_token token_type.INTEGER_LITERAL 4 with value := token_value.number 2 },
       make_token token_type.CLOSE_BRACE 4]), fun k => ?_⟩
    exact parse_json_add_error 4 k rfl (by decide)

/-- C11 at the tokens of `{"a": 1, 2: 3}`: the key position after the first
pair and its comma holds the IntegerLiteral 2. -/
theorem key_must_be_string_witness :
    lex "\x7b\"a\": 1, 2: 3\x7d".toList = some
      [make_token token_type.OPEN_BRACE 0,
       { make_token token_type.STRING_LITERAL 4 with value := token_value.string ['a'] },
       make_token token_type.COLON 4,
       { make_token token_type.INTEGER_LITERAL 7 with value := token_value.number 1 },
       make_token token_type.COMMA 7,
       { make_token token_type.INTEGER_LITERAL 10 with value := token_value.number 2 },
       make_token token_type.COLON 10,
       { make_token token_type.INTEGER_LITERAL 13 with value := token_value.number 3 },
       make_token token_type.CLOSE_BRACE 13] ∧
    parse_object_loop
      [make_token token_type.OPEN_BRACE 0,
       { make_token token_type.STRING_LITERAL 4 with value := token_value.string ['a'] },
       make_token token_type.COLON 4,
       { make_token token_type.INTEGER_LITERAL 7 with value := token_value.number 1 },
       make_token token_type.COMMA 7,
       { make_token token_type.INTEGER_LITERAL 10 with value := token_value.number 2 },
       make_token token_type.COLON 10,
       { make_token token_type.INTEGER_LITERAL 13 with value := token_value.number 3 },
       make_token token_type.CLOSE_BRACE 13] (0 + 3) 1 [] =
      Except.error fault.union_read :=
  ⟨by decide,
    (key_must_be_string
      [make_token token_type.OPEN_BRACE 0,
       { make_token token_type.STRING_LITERAL 4 with value := token_value.string ['a'] },
       make_token token_type.COLON 4,
       { make_token token_type.INTEGER_LITERAL 7 with value := token_value.number 1 },
       make_token token_type.COMMA 7,
       { make_token token_type.INTEGER_LITERAL 10 with value := token_value.number 2 },
       make_token token_type.COLON 10,
       { make_token token_type.INTEGER_LITERAL 13 with value := token_value.number 3 },
       make_token token_type.CLOSE_BRACE 13] 0 5
      { make_token token_type.INTEGER_LITERAL 10 with value := token_value.number 2 }
      rfl ⟨2, rfl⟩ (by decide)).2.2.2.1 []
      ((['a'], some (json.INT 1))) 1 4 (make_token token_type.COMMA 7) rfl (by decide) rfl rfl
      (by decide)⟩
/-! ### Layout of the printed text -/

/-- The padding of a natural width. -/
theorem pad_nat (n : Nat) : pad (n : Int) = List.replicate n ' ' := by
  simp [pad]

/-- The padding of a natural width and two. -/
theorem pad_nat_add_two (n : Nat) : pad ((n : Int) + 2) = List.replicate (n + 2) ' ' := by
  have : ((n : Int) + 2) = ((n + 2 : Nat) : Int) := by push_cast; rfl
  rw [this, pad_nat]

/-- The lines the loops write are the lines joined, and a final newline. -/
theorem lines_body_joined : ∀ lines : List (List Char), lines ≠ [] →
    lines_body lines = joined lines ++ ['\n']
  | [], h => (h rfl).elim
  | [line], _ => by simp [lines_body, joined]
  | line :: l2 :: more, _ => by
    have ih := lines_body_joined (l2 :: more) (by simp)
    rw [lines_body, joined, ih]
    simp

/-- The loop over the pairs of an Object writes one line per pair: the
padding, two spaces, the quoted key, a colon and a space, the value. -/
theorem print_pairs_lines (n w : Nat) (kvs : List (List Char × json))
    (texts : List (List Char))
    (ht : List.Forall₂
      (fun kv text => pretty_print_json kv.2 ((n : Int) + (w : Int)) (w : Int) = some text)
      kvs texts) (hkeys : ∀ kv ∈ kvs, nul_free kv.1) :
    print_pairs (kvs.map (fun kv => (kv.1 ++ ['\x00'], some kv.2))) (n : Int) (w : Int) =
      some (lines_body (List.zipWith (object_line (n + 2)) (kvs.map Prod.fst) texts)) := by
  induction ht with
  | nil => simp [print_pairs, lines_body]
  | @cons kv text kvs texts h _ ih =>
    simp only [List.map_cons, List.zipWith_cons_cons, lines_body]
    rw [print_pairs, c_string_terminated _ (hkeys kv (List.mem_cons_self _ _)), h,
      ih (fun x hx => hkeys x (List.mem_cons_of_mem _ hx)), pad_nat]
    have hlen : (List.zipWith (object_line (n + 2)) (kvs.map Prod.fst) texts).isEmpty =
        (kvs.map (fun kv => (kv.1 ++ ['\x00'], some kv.2))).isEmpty := by
      cases kvs with
      | nil => simp
      | cons a b =>
        cases texts with
        | nil => cases ‹List.Forall₂ _ (a :: b) []›
        | cons c d => simp
    rw [hlen]
    simp [object_line, List.replicate_add]

/-- The loop over the values of an Array writes one line per value: the
padding and two spaces, the value. -/
theorem print_values_lines (n w : Nat) (values : List json) (texts : List (List Char))
    (ht : List.Forall₂
      (fun v text => pretty_print_json v ((n : Int) + (w : Int)) (w : Int) = some text)
      values texts) :
    print_values (values.map some) (n : Int) (w : Int) =
      some (lines_body (texts.map (array_line (n + 2)))) := by
  induction ht with
  | nil => simp [print_values, lines_body]
  | @cons v text values texts h _ ih =>
    simp only [List.map_cons, lines_body]
    rw [print_values, h, ih, pad_nat_add_two]
    have hlen : (texts.map (array_line (n + 2))).isEmpty = (values.map some).isEmpty := by
      cases values with
      | nil =>
        cases texts with
        | nil => simp
        | cons c d => cases ‹List.Forall₂ _ [] (c :: d)›
      | cons a b =>
        cases texts with
        | nil => cases ‹List.Forall₂ _ (a :: b) []›
        | cons c d => simp
    rw [hlen]
    simp [array_line]

/-- C12 as stated fails at the Object `{"k": 1}`, current indent 0, indent
width 4: the value renders as `1` at indent 4, and the printer writes the pair
line with 2 spaces, not with `0 + 4`. -/
theorem object_line_not_indent_width :
    pretty_print_json (json.INT 1) (((0 : Nat) : Int) + ((4 : Nat) : Int)) ((4 : Nat) : Int) =
      some ['1'] ∧
    pretty_print_json (json.OBJECT [(['k', '\x00'], some (json.INT 1))]) ((0 : Nat) : Int)
      ((4 : Nat) : Int) = some "\x7b\n  \"k\": 1\n\x7d".toList ∧
    object_layout (0 + 4) 0 [['k']] [['1']] = "\x7b\n    \"k\": 1\n\x7d".toList ∧
    pretty_print_json (json.OBJECT [(['k', '\x00'], some (json.INT 1))]) ((0 : Nat) : Int)
      ((4 : Nat) : Int) ≠ some (object_layout (0 + 4) 0 [['k']] [['1']]) := by
  decide

/-- C12, amended. Object layout: for every Object with pairs
`(k1, v1) .. (km, vm)`, `m >= 1` (the keys C strings, each held in the block
of its characters and the terminating NUL), every current indent `n` and
indent width `w`, where `text i` is the rendering of `vi` at current indent
`n + w`, the printer writes `{`, newline, the pair lines joined by comma and
newline, newline, `n` spaces and `}`; pair line `i` is `n + 2` spaces (the
padding `n` and two literal spaces, whatever `w` is), then the quoted key,
`: ` and `text i`; no comma follows the last pair. -/
theorem object_layout_printed (n w : Nat) (kvs : List (List Char × json))
    (texts : List (List Char)) (hne : kvs ≠ []) (hkeys : ∀ kv ∈ kvs, nul_free kv.1)
    (ht : List.Forall₂
      (fun kv text => pretty_print_json kv.2 ((n : Int) + (w : Int)) (w : Int) = some text)
      kvs texts) :
    pretty_print_json (json.OBJECT (kvs.map (fun kv => (kv.1 ++ ['\x00'], some kv.2))))
        (n : Int) (w : Int) =
      some (object_layout (n + 2) n (kvs.map Prod.fst) texts) := by
  have hlines : List.zipWith (object_line (n + 2)) (kvs.map Prod.fst) texts ≠ [] := by
    cases ht with
    | nil => exact (hne rfl).elim
    | cons _ _ => simp
  rw [pretty_print_json, print_pairs_lines n w kvs texts ht hkeys, lines_body_joined _ hlines,
    pad_nat]
  simp [object_layout]

/-- C12, amended, at the Object `{"a": 1, "b": null}`, indent 1, width 3. -/
theorem object_layout_printed_witness :
    [(['a'], json.INT 1), (['b'], json.NULL_)] ≠ [] ∧
    (∀ kv ∈ [(['a'], json.INT 1), (['b'], json.NULL_)], nul_free kv.1) ∧
    pretty_print_json (json.OBJECT
        ([(['a'], json.INT 1), (['b'], json.NULL_)].map
          (fun kv => (kv.1 ++ ['\x00'], some kv.2))))
        ((1 : Nat) : Int) ((3 : Nat) : Int) =
      some (object_layout (1 + 2) 1 ([(['a'], json.INT 1), (['b'], json.NULL_)].map Prod.fst)
        [['1'], ['n', 'u', 'l', 'l']]) :=
  have hkeys : ∀ kv ∈ [(['a'], json.INT 1), (['b'], json.NULL_)], nul_free kv.1 := by
    intro kv hkv
    simp only [List.mem_cons, List.mem_singleton, List.not_mem_nil, or_false] at hkv
    rcases hkv with rfl | rfl <;> (unfold nul_free; decide)
  ⟨by simp, hkeys, object_layout_printed 1 3 [(['a'], json.INT 1), (['b'], json.NULL_)]
    [['1'], ['n', 'u', 'l', 'l']] (by simp) hkeys
    (List.Forall₂.cons rfl (List.Forall₂.cons rfl List.Forall₂.nil))⟩

/-- C13. Array layout: for every Array with elements `v1 .. vm`, `m >= 1`,
every current indent `n` and indent width `w`, where `text i` is the rendering
of `vi` at current indent `n + w`, the printer writes `[`, newline, the
element lines joined by comma and newline, newline, `n` spaces and `]`;
element line `i` is exactly `n + 2` spaces (whatever `w` is) followed by
`text i`; no comma follows the last element. -/
theorem array_layout_printed (n w : Nat) (values : List json) (texts : List (List Char))
    (hne : values ≠ [])
    (ht : List.Forall₂
      (fun v text => pretty_print_json v ((n : Int) + (w : Int)) (w : Int) = some text)
      values texts) :
    pretty_print_json (json.ARRAY (values.map some)) (n : Int) (w : Int) =
      some (array_layout (n + 2) n texts) := by
  have hlines : texts.map (array_line (n + 2)) ≠ [] := by
    cases ht with
    | nil => exact (hne rfl).elim
    | cons _ _ => simp
  rw [pretty_print_json, print_values_lines n w values texts ht, lines_body_joined _ hlines,
    pad_nat]
  simp [array_layout]

/-- C13 at the Array `[1, null]`, indent 1, width 3. -/
theorem array_layout_printed_witness :
    [json.INT 1, json.NULL_] ≠ [] ∧
    pretty_print_json (json.ARRAY ([json.INT 1, json.NULL_].map some))
        ((1 : Nat) : Int) ((3 : Nat) : Int) =
      some (array_layout (1 + 2) 1 [['1'], ['n', 'u', 'l', 'l']]) :=
  ⟨by simp, array_layout_printed 1 3 [json.INT 1, json.NULL_]
    [['1'], ['n', 'u', 'l', 'l']] (by simp)
    (List.Forall₂.cons rfl (List.Forall₂.cons rfl List.Forall₂.nil))⟩

/-! ### No empty container -/

/-- Values without empty container, one value in front. -/
theorem nonempty_values_cons (v : Option json) (vs : List (Option json)) :
    nonempty_values (v :: vs) ↔ nonempty_pointer v ∧ nonempty_values vs := by
  cases v with
  | none => rw [nonempty_values]; simp [nonempty_pointer]
  | some d => rw [nonempty_values]; simp [nonempty_pointer]

/-- Pairs without empty container, one pair in front. -/
theorem nonempty_pairs_cons (key : List Char) (v : Option json)
    (ps : List (List Char × Option json)) :
    nonempty_pairs ((key, v) :: ps) ↔ nonempty_pointer v ∧ nonempty_pairs ps := by
  cases v with
  | none => rw [nonempty_pairs]; simp [nonempty_pointer]
  | some d => rw [nonempty_pairs]; simp [nonempty_pointer]

/-- Whatever the parser returns, every container in it has a child: the loops
store a child before they test for the closing delimiter. -/
theorem parse_nonempty (tokens : List token) : ∀ fuel : Nat,
    (∀ i v c, parse_json tokens fuel i = Except.ok (v, c) → nonempty_pointer v) ∧
    (∀ i key v c, parse_object_kv tokens fuel i = Except.ok ((key, v), c) →
      nonempty_pointer v) ∧
    (∀ i acc vs c, parse_array_loop tokens fuel i acc = Except.ok (vs, c) →
      ∃ new, vs = acc ++ new ∧ new ≠ [] ∧ nonempty_values new) ∧
    (∀ i vs c, parse_array tokens fuel i = Except.ok (vs, c) →
      vs ≠ [] ∧ nonempty_values vs) ∧
    (∀ i acc ps c, parse_object_loop tokens fuel i acc = Except.ok (ps, c) →
      ∃ new, ps = acc ++ new ∧ new ≠ [] ∧ nonempty_pairs new) ∧
    (∀ i ps c, parse_object tokens fuel i = Except.ok (ps, c) →
      ps ≠ [] ∧ nonempty_pairs ps) := by
  intro fuel
  induction fuel with
  | zero =>
    refine ⟨?_, ?_, ?_, ?_, ?_, ?_⟩ <;> intros <;>
      simp_all [parse_json, parse_object_kv, parse_array_loop, parse_array,
        parse_object_loop, parse_object]
  | succ n ih =>
    obtain ⟨h1, h2, h3, h4, h5, h6⟩ := ih
    refine ⟨?_, ?_, ?_, ?_, ?_, ?_⟩
    · intro i v c hrun
      rw [parse_json] at hrun
      cases ht : token_at tokens i with
      | error e => simp [ht] at hrun
      | ok t =>
        simp only [ht] at hrun
        split_ifs at hrun with c1 c2 c3 c4 c5
        · cases hp : parse_object tokens n i with
          | error e => simp [hp] at hrun
          | ok r =>
            obtain ⟨pairs, j⟩ := r
            simp only [hp, Except.ok.injEq, Prod.mk.injEq] at hrun
            obtain ⟨rfl, rfl⟩ := hrun
            have := h6 i pairs j hp
            simpa [nonempty_pointer, nonempty_containers] using this
        · cases hp : parse_array tokens n i with
          | error e => simp [hp] at hrun
          | ok r =>
            obtain ⟨values, j⟩ := r
            simp only [hp, Except.ok.injEq, Prod.mk.injEq] at hrun
            obtain ⟨rfl, rfl⟩ := hrun
            have := h4 i values j hp
            simpa [nonempty_pointer, nonempty_containers] using this
        · cases hp : parse_string t i with
          | error e => simp [hp] at hrun
          | ok r =>
            obtain ⟨value, j⟩ := r
            simp only [hp, Except.ok.injEq, Prod.mk.injEq] at hrun
            obtain ⟨rfl, rfl⟩ := hrun
            simp [nonempty_pointer, nonempty_containers]
        · cases hp : parse_number t i with
          | error e => simp [hp] at hrun
          | ok r =>
            obtain ⟨x, j⟩ := r
            cases x with
            | inl a =>
              simp only [hp, Except.ok.injEq, Prod.mk.injEq] at hrun
              obtain ⟨rfl, rfl⟩ := hrun
              simp [nonempty_pointer, nonempty_containers]
            | inr a =>
              simp only [hp, Except.ok.injEq, Prod.mk.injEq] at hrun
              obtain ⟨rfl, rfl⟩ := hrun
              simp [nonempty_pointer, nonempty_containers]
        · simp only [Except.ok.injEq, Prod.mk.injEq] at hrun
          obtain ⟨rfl, rfl⟩ := hrun
          simp [nonempty_pointer, nonempty_containers]
        · simp only [Except.ok.injEq, Prod.mk.injEq] at hrun
          obtain ⟨rfl, rfl⟩ := hrun
          simp [nonempty_pointer]
    · intro i key v c hrun
      rw [parse_object_kv] at hrun
      cases ht : token_at tokens i with
      | error e => simp [ht] at hrun
      | ok t =>
        simp only [ht] at hrun
        cases hk : parse_string t i with
        | error e => simp [hk] at hrun
        | ok r =>
          obtain ⟨key2, i1⟩ := r
          simp only [hk] at hrun
          cases hc : token_at tokens i1 with
          | error e => simp [hc] at hrun
          | ok col =>
            simp only [hc] at hrun
            cases ha : assert_token col token_type.COLON with
            | error e => simp [ha] at hrun
            | ok u =>
              simp only [ha] at hrun
              cases hj : parse_json tokens n (i1 + 1) with
              | error e => simp [hj] at hrun
              | ok r =>
                obtain ⟨value, j⟩ := r
                simp only [hj, Except.ok.injEq, Prod.mk.injEq] at hrun
                obtain ⟨⟨rfl, rfl⟩, rfl⟩ := hrun
                exact h1 _ _ _ hj
    · intro i acc vs c hrun
      rw [parse_array_loop] at hrun
      cases hj : parse_json tokens n i with
      | error e => simp [hj] at hrun
      | ok r =>
        obtain ⟨value, i1⟩ := r
        simp only [hj] at hrun
        have hv := h1 _ _ _ hj
        by_cases hfit : store_fits (sizeof_json_pointer * 100) (sizeof_json_pointer * acc.length)
            sizeof_json_pointer = true
        · simp only [hfit, ↓reduceIte] at hrun
          cases ht1 : token_at tokens i1 with
          | error e => simp [ht1] at hrun
          | ok t1 =>
            simp only [ht1] at hrun
            cases ht2 : token_at tokens (if t1.type = token_type.COMMA then i1 + 1 else i1) with
            | error e => simp [ht2] at hrun
            | ok t2 =>
              simp only [ht2] at hrun
              by_cases hcb : t2.type = token_type.CLOSE_BRACKET
              · simp only [hcb, if_true, Except.ok.injEq, Prod.mk.injEq] at hrun
                obtain ⟨rfl, rfl⟩ := hrun
                exact ⟨[value], rfl, by simp,
                  (nonempty_values_cons value []).mpr ⟨hv, by rw [nonempty_values]; trivial⟩⟩
              · simp only [hcb, if_false] at hrun
                obtain ⟨new, rfl, -, hnew⟩ := h3 _ _ vs c hrun
                exact ⟨value :: new, by simp, by simp,
                  (nonempty_values_cons value new).mpr ⟨hv, hnew⟩⟩
        · simp [hfit] at hrun
    · intro i vs c hrun
      rw [parse_array] at hrun
      cases ht : token_at tokens i with
      | error e => simp [ht] at hrun
      | ok t =>
        simp only [ht] at hrun
        cases ha : assert_token t token_type.OPEN_BRACKET with
        | error e => simp [ha] at hrun
        | ok u =>
          simp only [ha] at hrun
          obtain ⟨new, hvs, hne, hnew⟩ := h3 _ _ vs c hrun
          rw [List.nil_append] at hvs
          subst hvs
          exact ⟨hne, hnew⟩
    · intro i acc ps c hrun
      rw [parse_object_loop] at hrun
      cases hj : parse_object_kv tokens n i with
      | error e => simp [hj] at hrun
      | ok r =>
        obtain ⟨⟨key, value⟩, i1⟩ := r
        simp only [hj] at hrun
        have hv := h2 _ _ _ _ hj
        by_cases hfit : store_fits (sizeof_json_kv_pair * 100) (sizeof_json_kv_pair * acc.length)
            sizeof_json_kv_pair = true
        · simp only [hfit, ↓reduceIte] at hrun
          cases ht1 : token_at tokens i1 with
          | error e => simp [ht1] at hrun
          | ok t1 =>
            simp only [ht1] at hrun
            cases ht2 : token_at tokens (if t1.type = token_type.COMMA then i1 + 1 else i1) with
            | error e => simp [ht2] at hrun
            | ok t2 =>
              simp only [ht2] at hrun
              by_cases hcb : t2.type = token_type.CLOSE_BRACE
              · simp only [hcb, if_true, Except.ok.injEq, Prod.mk.injEq] at hrun
                obtain ⟨rfl, rfl⟩ := hrun
                exact ⟨[(key, value)], rfl, by simp,
                  (nonempty_pairs_cons key value []).mpr ⟨hv, by rw [nonempty_pairs]; trivial⟩⟩
              · simp only [hcb, if_false] at hrun
                obtain ⟨new, rfl, -, hnew⟩ := h5 _ _ ps c hrun
                exact ⟨(key, value) :: new, by simp, by simp,
                  (nonempty_pairs_cons key value new).mpr ⟨hv, hnew⟩⟩
        · simp [hfit] at hrun
    · intro i ps c hrun
      rw [parse_object] at hrun
      cases ht : token_at tokens i with
      | error e => simp [ht] at hrun
      | ok t =>
        simp only [ht] at hrun
        cases ha : assert_token t token_type.OPEN_BRACE with
        | error e => simp [ha] at hrun
        | ok u =>
          simp only [ha] at hrun
          obtain ⟨new, hvs, hne, hnew⟩ := h5 _ _ ps c hrun
          rw [List.nil_append] at hvs
          subst hvs
          exact ⟨hne, hnew⟩

/-- C14. Containers are never empty: in every tree `parse_json` returns, from
any cursor of any token sequence and with any fuel, every Array and every
Object node has at least one child. In particular the tokens of `[]` are
parsed (for every fuel from 4 on) to an Array of length 1, whose one child is
the `NULL` that `parse_json` returned on the closing bracket, and never to an
empty Array; on the tokens of `{}` the loop reads the closing brace as a key
(the fault `union_read`, for every fuel from 4 on), and no empty Object is
returned. -/
theorem containers_never_empty (tokens : List token) (fuel i c : Nat) (d : json)
    (h : parse_json tokens fuel i = Except.ok (some d, c)) :
    nonempty_containers d ∧
    (∃ ts, lex "[]".toList = some ts ∧
      (∀ k, parse_json ts (4 + k) 0 = Except.ok (some (json.ARRAY [none]), 2)) ∧
      (∀ f j, parse_json ts f 0 ≠ Except.ok (some (json.ARRAY []), j))) ∧
    (∃ ts, lex "\x7b\x7d".toList = some ts ∧
      (∀ k, parse_json ts (4 + k) 0 = Except.error fault.union_read) ∧
      (∀ f j, parse_json ts f 0 ≠ Except.ok (some (json.OBJECT []), j))) := by
  refine ⟨(parse_nonempty tokens fuel).1 i (some d) c h, ?_, ?_⟩
  · refine ⟨_, (by decide : lex "[]".toList = some
      [make_token token_type.OPEN_BRACKET 0, make_token token_type.CLOSE_BRACKET 1]),
      fun k => parse_json_add_ok 4 k rfl, fun f j hc => ?_⟩
    have := (parse_nonempty _ f).1 0 _ j hc
    simp [nonempty_pointer, nonempty_containers] at this
  · refine ⟨_, (by decide : lex "\x7b\x7d".toList = some
      [make_token token_type.OPEN_BRACE 0, make_token token_type.CLOSE_BRACE 1]),
      fun k => parse_json_add_error 4 k rfl (by decide), fun f j hc => ?_⟩
    have := (parse_nonempty _ f).1 0 _ j hc
    simp [nonempty_pointer, nonempty_containers] at this

/-- C14 at the tokens of `[[1], {"a": [2]}]`. -/
theorem containers_never_empty_witness :
    lex "[[1], \x7b\"a\": [2]\x7d]".toList = some
      [make_token token_type.OPEN_BRACKET 0, make_token token_type.OPEN_BRACKET 1,
       { make_token token_type.INTEGER_LITERAL 3 with value := token_value.number 1 },
       make_token token_type.CLOSE_BRACKET 3, make_token token_type.COMMA 4,
       make_token token_type.OPEN_BRACE 6,
       { make_token token_type.STRING_LITERAL 10 with value := token_value.string ['a'] },
       make_token token_type.COLON 10, make_token token_type.OPEN_BRACKET 12,
       { make_token token_type.INTEGER_LITERAL 14 with value := token_value.number 2 },
       make_token token_type.CLOSE_BRACKET 14, make_token token_type.CLOSE_BRACE 15,
       make_token token_type.CLOSE_BRACKET 16] ∧
    parse_json
      [make_token token_type.OPEN_BRACKET 0, make_token token_type.OPEN_BRACKET 1,
       { make_token token_type.INTEGER_LITERAL 3 with value := token_value.number 1 },
       make_token token_type.CLOSE_BRACKET 3, make_token token_type.COMMA 4,
       make_token token_type.OPEN_BRACE 6,
       { make_token token_type.STRING_LITERAL 10 with value := token_value.string ['a'] },
       make_token token_type.COLON 10, make_token token_type.OPEN_BRACKET 12,
       { make_token token_type.INTEGER_LITERAL 14 with value := token_value.number 2 },
       make_token token_type.CLOSE_BRACKET 14, make_token token_type.CLOSE_BRACE 15,
       make_token token_type.CLOSE_BRACKET 16] 12 0 =
      Except.ok (some (json.ARRAY [some (json.ARRAY [some (json.INT 1)]),
        some (json.OBJECT [(['a'], some (json.ARRAY [some (json.INT 2)]))])]), 13) ∧
    nonempty_containers (json.ARRAY [some (json.ARRAY [some (json.INT 1)]),
        some (json.OBJECT [(['a'], some (json.ARRAY [some (json.INT 2)]))])]) :=
  ⟨by decide, rfl, (containers_never_empty
      [make_token token_type.OPEN_BRACKET 0, make_token token_type.OPEN_BRACKET 1,
       { make_token token_type.INTEGER_LITERAL 3 with value := token_value.number 1 },
       make_token token_type.CLOSE_BRACKET 3, make_token token_type.COMMA 4,
       make_token token_type.OPEN_BRACE 6,
       { make_token token_type.STRING_LITERAL 10 with value := token_value.string ['a'] },
       make_token token_type.COLON 10, make_token token_type.OPEN_BRACKET 12,
       { make_token token_type.INTEGER_LITERAL 14 with value := token_value.number 2 },
       make_token token_type.CLOSE_BRACKET 14, make_token token_type.CLOSE_BRACE 15,
       make_token token_type.CLOSE_BRACKET 16] 12 0 13 _ rfl).1⟩
/-! ### Skipped characters and `null` -/

/-- The iteration of `lex` on a character that starts no token. -/
theorem lex_step_skip (stream : List Char) (i : Nat)
    (hc : char_at stream i ≠ '{' ∧ char_at stream i ≠ '}' ∧ char_at stream i ≠ '[' ∧
      char_at stream i ≠ ']' ∧ char_at stream i ≠ ':' ∧ char_at stream i ≠ ',' ∧
      char_at stream i ≠ '"' ∧ char_at stream i ≠ '-' ∧ char_at stream i ≠ 'n')
    (hd : is_digit (char_at stream i) = false) :
    lex_step stream i = some (none, i + 1) := by
  obtain ⟨h1, h2, h3, h4, h5, h6, h7, h8, h9⟩ := hc
  have hnum : ¬ is_number (char_at stream i) = true := by
    simp only [is_number, Bool.or_eq_true, beq_iff_eq, not_or]
    simp only [is_digit] at hd
    exact ⟨by simp [hd], h8⟩
  unfold lex_step
  by_cases hw : is_whitespace (char_at stream i) = true
  · rw [if_pos hw]
  · rw [if_neg hw, if_neg (by simpa using h1), if_neg (by simpa using h2),
      if_neg (by simpa using h3), if_neg (by simpa using h4), if_neg (by simpa using h5),
      if_neg (by simpa using h6), if_neg (by simpa [is_quote] using h7), if_neg hnum,
      if_neg (by simpa using h9)]

/-- C17. Skipped characters: for every character `c` of a text (not NUL) that
is not one of `{`, `}`, `[`, `]`, `:`, `,`, `"`, `-`, `n` and not a digit, and
every text `s`, `lex` on `c` followed by `s` produces no token for `c` and
exactly the tokens of `lex s`, in the same order, with the same kinds and
payloads and every offset moved up by 1. -/
theorem skipped_character (c : Char) (s : List Char) (h0 : c ≠ '\x00')
    (hc : c ≠ '{' ∧ c ≠ '}' ∧ c ≠ '[' ∧ c ≠ ']' ∧ c ≠ ':' ∧ c ≠ ',' ∧ c ≠ '"' ∧ c ≠ '-' ∧
      c ≠ 'n')
    (hd : is_digit c = false) :
    lex (c :: s) = (lex s).map (List.map (shift 1)) := by
  have hn : nul_free [c] := by
    intro d hd2
    rw [List.mem_singleton.mp hd2]; exact h0
  have hs : lex_step ([c] ++ s) 0 = some (none, [c].length) :=
    lex_step_skip ([c] ++ s) 0 hc hd
  have := lex_first_lexeme [c] s hn (by simp) none hs
  simpa [emit] using this

/-- C17 at a space, a tab, a newline, `t`, `.` and a carriage return in front
of `[1]`. -/
theorem skipped_character_witness :
    lex (' ' :: ['[', '1', ']']) = (lex ['[', '1', ']']).map (List.map (shift 1)) ∧
    lex ('\t' :: ['[', '1', ']']) = (lex ['[', '1', ']']).map (List.map (shift 1)) ∧
    lex ('\n' :: ['[', '1', ']']) = (lex ['[', '1', ']']).map (List.map (shift 1)) ∧
    lex ('t' :: ['[', '1', ']']) = (lex ['[', '1', ']']).map (List.map (shift 1)) ∧
    lex ('.' :: ['[', '1', ']']) = (lex ['[', '1', ']']).map (List.map (shift 1)) ∧
    lex ('\r' :: ['[', '1', ']']) = (lex ['[', '1', ']']).map (List.map (shift 1)) :=
  ⟨skipped_character ' ' _ (by decide) (by decide) rfl,
   skipped_character '\t' _ (by decide) (by decide) rfl,
   skipped_character '\n' _ (by decide) (by decide) rfl,
   skipped_character 't' _ (by decide) (by decide) rfl,
   skipped_character '.' _ (by decide) (by decide) rfl,
   skipped_character '\r' _ (by decide) (by decide) rfl⟩

/-- The iteration of `lex` on an `n`. -/
theorem lex_step_n (stream : List Char) (i : Nat) (h : char_at stream i = 'n') :
    lex_step stream i = some (some (make_token token_type.NULL_LITERAL i), i + 4) := by
  unfold lex_step
  rw [h]
  rfl

/-- C16. Unvalidated null: for every text `s` (a C string, without NUL), `lex`
on `n` followed by `s` emits a NullLiteral first, stamped at offset 0, and
resumes 4 characters behind the `n` whatever the three characters after it
are: the remaining tokens are those of `s` without its first 3 characters,
offsets moved up by 4 (none when `s` has fewer than 3 characters). In
particular `nabc` and `null` both lex to exactly one NullLiteral. -/
theorem null_is_not_validated (s : List Char) (hs : nul_free s) :
    lex ('n' :: s) =
      (lex (s.drop 3)).map
        (fun ts => make_token token_type.NULL_LITERAL 0 :: ts.map (shift 4)) ∧
    lex "nabc".toList = some [make_token token_type.NULL_LITERAL 0] ∧
    lex "null".toList = some [make_token token_type.NULL_LITERAL 0] := by
  refine ⟨?_, by decide, by decide⟩
  by_cases hlen : 3 ≤ s.length
  · have hn : nul_free ('n' :: s.take 3) := by
      intro c hc
      rcases List.mem_cons.mp hc with rfl | hc
      · decide
      · exact hs c (List.mem_of_mem_take hc)
    have hl : ('n' :: s.take 3).length = 4 := by
      simp [List.length_take]; omega
    have hsplit : 'n' :: s = ('n' :: s.take 3) ++ s.drop 3 := by
      simp [List.take_append_drop]
    have hstep : lex_step (('n' :: s.take 3) ++ s.drop 3) 0 =
        some (some (make_token token_type.NULL_LITERAL 0), ('n' :: s.take 3).length) := by
      rw [hl]
      exact lex_step_n _ 0 rfl
    have := lex_first_lexeme _ (s.drop 3) hn (by simp) _ hstep
    rw [hl] at this
    rw [hsplit, this]
    rfl
  · have hd : s.drop 3 = [] := List.drop_eq_nil_of_le (by omega)
    have hstr : strlen ('n' :: s) = s.length + 1 := by
      have hn : nul_free ('n' :: s) := by
        intro c hc
        rcases List.mem_cons.mp hc with rfl | hc
        · decide
        · exact hs c hc
      rw [strlen_nul_free _ hn]
      simp
    rw [hd, lex_eq_lex_at, lex_at_step _ 0 (by rw [hstr]; omega)]
    unfold lex_next
    rw [lex_step_n ('n' :: s) 0 rfl]
    simp only
    rw [lex_at_end _ _ (by rw [hstr]; omega)]
    rfl

/-- C16 at the text `x,1`: the comma is swallowed with the `x`. -/
theorem null_is_not_validated_witness :
    nul_free ['x', ',', '1'] ∧
    lex ('n' :: ['x', ',', '1']) =
      (lex (['x', ',', '1'].drop 3)).map
        (fun ts => make_token token_type.NULL_LITERAL 0 :: ts.map (shift 4)) :=
  have hs : nul_free ['x', ',', '1'] := by unfold nul_free; decide
  ⟨hs, (null_is_not_validated ['x', ',', '1'] hs).1⟩

/-! ### Numbers -/

/-- A character `is_number` accepts is not NUL. -/
theorem is_number_ne_nul (c : Char) (h : is_number c = true) : c ≠ '\x00' := by
  intro e; subst e; exact absurd h (by decide)

/-- `strtol` on a text of the form `-?[0-9]+`. -/
theorem strtol_decimal (neg : Bool) (ds : List Char)
    (hds : ∀ c ∈ ds, is_digit c = true) :
    strtol ((if neg then ['-'] else []) ++ ds) =
      max (-(2 : Int) ^ 63) (min (decimal_value neg ds) ((2 : Int) ^ 63 - 1)) := by
  have htw : ds.takeWhile is_digit = ds := takeWhile_all _ _ hds
  unfold strtol decimal_value
  cases neg with
  | true =>
    simp only [if_true, List.singleton_append, htw]
  | false =>
    have hhead : ∀ r, ds ≠ '-' :: r := by
      intro r e
      have := (is_digit_facts '-' (hds '-' (by rw [e]; exact List.mem_cons_self _ _))).2.2.1
      exact this rfl
    have hgen : ∀ b : List Char, (∀ r, b ≠ '-' :: r) →
        (match b with
        | '-' :: rest => - (digits_value (rest.takeWhile is_digit) : Int)
        | _ => (digits_value (b.takeWhile is_digit) : Int)) =
        (digits_value (b.takeWhile is_digit) : Int) := by
      intro b hb
      split
      · next rest => exact absurd rfl (hb rest)
      · rfl
    have hm := hgen ds hhead
    simp only [Bool.false_eq_true, if_false, List.nil_append, hm, htw]

/-- `atoi` on a text of the form `-?[0-9]+` whose value is a 32-bit integer. -/
theorem atoi_decimal (neg : Bool) (ds : List Char)
    (hds : ∀ c ∈ ds, is_digit c = true)
    (hlo : -(2 : Int) ^ 31 ≤ decimal_value neg ds) (hhi : decimal_value neg ds < (2 : Int) ^ 31) :
    atoi ((if neg then ['-'] else []) ++ ds) = decimal_value neg ds := by
  unfold atoi to_int32
  rw [strtol_decimal neg ds hds]
  generalize decimal_value neg ds = v at hlo hhi
  norm_num at hlo hhi ⊢
  omega

/-- The iteration of `lex` on a digit or `-`. -/
theorem lex_step_number (stream : List Char) (i : Nat)
    (h : is_number (char_at stream i) = true) :
    lex_step stream i = (gobble_number stream i).map (fun r => (some r.1, r.2)) := by
  have hne : ∀ d : Char, is_number d = false → ¬ (char_at stream i == d) = true := by
    intro d hd e
    rw [beq_iff_eq] at e
    rw [e, hd] at h
    cases h
  have h1 : ¬ is_whitespace (char_at stream i) = true := by
    intro e
    simp only [is_whitespace, Bool.or_eq_true] at e
    rcases e with (e | e) | e
    · exact hne ' ' rfl e
    · exact hne '\n' rfl e
    · exact hne '\t' rfl e
  have h8 : ¬ is_quote (char_at stream i) = true := hne '"' rfl
  unfold lex_step
  rw [if_neg h1, if_neg (hne '{' rfl), if_neg (hne '}' rfl), if_neg (hne '[' rfl),
    if_neg (hne ']' rfl), if_neg (hne ':' rfl), if_neg (hne ',' rfl), if_neg h8, if_pos h]

/-- `gobble_number` on a run of digits and `-` that no digit, `-` or `.`
follows: the IntegerLiteral of the run when the terminator stays in the chunk. -/
theorem gobble_number_run (ds x : List Char)
    (hds : ∀ c ∈ ds, is_number c = true ∧ c ≠ '\x00') (hx : run_ends x)
    (hnd : ∀ rest, x ≠ '.' :: rest) :
    gobble_number (ds ++ x) 0 =
      if store_fits ds.length ds.length 1 then
        some ({ type := token_type.INTEGER_LITERAL, value := token_value.number (atoi ds),
                start := ds.length, end_ := ds.length + 1 }, ds.length)
      else none := by
  have hp : ∀ c ∈ ds, (c != '\x00' && is_number c) = true := by
    intro c hc
    simp [(hds c hc).1, (hds c hc).2]
  have hscan : scan_while is_number (ds ++ x) 0 = ds.length := by
    unfold scan_while
    rw [Nat.zero_add, List.drop_zero]
    cases x with
    | nil => rw [List.append_nil, takeWhile_all _ _ hp]
    | cons c r =>
      rw [takeWhile_append_stop _ ds c r hp (by simp [hx c r rfl])]
  have hdot : (char_at (ds ++ x) (scan_while is_number (ds ++ x) 0) == '.') = false := by
    rw [hscan]
    have := char_at_append ds x 0
    rw [Nat.add_zero] at this
    rw [this]
    cases x with
    | nil => rfl
    | cons c r =>
      have hc : c ≠ '.' := fun e => hnd r (by rw [e])
      simpa [char_at] using hc
  rw [gobble_number_int _ _ hdot]
  simp only [hscan, Nat.sub_zero, make_token, slice, List.drop_zero, List.take_left']

/-- `gobble_number` on a run of digits and `-`, a `.`, and a further maximal
run: the FloatLiteral of the whole lexeme when the terminator stays in the
chunk. -/
theorem gobble_number_float (r r2 z : List Char)
    (hr : ∀ c ∈ r, is_number c = true) (hr2 : ∀ c ∈ r2, is_number c = true)
    (hz : run_ends z) :
    gobble_number (r ++ '.' :: (r2 ++ z)) 0 =
      if store_fits (r.length + 1 + r2.length) (r.length + 1 + r2.length) 1 then
        some ({ type := token_type.FLOAT_LITERAL,
                value := token_value.number_f (atof (r ++ '.' :: r2)),
                start := r.length + 1 + r2.length, end_ := r.length + 1 + r2.length + 1 },
          r.length + 1 + r2.length)
      else none := by
  have hp : ∀ s : List Char, (∀ c ∈ s, is_number c = true) →
      ∀ c ∈ s, (c != '\x00' && is_number c) = true := by
    intro s hs c hc
    simp [hs c hc, is_number_ne_nul c (hs c hc)]
  have hscan1 : scan_while is_number (r ++ '.' :: (r2 ++ z)) 0 = r.length := by
    unfold scan_while
    rw [Nat.zero_add, List.drop_zero, takeWhile_append_stop _ r '.' _ (hp r hr) rfl]
  have hdot : (char_at (r ++ '.' :: (r2 ++ z))
      (scan_while is_number (r ++ '.' :: (r2 ++ z)) 0) == '.') = true := by
    rw [hscan1]
    have := char_at_append r ('.' :: (r2 ++ z)) 0
    rw [Nat.add_zero] at this
    rw [this]
    rfl
  have hscan2 : scan_while is_number (r ++ '.' :: (r2 ++ z)) (r.length + 1) =
      r.length + 1 + r2.length := by
    unfold scan_while
    have hdrop : (r ++ '.' :: (r2 ++ z)).drop (r.length + 1) = r2 ++ z := by
      rw [List.drop_append]
      rfl
    rw [hdrop]
    cases z with
    | nil => rw [List.append_nil, takeWhile_all _ _ (hp r2 hr2)]
    | cons c rest =>
      rw [takeWhile_append_stop _ r2 c rest (hp r2 hr2) (by simp [hz c rest rfl])]
  have hslice : slice (r ++ '.' :: (r2 ++ z)) 0 (r.length + 1 + r2.length) =
      r ++ '.' :: r2 := by
    unfold slice
    rw [List.drop_zero, Nat.sub_zero]
    have e : r ++ '.' :: (r2 ++ z) = (r ++ '.' :: r2) ++ z := by simp
    rw [e]
    apply List.take_left'
    simp
    omega
  rw [gobble_number_dot _ _ hdot]
  simp only [hscan1, hscan2, Nat.sub_zero, make_token, hslice]

/-- C15 (the code within and beyond the chunk of its buffer). Number
classification and value: for every input that begins with a maximal run `r`
of digits and `-` (`r` not empty). If `r` is `-?[0-9]+` (the sign `neg`, the
digits `ds`) with a value in the 32-bit signed range and what follows `r` does
not begin with `.`, then, when the terminating NUL that `gobble_number` stores
one byte behind its buffer of `|r|` bytes stays in the chunk, `lex` emits
first an IntegerLiteral whose payload is the decimal value of `r`, and goes on
with what follows `r`. If what follows `r` is a `.`, a maximal run `r2` of
digits and `-`, and `z`, then, under the same condition on the buffer of the
lexeme `r`, `.`, `r2`, the first token is a FloatLiteral made by `atof` from
that lexeme, and `lex` goes on with `z`. The offsets of the later tokens are
moved up by the length of the lexeme. When the NUL does not stay in the chunk
the heap is corrupted and `lex` produces no tokens: so on the 24 characters
`000000000000000000000001`, of value 1, while the 23 characters
`00000000000000000000001` give the IntegerLiteral 1. -/
theorem number_classification (r : List Char) (hr : ∀ c ∈ r, is_number c = true)
    (hne : r ≠ []) :
    (∀ (neg : Bool) (ds x : List Char), r = (if neg then ['-'] else []) ++ ds → ds ≠ [] →
      (∀ c ∈ ds, is_digit c = true) →
      -(2 : Int) ^ 31 ≤ decimal_value neg ds → decimal_value neg ds < (2 : Int) ^ 31 →
      run_ends x → (∀ rest, x ≠ '.' :: rest) →
      lex (r ++ x) =
        if store_fits r.length r.length 1 then
          (lex x).map (fun ts =>
            { type := token_type.INTEGER_LITERAL,
              value := token_value.number (decimal_value neg ds),
              start := r.length, end_ := r.length + 1 } :: ts.map (shift r.length))
        else none) ∧
    (∀ r2 z : List Char, (∀ c ∈ r2, is_number c = true) → run_ends z →
      lex (r ++ '.' :: (r2 ++ z)) =
        if store_fits (r.length + 1 + r2.length) (r.length + 1 + r2.length) 1 then
          (lex z).map (fun ts =>
            { type := token_type.FLOAT_LITERAL,
              value := token_value.number_f (atof (r ++ '.' :: r2)),
              start := r.length + 1 + r2.length, end_ := r.length + 1 + r2.length + 1 } ::
              ts.map (shift (r.length + 1 + r2.length)))
        else none) ∧
    lex "000000000000000000000001".toList = none ∧
    lex "00000000000000000000001".toList = some
      [{ type := token_type.INTEGER_LITERAL, value := token_value.number 1,
         start := 23, end_ := 24 }] := by
  have hfirst : ∀ x : List Char, is_number (char_at (r ++ x) 0) = true := by
    intro x
    cases hd : r with
    | nil => exact absurd hd hne
    | cons c rest => exact hr c (by rw [hd]; exact List.mem_cons_self _ _)
  refine ⟨?_, ?_, by decide, by decide⟩
  · intro neg ds x hrd _ hds hlo hhi hx hdot
    have hch : ∀ c ∈ r, is_number c = true ∧ c ≠ '\x00' :=
      fun c hc => ⟨hr c hc, is_number_ne_nul c (hr c hc)⟩
    have hn : nul_free r := fun c hc => (hch c hc).2
    have hat : atoi r = decimal_value neg ds := by
      have := atoi_decimal neg ds hds hlo hhi
      rw [← hrd] at this
      exact this
    by_cases hfit : store_fits r.length r.length 1 = true
    · have hs : lex_step (r ++ x) 0 =
          some (some { type := token_type.INTEGER_LITERAL,
                       value := token_value.number (decimal_value neg ds),
                       start := r.length, end_ := r.length + 1 }, r.length) := by
        rw [lex_step_number _ 0 (hfirst x), gobble_number_run r x hch hx hdot, if_pos hfit, hat]
        rfl
      rw [if_pos hfit, lex_first_lexeme r x hn hne _ hs]
      rfl
    · have hs : lex_step (r ++ x) 0 = none := by
        rw [lex_step_number _ 0 (hfirst x), gobble_number_run r x hch hx hdot, if_neg hfit]
        rfl
      rw [if_neg hfit, lex_first_overrun r x hn hne hs]
  · intro r2 z hr2 hz
    have hn : nul_free (r ++ '.' :: r2) := by
      intro c hc
      rcases List.mem_append.mp hc with hc | hc
      · exact is_number_ne_nul c (hr c hc)
      · rcases List.mem_cons.mp hc with rfl | hc
        · decide
        · exact is_number_ne_nul c (hr2 c hc)
    have e : r ++ '.' :: (r2 ++ z) = (r ++ '.' :: r2) ++ z := by simp
    have hl : (r ++ '.' :: r2).length = r.length + 1 + r2.length := by
      simp only [List.length_append, List.length_cons]
      omega
    by_cases hfit : store_fits (r.length + 1 + r2.length) (r.length + 1 + r2.length) 1 = true
    · have hs : lex_step ((r ++ '.' :: r2) ++ z) 0 =
          some (some { type := token_type.FLOAT_LITERAL,
                       value := token_value.number_f (atof (r ++ '.' :: r2)),
                       start := r.length + 1 + r2.length,
                       end_ := r.length + 1 + r2.length + 1 },
            (r ++ '.' :: r2).length) := by
        rw [← e, lex_step_number _ 0 (hfirst _), gobble_number_float r r2 z hr hr2 hz,
          if_pos hfit, hl]
        rfl
      have := lex_first_lexeme (r ++ '.' :: r2) z hn (by simp) _ hs
      rw [hl] at this
      rw [if_pos hfit, e, this]
      rfl
    · have hs : lex_step ((r ++ '.' :: r2) ++ z) 0 = none := by
        rw [← e, lex_step_number _ 0 (hfirst _), gobble_number_float r r2 z hr hr2 hz,
          if_neg hfit]
        rfl
      rw [if_neg hfit, e, lex_first_overrun (r ++ '.' :: r2) z hn (by simp) hs]

/-- C15 at the run `-12`, followed by `,` and followed by `.50]`. -/
theorem number_classification_witness :
    (∀ c ∈ ['-', '1', '2'], is_number c = true) ∧ ['-', '1', '2'] ≠ [] ∧
    lex (['-', '1', '2'] ++ [',']) =
      (if store_fits ['-', '1', '2'].length ['-', '1', '2'].length 1 then
        (lex [',']).map (fun ts =>
          { type := token_type.INTEGER_LITERAL,
            value := token_value.number (decimal_value true ['1', '2']),
            start := ['-', '1', '2'].length, end_ := ['-', '1', '2'].length + 1 } ::
            ts.map (shift ['-', '1', '2'].length))
      else none) ∧
    lex (['-', '1', '2'] ++ '.' :: (['5', '0'] ++ [']'])) =
      (if store_fits (['-', '1', '2'].length + 1 + ['5', '0'].length)
          (['-', '1', '2'].length + 1 + ['5', '0'].length) 1 then
        (lex [']']).map (fun ts =>
          { type := token_type.FLOAT_LITERAL,
            value := token_value.number_f (atof (['-', '1', '2'] ++ '.' :: ['5', '0'])),
            start := ['-', '1', '2'].length + 1 + ['5', '0'].length,
            end_ := ['-', '1', '2'].length + 1 + ['5', '0'].length + 1 } ::
            ts.map (shift (['-', '1', '2'].length + 1 + ['5', '0'].length)))
      else none) :=
  have hr : ∀ c ∈ ['-', '1', '2'], is_number c = true := by decide
  have hne : ['-', '1', '2'] ≠ [] := by decide
  ⟨hr, hne,
    (number_classification ['-', '1', '2'] hr hne).1 true ['1', '2'] [','] rfl (by decide)
      (by decide) (by decide) (by decide)
      (by intro c rest e; injection e with e1 _; subst e1; rfl)
      (by intro rest e; injection e with e1 _; exact absurd e1 (by decide)),
    (number_classification ['-', '1', '2'] hr hne).2.1 ['5', '0'] [']'] (by decide)
      (by intro c rest e; injection e with e1 _; subst e1; rfl)⟩
/-! ### Spans -/

/-- The token of `gobble_number` is stamped behind its lexeme, one wide. -/
theorem gobble_number_span (stream : List Char) (i : Nat) (r : token × Nat)
    (h : gobble_number stream i = some r) :
    r.1.end_ = r.1.start + 1 ∧
    r.1.start = if lexeme_kind r.1.type = true then r.2 else i := by
  by_cases hdot : (char_at stream (scan_while is_number stream i) == '.') = true
  · rw [gobble_number_dot _ _ hdot] at h
    split_ifs at h
    cases h
    exact ⟨rfl, rfl⟩
  · have hb : (char_at stream (scan_while is_number stream i) == '.') = false := by
      simpa using hdot
    rw [gobble_number_int _ _ hb] at h
    split_ifs at h
    cases h
    exact ⟨rfl, rfl⟩

/-- The token of one iteration of `lex`: one wide, stamped behind the lexeme
for a string or a number, on its character otherwise. -/
theorem lex_step_span (stream : List Char) (i : Nat) (t : token) (j : Nat)
    (h : lex_step stream i = some (some t, j)) :
    t.end_ = t.start + 1 ∧
    t.start = if lexeme_kind t.type = true then j else i := by
  unfold lex_step at h
  by_cases h1 : is_whitespace (char_at stream i) = true
  · rw [if_pos h1] at h
    cases h
  · rw [if_neg h1] at h
    by_cases h2 : (char_at stream i == '{') = true
    · rw [if_pos h2] at h
      cases h
      exact ⟨rfl, rfl⟩
    · rw [if_neg h2] at h
      by_cases h3 : (char_at stream i == '}') = true
      · rw [if_pos h3] at h
        cases h
        exact ⟨rfl, rfl⟩
      · rw [if_neg h3] at h
        by_cases h4 : (char_at stream i == '[') = true
        · rw [if_pos h4] at h
          cases h
          exact ⟨rfl, rfl⟩
        · rw [if_neg h4] at h
          by_cases h5 : (char_at stream i == ']') = true
          · rw [if_pos h5] at h
            cases h
            exact ⟨rfl, rfl⟩
          · rw [if_neg h5] at h
            by_cases h6 : (char_at stream i == ':') = true
            · rw [if_pos h6] at h
              cases h
              exact ⟨rfl, rfl⟩
            · rw [if_neg h6] at h
              by_cases h7 : (char_at stream i == ',') = true
              · rw [if_pos h7] at h
                cases h
                exact ⟨rfl, rfl⟩
              · rw [if_neg h7] at h
                by_cases h8 : is_quote (char_at stream i) = true
                · rw [if_pos h8] at h
                  cases h
                  exact ⟨rfl, rfl⟩
                · rw [if_neg h8] at h
                  by_cases h9 : is_number (char_at stream i) = true
                  · rw [if_pos h9] at h
                    cases hg : gobble_number stream i with
                    | none => rw [hg] at h; cases h
                    | some r =>
                      rw [hg] at h
                      cases h
                      exact gobble_number_span stream i r hg
                  · rw [if_neg h9] at h
                    by_cases h10 : (char_at stream i == 'n') = true
                    · rw [if_pos h10] at h
                      cases h
                      exact ⟨rfl, rfl⟩
                    · rw [if_neg h10] at h
                      cases h

/-- The iteration of `lex` on a punctuation character. -/
theorem lex_step_punct (stream : List Char) (j : Nat) (p : Char)
    (hp : char_at stream j = p) (hmem : p ∈ ['{', '}', '[', ']', ':', ',']) :
    ∃ u, lex_step stream j = some (some u, j + 1) ∧ u.start = j ∧ u.end_ = j + 1 ∧
      lexeme_kind u.type = false := by
  simp only [List.mem_cons, List.mem_singleton, List.not_mem_nil, or_false] at hmem
  rcases hmem with e | e | e | e | e | e <;> subst e
  · exact ⟨make_token token_type.OPEN_BRACE j, by unfold lex_step; rw [hp]; rfl, rfl, rfl, rfl⟩
  · exact ⟨make_token token_type.CLOSE_BRACE j, by unfold lex_step; rw [hp]; rfl, rfl, rfl, rfl⟩
  · exact ⟨make_token token_type.OPEN_BRACKET j, by unfold lex_step; rw [hp]; rfl, rfl, rfl,
      rfl⟩
  · exact ⟨make_token token_type.CLOSE_BRACKET j, by unfold lex_step; rw [hp]; rfl, rfl, rfl,
      rfl⟩
  · exact ⟨make_token token_type.COLON j, by unfold lex_step; rw [hp]; rfl, rfl, rfl, rfl⟩
  · exact ⟨make_token token_type.COMMA j, by unfold lex_step; rw [hp]; rfl, rfl, rfl, rfl⟩

/-- One iteration of the loop of `lex` at an offset inside the string, when
the iteration does not corrupt the heap. -/
theorem lex_at_step_some (stream : List Char) (i : Nat) (hlt : i < strlen stream)
    (r : Option token) (j : Nat) (h : lex_step stream i = some (r, j)) :
    lex_at stream i = (lex_at stream j).map (emit r) := by
  rw [lex_at_step stream i hlt]
  unfold lex_next
  rw [h]

/-- One iteration of the loop of `lex` at an offset inside the string, when
the iteration corrupts the heap. -/
theorem lex_at_step_none (stream : List Char) (i : Nat) (hlt : i < strlen stream)
    (h : lex_step stream i = none) : lex_at stream i = none := by
  rw [lex_at_step stream i hlt]
  unfold lex_next
  rw [h]

/-- C18. Spans as stamped: every token `lex` emits has `end = start + 1`.
The iteration of the loop at offset `i` (inside the string) emits the token of
`lex_step`, if any, and goes on at the cursor `lex_step` leaves (no tokens at
all are emitted when the iteration corrupts the heap); that token has
`start = i`, the offset of its first character, when it is one of the six
punctuation kinds or a NullLiteral, and `start` equal to the cursor behind the
lexeme (behind the closing quote for a string) when it is a StringLiteral, an
IntegerLiteral or a FloatLiteral. So when a punctuation character stands
right behind the lexeme of a string or a number, the two tokens carry the
identical span; the text `"ab":` gives the StringLiteral and the Colon both
the span `[4, 5)`. -/
theorem token_span_stamps (stream : List Char) :
    (∀ ts, lex stream = some ts → ∀ t ∈ ts, t.end_ = t.start + 1) ∧
    (∀ i, i < strlen stream →
      (lex_step stream i = none → lex_at stream i = none) ∧
      (∀ r j, lex_step stream i = some (r, j) →
        lex_at stream i = (lex_at stream j).map (emit r)) ∧
      ∀ t j, lex_step stream i = some (some t, j) →
        t.start = if lexeme_kind t.type = true then j else i) ∧
    (∀ i t j p, i < strlen stream → lex_step stream i = some (some t, j) →
      lexeme_kind t.type = true → j < strlen stream →
      char_at stream j = p → p ∈ ['{', '}', '[', ']', ':', ','] →
      ∃ u, lex_at stream i = (lex_at stream (j + 1)).map (fun rest => t :: u :: rest) ∧
        lexeme_kind u.type = false ∧ u.start = t.start ∧ u.end_ = t.end_) ∧
    lex ['"', 'a', 'b', '"', ':'] = some
      [{ type := token_type.STRING_LITERAL, value := token_value.string ['a', 'b'],
         start := 4, end_ := 5 },
       { type := token_type.COLON, value := token_value.unset, start := 4, end_ := 5 }] := by
  refine ⟨fun ts h => lex_loop_forall (fun t => t.end_ = t.start + 1) stream _
    (fun i t j hs => (lex_step_span stream i t j hs).1) _ 0 ts h, ?_, ?_, by decide⟩
  · intro i hi
    exact ⟨lex_at_step_none stream i hi, lex_at_step_some stream i hi,
      fun t j ht => (lex_step_span stream i t j ht).2⟩
  · intro i t j p hi ht hk hj hp hmem
    obtain ⟨hw, hst⟩ := lex_step_span stream i t j ht
    rw [if_pos hk] at hst
    obtain ⟨u, hu, hus, hue, huk⟩ := lex_step_punct stream j p hp hmem
    refine ⟨u, ?_, huk, ?_, ?_⟩
    · rw [lex_at_step_some stream i hi _ _ ht, lex_at_step_some stream j hj _ _ hu,
        Option.map_map]
      rfl
    · rw [hus, hst]
    · rw [hue, hw, hst]

/-- C18 at the text `12,`: the iteration at offset 0 emits the IntegerLiteral
stamped `[2, 3)`, and the Comma behind the lexeme carries the same span. -/
theorem token_span_stamps_witness :
    ∃ u, lex_at ['1', '2', ','] 0 =
        (lex_at ['1', '2', ','] (2 + 1)).map (fun rest =>
          { type := token_type.INTEGER_LITERAL, value := token_value.number 12,
            start := 2, end_ := 3 } :: u :: rest) ∧
      lexeme_kind u.type = false ∧ u.start = 2 ∧ u.end_ = 3 :=
  (token_span_stamps ['1', '2', ',']).2.2.1 0
    { type := token_type.INTEGER_LITERAL, value := token_value.number 12, start := 2, end_ := 3 }
    2 ',' (by decide) (by decide) rfl (by decide) (by decide) (by decide)
/-! ### Deleting commas -/

/-- Nothing can be deleted from nothing. -/
theorem comma_deleted_nil {a : List token} (h : comma_deleted a []) : a = [] := by
  cases h
  rfl

/-- The first token is kept, or it is a comma and was deleted. -/
theorem comma_deleted_cons {a b : List token} {t : token} (h : comma_deleted a (t :: b)) :
    (∃ a2, a = t :: a2 ∧ comma_deleted a2 b) ∨ (t.type = token_type.COMMA ∧ comma_deleted a b) := by
  cases h with
  | keep _ a2 _ h2 => exact Or.inl ⟨a2, rfl, h2⟩
  | delete _ _ _ hc h2 => exact Or.inr ⟨hc, h2⟩

/-- A first token that is not a comma is kept. -/
theorem comma_deleted_cons_keep {a b : List token} {t : token}
    (h : comma_deleted a (t :: b)) (ht : t.type ≠ token_type.COMMA) :
    ∃ a2, a = t :: a2 ∧ comma_deleted a2 b := by
  rcases comma_deleted_cons h with h2 | ⟨hc, -⟩
  · exact h2
  · exact absurd hc ht

/-- Deleting commas from two sequences in a row is deleting them from each. -/
theorem comma_deleted_append {b1 b2 : List token} : ∀ {a : List token},
    comma_deleted a (b1 ++ b2) →
    ∃ a1 a2, a = a1 ++ a2 ∧ comma_deleted a1 b1 ∧ comma_deleted a2 b2 := by
  induction b1 with
  | nil =>
    intro a h
    exact ⟨[], a, rfl, comma_deleted.nil, h⟩
  | cons t b1 ih =>
    intro a h
    rw [List.cons_append] at h
    rcases comma_deleted_cons h with ⟨a2, rfl, h2⟩ | ⟨hc, h2⟩
    · obtain ⟨x, y, rfl, hx, hy⟩ := ih h2
      exact ⟨t :: x, y, rfl, comma_deleted.keep t x b1 hx, hy⟩
    · obtain ⟨x, y, rfl, hx, hy⟩ := ih h2
      exact ⟨x, y, rfl, comma_deleted.delete t x b1 hc hx, hy⟩

mutual
/-- The canonical tokens of a Document with some of the commas deleted still
render it. -/
theorem renders_deleted : ∀ (d : json) (ts ts2 s : List token), is_document d →
    ts.map erase_span = toks d → comma_deleted ts2 ts → renders d (ts2 ++ s) s
  | json.OBJECT pairs, ts, ts2, s, hd, h, hdel => by
    rw [is_document] at hd
    rw [toks] at h
    obtain ⟨t, tv, tc, rfl, ht, hv, hc⟩ := map_erase_container h
    obtain ⟨a, rfl, ha⟩ := comma_deleted_cons_keep hdel (by rw [(erase_span_eq ht).1]; intro hh; cases hh)
    obtain ⟨a1, a2, rfl, ha1, ha2⟩ := comma_deleted_append ha
    obtain ⟨a3, rfl, ha3⟩ := comma_deleted_cons_keep ha2 (by rw [(erase_span_eq hc).1]; decide)
    have := comma_deleted_nil ha3
    subst this
    rw [renders]
    refine ⟨t, a1 ++ [tc] ++ s, tc :: s, by simp, (erase_span_eq ht).1, ?_,
      ⟨tc :: s, tc, Or.inl rfl, (erase_span_eq hc).1, rfl⟩⟩
    have := renders_deleted_pairs pairs tv a1 (tc :: s) hd.2 hd.1 hv ha1
    simpa using this
  | json.ARRAY values, ts, ts2, s, hd, h, hdel => by
    rw [is_document] at hd
    rw [toks] at h
    obtain ⟨t, tv, tc, rfl, ht, hv, hc⟩ := map_erase_container h
    obtain ⟨a, rfl, ha⟩ := comma_deleted_cons_keep hdel (by rw [(erase_span_eq ht).1]; intro hh; cases hh)
    obtain ⟨a1, a2, rfl, ha1, ha2⟩ := comma_deleted_append ha
    obtain ⟨a3, rfl, ha3⟩ := comma_deleted_cons_keep ha2 (by rw [(erase_span_eq hc).1]; decide)
    have := comma_deleted_nil ha3
    subst this
    rw [renders]
    refine ⟨t, a1 ++ [tc] ++ s, tc :: s, by simp, (erase_span_eq ht).1, ?_,
      ⟨tc :: s, tc, Or.inl rfl, (erase_span_eq hc).1, rfl⟩⟩
    have := renders_deleted_values values tv a1 (tc :: s) hd.2 hd.1 hv ha1
    simpa using this
  | json.STRING v, ts, ts2, s, hd, h, hdel => by
    have hr := renders_toks (json.STRING v) ts s hd h
    rw [toks] at h
    obtain ⟨t, ts1, rfl, ht, h1⟩ := List.map_eq_cons_iff.mp h
    have : ts1 = [] := by simpa using h1
    subst this
    obtain ⟨a, rfl, ha⟩ := comma_deleted_cons_keep hdel (by rw [(erase_span_eq ht).1]; intro hh; cases hh)
    rw [comma_deleted_nil ha]
    exact hr
  | json.INT v, ts, ts2, s, hd, h, hdel => by
    have hr := renders_toks (json.INT v) ts s hd h
    rw [toks] at h
    obtain ⟨t, ts1, rfl, ht, h1⟩ := List.map_eq_cons_iff.mp h
    have : ts1 = [] := by simpa using h1
    subst this
    obtain ⟨a, rfl, ha⟩ := comma_deleted_cons_keep hdel (by rw [(erase_span_eq ht).1]; intro hh; cases hh)
    rw [comma_deleted_nil ha]
    exact hr
  | json.FLOAT v, ts, ts2, s, hd, h, hdel => by
    have hr := renders_toks (json.FLOAT v) ts s hd h
    rw [toks] at h
    obtain ⟨t, ts1, rfl, ht, h1⟩ := List.map_eq_cons_iff.mp h
    have : ts1 = [] := by simpa using h1
    subst this
    obtain ⟨a, rfl, ha⟩ := comma_deleted_cons_keep hdel (by rw [(erase_span_eq ht).1]; intro hh; cases hh)
    rw [comma_deleted_nil ha]
    exact hr
  | json.NULL_, ts, ts2, s, hd, h, hdel => by
    have hr := renders_toks json.NULL_ ts s hd h
    rw [toks] at h
    obtain ⟨t, ts1, rfl, ht, h1⟩ := List.map_eq_cons_iff.mp h
    have : ts1 = [] := by simpa using h1
    subst this
    obtain ⟨a, rfl, ha⟩ := comma_deleted_cons_keep hdel (by rw [(erase_span_eq ht).1]; intro hh; cases hh)
    rw [comma_deleted_nil ha]
    exact hr
/-- The canonical tokens of the pairs of an Object with some of the commas
deleted still render the pairs. -/
theorem renders_deleted_pairs : ∀ (ps : List (List Char × Option json))
    (ts ts2 r : List token), is_document_pairs ps → ps ≠ [] →
    ts.map erase_span = toks_pairs ps → comma_deleted ts2 ts → renders_pairs ps (ts2 ++ r) r
  | [], _, _, _, _, hne, _, _ => (hne rfl).elim
  | (_, none) :: _, _, _, _, hd, _, _, _ => by rw [is_document_pairs] at hd; exact hd.elim
  | (key, some v) :: more, ts, ts2, r, hd, _, h, hdel => by
    rw [is_document_pairs] at hd
    rw [toks_pairs] at h
    obtain ⟨k, ts1, rfl, hk, h1⟩ := List.map_eq_cons_iff.mp h
    obtain ⟨c, ts2b, rfl, hc, h2⟩ := List.map_eq_cons_iff.mp h1
    obtain ⟨tv, ts3, rfl, h3, h4⟩ := List.map_eq_append_iff.mp h2
    obtain ⟨a, rfl, ha⟩ := comma_deleted_cons_keep hdel (by rw [(erase_span_eq hk).1]; intro hh; cases hh)
    obtain ⟨a0, rfl, ha0⟩ := comma_deleted_cons_keep ha (by rw [(erase_span_eq hc).1]; decide)
    obtain ⟨av, a3, rfl, hav, ha3⟩ := comma_deleted_append ha0
    rw [renders_pairs]
    by_cases hm : more = []
    · subst hm
      have : ts3 = [] := by simpa [toks_pairs] using h4
      subst this
      have := comma_deleted_nil ha3
      subst this
      refine ⟨k, c, av ++ r, r, by simp, (erase_span_eq hk).1, (erase_span_eq hk).2,
        (erase_span_eq hc).1, renders_deleted v tv av r hd.1 h3 hav, Or.inl ⟨rfl, rfl⟩⟩
    · have hne : more.isEmpty = false := by
        cases more with
        | nil => exact (hm rfl).elim
        | cons a b => rfl
      rw [hne] at h4
      obtain ⟨tm, ts4, rfl, h5, h6⟩ := List.map_eq_append_iff.mp h4
      obtain ⟨m, tm2, rfl, h7, h8⟩ := List.map_eq_cons_iff.mp (by simpa using h5)
      have : tm2 = [] := by simpa using h8
      subst this
      rcases comma_deleted_cons (by simpa using ha3) with ⟨a4, rfl, ha4⟩ | ⟨-, ha4⟩
      · refine ⟨k, c, av ++ (m :: (a4 ++ r)), m :: (a4 ++ r), by simp,
          (erase_span_eq hk).1, (erase_span_eq hk).2, (erase_span_eq hc).1,
          renders_deleted v tv av _ hd.1 h3 hav,
          Or.inr ⟨hm, a4 ++ r, Or.inr ⟨m, (erase_span_eq h7).1, rfl⟩,
            renders_deleted_pairs more ts4 a4 r hd.2 hm h6 ha4⟩⟩
      · refine ⟨k, c, av ++ (a3 ++ r), a3 ++ r, by simp,
          (erase_span_eq hk).1, (erase_span_eq hk).2, (erase_span_eq hc).1,
          renders_deleted v tv av _ hd.1 h3 hav,
          Or.inr ⟨hm, a3 ++ r, Or.inl rfl,
            renders_deleted_pairs more ts4 a3 r hd.2 hm h6 ha4⟩⟩
/-- The canonical tokens of the values of an Array with some of the commas
deleted still render the values. -/
theorem renders_deleted_values : ∀ (vs : List (Option json)) (ts ts2 r : List token),
    is_document_values vs → vs ≠ [] → ts.map erase_span = toks_values vs →
    comma_deleted ts2 ts → renders_values vs (ts2 ++ r) r
  | [], _, _, _, _, hne, _, _ => (hne rfl).elim
  | none :: _, _, _, _, hd, _, _, _ => by rw [is_document_values] at hd; exact hd.elim
  | some v :: more, ts, ts2, r, hd, _, h, hdel => by
    rw [is_document_values] at hd
    rw [toks_values] at h
    obtain ⟨tv, ts3, rfl, h3, h4⟩ := List.map_eq_append_iff.mp h
    obtain ⟨av, a3, rfl, hav, ha3⟩ := comma_deleted_append hdel
    rw [renders_values]
    by_cases hm : more = []
    · subst hm
      have : ts3 = [] := by simpa [toks_values] using h4
      subst this
      have := comma_deleted_nil ha3
      subst this
      exact ⟨r, by simpa using renders_deleted v tv av r hd.1 h3 hav, Or.inl ⟨rfl, rfl⟩⟩
    · have hne : more.isEmpty = false := by
        cases more with
        | nil => exact (hm rfl).elim
        | cons a b => rfl
      rw [hne] at h4
      obtain ⟨tm, ts4, rfl, h5, h6⟩ := List.map_eq_append_iff.mp h4
      obtain ⟨m, tm2, rfl, h7, h8⟩ := List.map_eq_cons_iff.mp (by simpa using h5)
      have : tm2 = [] := by simpa using h8
      subst this
      rcases comma_deleted_cons (by simpa using ha3) with ⟨a4, rfl, ha4⟩ | ⟨-, ha4⟩
      · refine ⟨m :: (a4 ++ r), by simpa using renders_deleted v tv av _ hd.1 h3 hav,
          Or.inr ⟨hm, a4 ++ r, Or.inr ⟨m, (erase_span_eq h7).1, rfl⟩,
            renders_deleted_values more ts4 a4 r hd.2 hm h6 ha4⟩⟩
      · refine ⟨a3 ++ r, by simpa using renders_deleted v tv av _ hd.1 h3 hav,
          Or.inr ⟨hm, a3 ++ r, Or.inl rfl,
            renders_deleted_values more ts4 a3 r hd.2 hm h6 ha4⟩⟩
end

/-- Deleting commas from two sequences is deleting them from the two in a row. -/
theorem comma_deleted_join {a1 b1 a2 b2 : List token} (h1 : comma_deleted a1 b1)
    (h2 : comma_deleted a2 b2) : comma_deleted (a1 ++ a2) (b1 ++ b2) := by
  induction h1 with
  | nil => exact h2
  | keep t a b _ ih => exact comma_deleted.keep t _ _ ih
  | delete c a b hc _ ih => exact comma_deleted.delete c _ _ hc ih

/-- The canonical tokens of `n` Null values with all commas deleted are `n`
NullLiteral tokens. -/
theorem comma_deleted_nulls : ∀ n : Nat,
    comma_deleted (List.replicate n (punct token_type.NULL_LITERAL))
      (toks_values (List.replicate n (some json.NULL_)))
  | 0 => by rw [List.replicate_zero, List.replicate_zero, toks_values]; exact comma_deleted.nil
  | n + 1 => by
    rw [List.replicate_succ, List.replicate_succ, toks_values, toks]
    refine comma_deleted.keep _ _ _ ?_
    cases n with
    | zero => exact comma_deleted_nulls 0
    | succ m => exact comma_deleted.delete _ _ _ rfl (comma_deleted_nulls (m + 1))

/-- C19 (the code within and beyond the blocks of 100 slots). Separators are
optional for the parser: for every Document `d` (every container non-empty),
any tokens `ts` that are its canonical sequence up to spans, and any `ts2`
obtained from `ts` by deleting some subset of its Comma tokens, between any
prefix `p` and suffix `s`, from cursor `|p|` and for every fuel from some
bound on: when the children of every container of `d` fit the chunk of its
block of 100 slots, `parse_json` on `ts2` returns `d` and leaves the cursor
behind the last token of `ts2`, the closing delimiter of an Array or Object;
when they do not, as in an Array of 110 values, `parse_json` does not return
`d`: it stores a child behind the chunk of the block. For example the tokens
of `[1 2 3]` parse to the same Array as those of `[1,2,3]`. -/
theorem separators_optional (d : json) (hd : is_document d) (p ts ts2 s : List token)
    (hts : ts.map erase_span = toks d) (hdel : comma_deleted ts2 ts) :
    (within_capacity d → ∃ fuel, ∀ fuel2, fuel ≤ fuel2 →
      parse_json (p ++ ts2 ++ s) fuel2 p.length =
        Except.ok (some d, p.length + ts2.length)) ∧
    (¬ within_capacity d → ∃ fuel, ∀ fuel2, fuel ≤ fuel2 →
      parse_json (p ++ ts2 ++ s) fuel2 p.length = Except.error fault.heap_overrun) ∧
    (∃ ts, lex "[1 2 3]".toList = some ts ∧ ∀ k, parse_json ts (6 + k) 0 =
      Except.ok (some (json.ARRAY [some (json.INT 1), some (json.INT 2), some (json.INT 3)]),
        ts.length)) ∧
    (∃ ts, lex "[1,2,3]".toList = some ts ∧ ∀ k, parse_json ts (6 + k) 0 =
      Except.ok (some (json.ARRAY [some (json.INT 1), some (json.INT 2), some (json.INT 3)]),
        ts.length)) := by
  refine ⟨parse_of_renders (renders_deleted d ts ts2 s hd hts hdel),
    overrun_of_renders (renders_deleted d ts ts2 s hd hts hdel), ?_, ?_⟩
  · refine ⟨_, (by decide : lex "[1 2 3]".toList = some
      [make_token token_type.OPEN_BRACKET 0,
       { make_token token_type.INTEGER_LITERAL 2 with value := token_value.number 1 },
       { make_token token_type.INTEGER_LITERAL 4 with value := token_value.number 2 },
       { make_token token_type.INTEGER_LITERAL 6 with value := token_value.number 3 },
       make_token token_type.CLOSE_BRACKET 6]), fun k => ?_⟩
    exact parse_json_add_ok 6 k rfl
  · refine ⟨_, (by decide : lex "[1,2,3]".toList = some
      [make_token token_type.OPEN_BRACKET 0,
       { make_token token_type.INTEGER_LITERAL 2 with value := token_value.number 1 },
       make_token token_type.COMMA 2,
       { make_token token_type.INTEGER_LITERAL 4 with value := token_value.number 2 },
       make_token token_type.COMMA 4,
       { make_token token_type.INTEGER_LITERAL 6 with value := token_value.number 3 },
       make_token token_type.CLOSE_BRACKET 6]), fun k => ?_⟩
    exact parse_json_add_ok 6 k rfl

/-- C19 at the Object `{"a": [1, 2], "b": null}` with the comma between the
pairs deleted and the comma inside the Array kept, and at the failing input,
the 110 NullLiteral tokens of an Array of 110 Null values between `[` and `]`,
all commas deleted. -/
theorem separators_optional_witness :
    (is_document (json.OBJECT [(['a'], some (json.ARRAY [some (json.INT 1), some (json.INT 2)])),
      (['b'], some json.NULL_)]) ∧
    within_capacity (json.OBJECT [(['a'], some (json.ARRAY [some (json.INT 1),
      some (json.INT 2)])), (['b'], some json.NULL_)]) ∧
    ∃ fuel, ∀ fuel2, fuel ≤ fuel2 →
      parse_json ([] ++
          [punct token_type.OPEN_BRACE,
           { punct token_type.STRING_LITERAL with value := token_value.string ['a'] },
           punct token_type.COLON, punct token_type.OPEN_BRACKET,
           { punct token_type.INTEGER_LITERAL with value := token_value.number 1 },
           punct token_type.COMMA,
           { punct token_type.INTEGER_LITERAL with value := token_value.number 2 },
           punct token_type.CLOSE_BRACKET,
           { punct token_type.STRING_LITERAL with value := token_value.string ['b'] },
           punct token_type.COLON, punct token_type.NULL_LITERAL,
           punct token_type.CLOSE_BRACE] ++ []) fuel2 ([] : List token).length =
        Except.ok (some (json.OBJECT [(['a'], some (json.ARRAY [some (json.INT 1),
          some (json.INT 2)])), (['b'], some json.NULL_)]), ([] : List token).length + 12)) ∧
    (is_document (json.ARRAY (List.replicate 110 (some json.NULL_))) ∧
    ¬ within_capacity (json.ARRAY (List.replicate 110 (some json.NULL_))) ∧
    ∃ fuel, ∀ fuel2, fuel ≤ fuel2 →
      parse_json ([] ++ (punct token_type.OPEN_BRACKET ::
          (List.replicate 110 (punct token_type.NULL_LITERAL) ++
            [punct token_type.CLOSE_BRACKET])) ++ []) fuel2 ([] : List token).length =
        Except.error fault.heap_overrun) :=
  have hd : is_document (json.OBJECT [(['a'], some (json.ARRAY [some (json.INT 1),
      some (json.INT 2)])), (['b'], some json.NULL_)]) := by
    simp [is_document, is_document_pairs, is_document_values]
  have hcap : within_capacity (json.OBJECT [(['a'], some (json.ARRAY [some (json.INT 1),
      some (json.INT 2)])), (['b'], some json.NULL_)]) := by
    simp [within_capacity, within_capacity_pairs, within_capacity_values, slots_fit_object,
      slots_fit_array]
  have hd2 : is_document (json.ARRAY (List.replicate 110 (some json.NULL_))) := by
    rw [is_document]
    exact ⟨by simp, is_document_values_replicate json.NULL_ (by rw [is_document]; trivial) 110⟩
  have hcap2 : ¬ within_capacity (json.ARRAY (List.replicate 110 (some json.NULL_))) := by
    rw [within_capacity, slots_fit_array, List.length_replicate]
    intro h
    exact absurd h.1 (by decide)
  have hdel2 : comma_deleted (punct token_type.OPEN_BRACKET ::
      (List.replicate 110 (punct token_type.NULL_LITERAL) ++ [punct token_type.CLOSE_BRACKET]))
      (toks (json.ARRAY (List.replicate 110 (some json.NULL_)))) := by
    rw [toks]
    exact comma_deleted.keep _ _ _ (comma_deleted_join (comma_deleted_nulls 110)
      (comma_deleted.keep _ _ _ comma_deleted.nil))
  ⟨⟨hd, hcap,
    (separators_optional _ hd [] _ _ [] (toks_erased _)
      (comma_deleted.keep _ _ _ (comma_deleted.keep _ _ _ (comma_deleted.keep _ _ _
        (comma_deleted.keep _ _ _ (comma_deleted.keep _ _ _ (comma_deleted.keep _ _ _
          (comma_deleted.keep _ _ _ (comma_deleted.keep _ _ _
            (comma_deleted.delete (punct token_type.COMMA) _ _ rfl
              (comma_deleted.keep _ _ _ (comma_deleted.keep _ _ _ (comma_deleted.keep _ _ _
                (comma_deleted.keep _ _ _ comma_deleted.nil)))))))))))))).1 hcap⟩,
   ⟨hd2, hcap2, (separators_optional _ hd2 [] _ _ [] (toks_erased _) hdel2).2.1 hcap2⟩⟩
/-! ### Indentation as a shift -/

/-- Inserting after newlines goes through concatenation. -/
theorem insert_append (k : Nat) (a b : List Char) :
    insert_after_newlines k (a ++ b) = insert_after_newlines k a ++ insert_after_newlines k b := by
  induction a with
  | nil => rfl
  | cons c a ih =>
    rw [List.cons_append, insert_after_newlines, insert_after_newlines, ih]
    by_cases hc : c = '\n'
    · rw [if_pos hc, if_pos hc, List.cons_append, List.append_assoc]
    · rw [if_neg hc, if_neg hc, List.cons_append]

/-- A text without newline is left as it is. -/
theorem insert_id (k : Nat) (a : List Char) (h : '\n' ∉ a) : insert_after_newlines k a = a := by
  induction a with
  | nil => rfl
  | cons c a ih =>
    rw [insert_after_newlines, if_neg (fun hc => h (by rw [hc]; exact List.mem_cons_self _ _)),
      ih (fun hm => h (List.mem_cons_of_mem _ hm))]

/-- The padding has no newline. -/
theorem pad_no_newline (m : Int) : '\n' ∉ pad m := by
  intro h
  exact absurd (List.eq_of_mem_replicate h) (by decide)

/-- The padding of a wider indentation starts with the extra spaces. -/
theorem pad_add (m : Int) (k : Nat) (hm : 0 ≤ m) :
    pad (m + (k : Int)) = List.replicate k ' ' ++ pad m := by
  unfold pad
  have : (m + (k : Int)).natAbs = k + m.natAbs := by omega
  rw [this, List.replicate_add]

/-- The text of `printf("%d")` has no newline. -/
theorem fmt_d_no_newline (v : Int) : '\n' ∉ fmt_d v := by
  intro h
  exact absurd ((fmt_d_chars v).1 _ h).1 (by decide)

/-- The text of `printf("%f")` has no newline. -/
theorem fmt_f_no_newline (d : double) : '\n' ∉ fmt_f d := by
  have hu : ∀ n, '\n' ∉ fmt_u n := fun n h => absurd ((fmt_u_spec n).1 _ h) (by decide)
  have hs : '\n' ∉ (if d.neg = true then ['-'] else ([] : List Char)) := by
    by_cases hn : d.neg = true
    · rw [if_pos hn]; decide
    · rw [if_neg hn]; exact List.not_mem_nil _
  unfold fmt_f
  by_cases hi : d.inf = true
  · simp only [hi, if_true]
    intro h
    rcases List.mem_append.mp h with h | h
    · exact hs h
    · exact absurd h (by decide)
  · simp only [hi]
    intro h
    rcases List.mem_append.mp h with h | h
    · rcases List.mem_append.mp h with h | h
      · exact hs h
      · exact hu _ h
    · rcases List.mem_cons.mp h with h | h
      · exact absurd h (by decide)
      · rcases List.mem_append.mp h with h | h
        · exact absurd (List.eq_of_mem_replicate h) (by decide)
        · exact hu _ h

/-- A block that holds a NUL is read as a C string. -/
theorem c_string_of_mem (block : List Char) (h : '\x00' ∈ block) :
    ∃ text, c_string block = some text := by
  rw [c_string, if_pos h]
  exact ⟨_, rfl⟩

/-- The C string read from a block without newline has no newline. -/
theorem c_string_no_newline (block text : List Char) (h : c_string block = some text)
    (hn : '\n' ∉ block) : '\n' ∉ text := by
  rw [c_string] at h
  by_cases hz : '\x00' ∈ block
  · rw [if_pos hz] at h
    cases h
    exact fun hm => hn ((List.takeWhile_prefix _).subset hm)
  · rw [if_neg hz] at h
    cases h

mutual
/-- A Document whose strings are C strings is printed: no `NULL` child is met
and every `%s` conversion finds its NUL. -/
theorem print_total : ∀ (d : json) (m w : Int), is_document d → c_strings d →
    ∃ text, pretty_print_json d m w = some text
  | json.OBJECT pairs, m, w, hd, hs => by
    rw [is_document] at hd
    rw [c_strings] at hs
    obtain ⟨body, hb⟩ := print_total_pairs pairs m w hd.2 hs
    exact ⟨_, by rw [pretty_print_json, hb]⟩
  | json.ARRAY values, m, w, hd, hs => by
    rw [is_document] at hd
    rw [c_strings] at hs
    obtain ⟨body, hb⟩ := print_total_values values m w hd.2 hs
    exact ⟨_, by rw [pretty_print_json, hb]⟩
  | json.STRING v, _, _, _, hs => by
    rw [c_strings] at hs
    obtain ⟨text, ht⟩ := c_string_of_mem v hs
    exact ⟨_, by rw [pretty_print_json, ht]⟩
  | json.INT v, _, _, _, _ => ⟨_, by rw [pretty_print_json]⟩
  | json.FLOAT v, _, _, _, _ => ⟨_, by rw [pretty_print_json]⟩
  | json.NULL_, _, _, _, _ => ⟨_, by rw [pretty_print_json]⟩
/-- The pairs of a Document are printed. -/
theorem print_total_pairs : ∀ (ps : List (List Char × Option json)) (m w : Int),
    is_document_pairs ps → c_strings_pairs ps → ∃ body, print_pairs ps m w = some body
  | [], _, _, _, _ => ⟨[], by rw [print_pairs]⟩
  | (_, none) :: _, _, _, hd, _ => by rw [is_document_pairs] at hd; exact hd.elim
  | (key, some v) :: rest, m, w, hd, hs => by
    rw [is_document_pairs] at hd
    rw [c_strings_pairs] at hs
    obtain ⟨name, hk⟩ := c_string_of_mem key hs.1
    obtain ⟨text, ht⟩ := print_total v (m + w) w hd.1 hs.2.1
    obtain ⟨more, hm⟩ := print_total_pairs rest m w hd.2 hs.2.2
    exact ⟨_, by rw [print_pairs, hk, ht, hm]⟩
/-- The values of a Document are printed. -/
theorem print_total_values : ∀ (vs : List (Option json)) (m w : Int),
    is_document_values vs → c_strings_values vs → ∃ body, print_values vs m w = some body
  | [], _, _, _, _ => ⟨[], by rw [print_values]⟩
  | none :: _, _, _, hd, _ => by rw [is_document_values] at hd; exact hd.elim
  | some v :: rest, m, w, hd, hs => by
    rw [is_document_values] at hd
    rw [c_strings_values] at hs
    obtain ⟨text, ht⟩ := print_total v (m + w) w hd.1 hs.1
    obtain ⟨more, hm⟩ := print_total_values rest m w hd.2 hs.2
    exact ⟨_, by rw [print_values, ht, hm]⟩
end

/-- The optional comma behind a child has no newline. -/
theorem comma_no_newline (b : Bool) : '\n' ∉ (if b = true then ([] : List Char) else [',']) := by
  cases b <;> decide

mutual
/-- Printing `k` columns further to the right inserts `k` spaces after every
newline of the text. -/
theorem print_shift : ∀ (d : json) (m w : Int) (k : Nat), 0 ≤ m → 0 ≤ w → no_newline d →
    pretty_print_json d (m + (k : Int)) w =
      (pretty_print_json d m w).map (insert_after_newlines k)
  | json.OBJECT pairs, m, w, k, hm, hw, hn => by
    rw [no_newline] at hn
    have ih := print_shift_pairs pairs m w k hm hw hn
    rw [pretty_print_json, pretty_print_json]
    cases h1 : print_pairs pairs m w with
    | none =>
      cases h2 : print_pairs pairs (m + (k : Int)) w with
      | none => rfl
      | some b2 => rw [h1, h2] at ih; exact Option.noConfusion ih
    | some b =>
      cases h2 : print_pairs pairs (m + (k : Int)) w with
      | none => rw [h1, h2] at ih; exact Option.noConfusion ih
      | some b2 =>
        rw [h1, h2] at ih
        have e : b2 ++ List.replicate k ' ' = List.replicate k ' ' ++ insert_after_newlines k b :=
          Option.some.inj ih
        simp only [Option.map_some']
        congr 1
        rw [insert_append, insert_append, insert_append, insert_id k _ (pad_no_newline m),
          insert_id k ['}'] (by decide), pad_add m k hm]
        simp only [insert_after_newlines]
        simp only [List.append_assoc, List.cons_append, List.nil_append]
        rw [← List.append_assoc b2, e]
        simp
  | json.ARRAY values, m, w, k, hm, hw, hn => by
    rw [no_newline] at hn
    have ih := print_shift_values values m w k hm hw hn
    rw [pretty_print_json, pretty_print_json]
    cases h1 : print_values values m w with
    | none =>
      cases h2 : print_values values (m + (k : Int)) w with
      | none => rfl
      | some b2 => rw [h1, h2] at ih; exact Option.noConfusion ih
    | some b =>
      cases h2 : print_values values (m + (k : Int)) w with
      | none => rw [h1, h2] at ih; exact Option.noConfusion ih
      | some b2 =>
        rw [h1, h2] at ih
        have e : b2 ++ List.replicate k ' ' = List.replicate k ' ' ++ insert_after_newlines k b :=
          Option.some.inj ih
        simp only [Option.map_some']
        congr 1
        rw [insert_append, insert_append, insert_append, insert_id k _ (pad_no_newline m),
          insert_id k [']'] (by decide), pad_add m k hm]
        simp only [insert_after_newlines]
        simp only [List.append_assoc, List.cons_append, List.nil_append]
        rw [← List.append_assoc b2, e]
        simp
  | json.STRING v, m, w, k, _, _, hn => by
    rw [no_newline] at hn
    rw [pretty_print_json, pretty_print_json]
    cases hc : c_string v with
    | none => rfl
    | some text =>
      simp only [Option.map_some']
      rw [insert_id]
      intro h
      rcases List.mem_append.mp h with h | h
      · rcases List.mem_append.mp h with h | h
        · exact absurd h (by decide)
        · exact c_string_no_newline v text hc hn h
      · exact absurd h (by decide)
  | json.INT v, m, w, k, _, _, _ => by
    rw [pretty_print_json, pretty_print_json, Option.map_some', insert_id k _ (fmt_d_no_newline v)]
  | json.FLOAT v, m, w, k, _, _, _ => by
    rw [pretty_print_json, pretty_print_json, Option.map_some', insert_id k _ (fmt_f_no_newline v)]
  | json.NULL_, m, w, k, _, _, _ => by
    rw [pretty_print_json, pretty_print_json, Option.map_some', insert_id k _ (by decide)]
/-- The lines of the pairs printed `k` columns further to the right, followed
by `k` spaces, are `k` spaces followed by the lines with `k` spaces inserted
after every newline. -/
theorem print_shift_pairs : ∀ (ps : List (List Char × Option json)) (m w : Int) (k : Nat),
    0 ≤ m → 0 ≤ w → no_newline_pairs ps →
    (print_pairs ps (m + (k : Int)) w).map (fun b => b ++ List.replicate k ' ') =
      (print_pairs ps m w).map (fun b => List.replicate k ' ' ++ insert_after_newlines k b)
  | [], m, w, k, _, _, _ => by
    rw [print_pairs, print_pairs]
    simp [insert_after_newlines]
  | (key, none) :: rest, m, w, k, _, _, _ => by
    rw [print_pairs, print_pairs]
    rfl
  | (key, some v) :: rest, m, w, k, hm, hw, hn => by
    rw [no_newline_pairs] at hn
    have ihv := print_shift v (m + w) w k (by omega) hw hn.2.1
    have ihr := print_shift_pairs rest m w k hm hw hn.2.2
    have hsw : m + (k : Int) + w = m + w + (k : Int) := by ring
    rw [print_pairs, print_pairs, hsw, ihv]
    cases hc : c_string key with
    | none => rfl
    | some name =>
    simp only
    cases h0 : pretty_print_json v (m + w) w with
    | none => rfl
    | some text =>
      simp only [Option.map_some']
      cases h1 : print_pairs rest m w with
      | none =>
        cases h2 : print_pairs rest (m + (k : Int)) w with
        | none => rfl
        | some b2 => rw [h1, h2] at ihr; exact Option.noConfusion ihr
      | some b =>
        cases h2 : print_pairs rest (m + (k : Int)) w with
        | none => rw [h1, h2] at ihr; exact Option.noConfusion ihr
        | some b2 =>
          rw [h1, h2] at ihr
          have e : b2 ++ List.replicate k ' ' =
              List.replicate k ' ' ++ insert_after_newlines k b := Option.some.inj ihr
          simp only [Option.map_some']
          congr 1
          have hline : pad m ++ [' ', ' ', '"'] ++ name ++ ['"', ':', ' '] ++ text
              ++ (if rest.isEmpty = true then [] else [',']) ++ ['\n'] ++ b =
              pad m ++ (([' ', ' ', '"'] ++ name ++ ['"', ':', ' ']) ++ (text
              ++ ((if rest.isEmpty = true then [] else [',']) ++ ('\n' :: b)))) := by
            simp only [List.append_assoc, List.cons_append, List.nil_append]
          rw [hline]
          simp only [insert_append]
          rw [insert_id k _ (pad_no_newline m), insert_id k [' ', ' ', '"'] (by decide),
            insert_id k name (c_string_no_newline key name hc hn.1),
            insert_id k ['"', ':', ' '] (by decide),
            insert_id k _ (comma_no_newline _), pad_add m k hm]
          rw [insert_after_newlines, if_pos rfl, ← e]
          simp only [List.append_assoc, List.cons_append, List.nil_append]
/-- The lines of the values printed `k` columns further to the right, followed
by `k` spaces, are `k` spaces followed by the lines with `k` spaces inserted
after every newline. -/
theorem print_shift_values : ∀ (vs : List (Option json)) (m w : Int) (k : Nat),
    0 ≤ m → 0 ≤ w → no_newline_values vs →
    (print_values vs (m + (k : Int)) w).map (fun b => b ++ List.replicate k ' ') =
      (print_values vs m w).map (fun b => List.replicate k ' ' ++ insert_after_newlines k b)
  | [], m, w, k, _, _, _ => by
    rw [print_values, print_values]
    simp [insert_after_newlines]
  | none :: rest, m, w, k, _, _, _ => by
    rw [print_values, print_values]
    rfl
  | some v :: rest, m, w, k, hm, hw, hn => by
    rw [no_newline_values] at hn
    have ihv := print_shift v (m + w) w k (by omega) hw hn.1
    have ihr := print_shift_values rest m w k hm hw hn.2
    have hsw : m + (k : Int) + w = m + w + (k : Int) := by ring
    have hpad : pad (m + (k : Int) + 2) = List.replicate k ' ' ++ pad (m + 2) := by
      have : m + (k : Int) + 2 = m + 2 + (k : Int) := by ring
      rw [this, pad_add (m + 2) k (by omega)]
    rw [print_values, print_values, hsw, ihv]
    cases h0 : pretty_print_json v (m + w) w with
    | none => rfl
    | some text =>
      simp only [Option.map_some']
      cases h1 : print_values rest m w with
      | none =>
        cases h2 : print_values rest (m + (k : Int)) w with
        | none => rfl
        | some b2 => rw [h1, h2] at ihr; exact Option.noConfusion ihr
      | some b =>
        cases h2 : print_values rest (m + (k : Int)) w with
        | none => rw [h1, h2] at ihr; exact Option.noConfusion ihr
        | some b2 =>
          rw [h1, h2] at ihr
          have e : b2 ++ List.replicate k ' ' =
              List.replicate k ' ' ++ insert_after_newlines k b := Option.some.inj ihr
          simp only [Option.map_some']
          congr 1
          have hline : pad (m + 2) ++ text
              ++ (if rest.isEmpty = true then [] else [',']) ++ ['\n'] ++ b =
              pad (m + 2) ++ (text
              ++ ((if rest.isEmpty = true then [] else [',']) ++ ('\n' :: b))) := by
            simp only [List.append_assoc, List.cons_append, List.nil_append]
          rw [hline]
          simp only [insert_append]
          rw [insert_id k _ (pad_no_newline (m + 2)),
            insert_id k _ (comma_no_newline _), hpad]
          rw [insert_after_newlines, if_pos rfl, ← e]
          simp only [List.append_assoc, List.cons_append, List.nil_append]
end

/-- C20. Indentation is a pure shift: for every Document `d` whose string
values and keys contain no newline character, and all naturals `n`, `k`, `w`,
what `pretty_print_json(d, n + k, w)` does is what `pretty_print_json(d, n, w)`
does with `k` space characters inserted immediately after every newline
character of the text; and when the keys and string values of `d` are C
strings, blocks that hold their NUL, `pretty_print_json(d, n, w)` writes a
text, and the text written by `pretty_print_json(d, n + k, w)` is that text
with `k` space characters inserted immediately after every newline
character. -/
theorem indentation_is_a_shift (d : json) (n k w : Nat) (hd : is_document d)
    (hn : no_newline d) :
    pretty_print_json d ((n : Int) + (k : Int)) (w : Int) =
      (pretty_print_json d (n : Int) (w : Int)).map (insert_after_newlines k) ∧
    (c_strings d → ∃ text, pretty_print_json d (n : Int) (w : Int) = some text ∧
      pretty_print_json d ((n : Int) + (k : Int)) (w : Int) =
        some (insert_after_newlines k text)) := by
  have hshift := print_shift d (n : Int) (w : Int) k (Int.natCast_nonneg n)
    (Int.natCast_nonneg w) hn
  refine ⟨hshift, fun hs => ?_⟩
  obtain ⟨text, ht⟩ := print_total d (n : Int) (w : Int) hd hs
  refine ⟨text, ht, ?_⟩
  rw [hshift, ht]
  rfl

/-- C20 at the Object `{"k": [1, "s"]}` with `n = 1`, `k = 3`, `w = 2`. -/
theorem indentation_is_a_shift_witness :
    is_document (json.OBJECT [(['k', '\x00'], some (json.ARRAY [some (json.INT 1),
      some (json.STRING ['s', '\x00'])]))]) ∧
    no_newline (json.OBJECT [(['k', '\x00'], some (json.ARRAY [some (json.INT 1),
      some (json.STRING ['s', '\x00'])]))]) ∧
    c_strings (json.OBJECT [(['k', '\x00'], some (json.ARRAY [some (json.INT 1),
      some (json.STRING ['s', '\x00'])]))]) ∧
    ∃ text, pretty_print_json (json.OBJECT [(['k', '\x00'], some (json.ARRAY [some (json.INT 1),
        some (json.STRING ['s', '\x00'])]))]) ((1 : Nat) : Int) ((2 : Nat) : Int) = some text ∧
      pretty_print_json (json.OBJECT [(['k', '\x00'], some (json.ARRAY [some (json.INT 1),
        some (json.STRING ['s', '\x00'])]))]) (((1 : Nat) : Int) + ((3 : Nat) : Int))
          ((2 : Nat) : Int) = some (insert_after_newlines 3 text) :=
  have hd : is_document (json.OBJECT [(['k', '\x00'], some (json.ARRAY [some (json.INT 1),
      some (json.STRING ['s', '\x00'])]))]) := by
    simp [is_document, is_document_pairs, is_document_values]
  have hn : no_newline (json.OBJECT [(['k', '\x00'], some (json.ARRAY [some (json.INT 1),
      some (json.STRING ['s', '\x00'])]))]) := by
    simp [no_newline, no_newline_pairs, no_newline_values]
  have hs : c_strings (json.OBJECT [(['k', '\x00'], some (json.ARRAY [some (json.INT 1),
      some (json.STRING ['s', '\x00'])]))]) := by
    simp [c_strings, c_strings_pairs, c_strings_values]
  ⟨hd, hn, hs, (indentation_is_a_shift _ 1 3 2 hd hn).2 hs⟩

/-! ### Lexing the pieces the printer writes -/

/-- Moving a span and then forgetting it is forgetting it. -/
theorem erase_span_shift (n : Nat) (t : token) : erase_span (shift n t) = erase_span t := rfl

/-- Lexing a first lexeme, spans forgotten. -/
theorem lex_erased_first_lexeme (pre x : List Char) (hpre : nul_free pre) (hne : pre ≠ [])
    (t : Option token) (h : lex_step (pre ++ x) 0 = some (t, pre.length)) :
    lex_erased (pre ++ x) = (lex_erased x).map (emit (t.map erase_span)) := by
  unfold lex_erased
  rw [lex_first_lexeme pre x hpre hne t h]
  cases lex x with
  | none => rfl
  | some ts =>
    have hmm : (ts.map (shift pre.length)).map erase_span = ts.map erase_span := by
      rw [List.map_map]
      apply List.map_congr_left
      intro t _
      rfl
    cases t with
    | none => simpa [emit] using hmm
    | some t => simp only [emit, List.map_cons, Option.map_some', hmm]

/-- The iteration of `lex` on a whitespace character. -/
theorem lex_step_ws (stream : List Char) (i : Nat)
    (h : is_whitespace (char_at stream i) = true) : lex_step stream i = some (none, i + 1) := by
  unfold lex_step
  rw [if_pos h]

/-- A whitespace character in front lexes to nothing. -/
theorem lex_erased_ws (c : Char) (x : List Char) (h : is_whitespace c = true) :
    lex_erased (c :: x) = lex_erased x := by
  have hn : nul_free [c] := by
    intro d hd
    rw [List.mem_singleton.mp hd]
    intro e; subst e; exact absurd h (by decide)
  have := lex_erased_first_lexeme [c] x hn (by simp) none (lex_step_ws _ 0 h)
  rw [List.singleton_append] at this
  rw [this]
  cases lex_erased x <;> rfl

/-- The padding `printf("%*s")` writes lexes to nothing. -/
theorem lex_erased_pad (n : Int) (x : List Char) : lex_erased (pad n ++ x) = lex_erased x := by
  unfold pad
  induction n.natAbs with
  | zero => rfl
  | succ k ih =>
    rw [List.replicate_succ, List.cons_append, lex_erased_ws ' ' _ rfl]
    exact ih

/-- One punctuation character in front lexes to its token. -/
theorem lex_erased_punct (c : Char) (type : token_type) (x : List Char)
    (hc : c ≠ '\x00')
    (h : ∀ stream : List Char, char_at stream 0 = c →
      lex_step stream 0 = some (some (make_token type 0), 1)) :
    lex_erased (c :: x) = (lex_erased x).map (List.cons (punct type)) := by
  have hn : nul_free [c] := by
    intro d hd
    rw [List.mem_singleton.mp hd]; exact hc
  have := lex_erased_first_lexeme [c] x hn (by simp) _ (h ([c] ++ x) rfl)
  rw [List.singleton_append] at this
  rw [this]
  cases lex_erased x <;> rfl

/-- `{` lexes to an OpenBrace. -/
theorem lex_erased_open_brace (x : List Char) :
    lex_erased ('{' :: x) = (lex_erased x).map (List.cons (punct token_type.OPEN_BRACE)) :=
  lex_erased_punct '{' _ x (by decide) (fun stream h => by unfold lex_step; rw [h]; rfl)

/-- `}` lexes to a CloseBrace. -/
theorem lex_erased_close_brace (x : List Char) :
    lex_erased ('}' :: x) = (lex_erased x).map (List.cons (punct token_type.CLOSE_BRACE)) :=
  lex_erased_punct '}' _ x (by decide) (fun stream h => by unfold lex_step; rw [h]; rfl)

/-- `[` lexes to an OpenBracket. -/
theorem lex_erased_open_bracket (x : List Char) :
    lex_erased ('[' :: x) = (lex_erased x).map (List.cons (punct token_type.OPEN_BRACKET)) :=
  lex_erased_punct '[' _ x (by decide) (fun stream h => by unfold lex_step; rw [h]; rfl)

/-- `]` lexes to a CloseBracket. -/
theorem lex_erased_close_bracket (x : List Char) :
    lex_erased (']' :: x) = (lex_erased x).map (List.cons (punct token_type.CLOSE_BRACKET)) :=
  lex_erased_punct ']' _ x (by decide) (fun stream h => by unfold lex_step; rw [h]; rfl)

/-- `:` lexes to a Colon. -/
theorem lex_erased_colon (x : List Char) :
    lex_erased (':' :: x) = (lex_erased x).map (List.cons (punct token_type.COLON)) :=
  lex_erased_punct ':' _ x (by decide) (fun stream h => by unfold lex_step; rw [h]; rfl)

/-- `,` lexes to a Comma. -/
theorem lex_erased_comma (x : List Char) :
    lex_erased (',' :: x) = (lex_erased x).map (List.cons (punct token_type.COMMA)) :=
  lex_erased_punct ',' _ x (by decide) (fun stream h => by unfold lex_step; rw [h]; rfl)

/-- `null` lexes to a NullLiteral. -/
theorem lex_erased_null (x : List Char) :
    lex_erased ('n' :: 'u' :: 'l' :: 'l' :: x) =
      (lex_erased x).map (List.cons (punct token_type.NULL_LITERAL)) := by
  have hn : nul_free ['n', 'u', 'l', 'l'] := by unfold nul_free; decide
  have hs : lex_step (['n', 'u', 'l', 'l'] ++ x) 0 =
      some (some (make_token token_type.NULL_LITERAL 0), ['n', 'u', 'l', 'l'].length) := by
    unfold lex_step
    rw [show char_at (['n', 'u', 'l', 'l'] ++ x) 0 = 'n' from rfl]
    rfl
  have := lex_erased_first_lexeme _ x hn (by simp) _ hs
  rw [show ['n', 'u', 'l', 'l'] ++ x = 'n' :: 'u' :: 'l' :: 'l' :: x from rfl] at this
  rw [this]
  cases lex_erased x <;> rfl

/-- The text of a block has no NUL. -/
theorem text_of_nul_free (block : List Char) : nul_free (text_of block) := by
  intro c hc
  have := List.mem_takeWhile_imp hc
  simpa using this

/-- The C string of a block that holds a NUL is its text. -/
theorem c_string_text_of (block : List Char) (h : '\x00' ∈ block) :
    c_string block = some (text_of block) := by
  rw [c_string, if_pos h]
  rfl

/-- The text of a block is a block without terminator. -/
theorem c_string_of_text (block : List Char) : c_string (text_of block) = none :=
  c_string_nul_free _ (text_of_nul_free block)

/-- A quoted text without `"` and NUL lexes to its StringLiteral, the payload
of which is the text without terminator. -/
theorem lex_erased_quoted (s x : List Char) (hq : '"' ∉ s) (hn : nul_free s) :
    lex_erased ('"' :: (s ++ '"' :: x)) =
      (lex_erased x).map (List.cons
        { punct token_type.STRING_LITERAL with value := token_value.string s }) := by
  unfold lex_erased
  rw [lex_quoted s x hq hn]
  cases lex x with
  | none => rfl
  | some ts =>
    simp only [Option.map_some', List.map_cons, List.map_map]
    congr 1

/-- The digits written for `n < 10 ^ k` are at most `k`. -/
theorem fmt_digits_length : ∀ (fuel n : Nat) (acc : List Char) (k : Nat), 0 < k → n < 10 ^ k →
    (fmt_digits fuel n acc).length ≤ acc.length + k := by
  intro fuel
  induction fuel with
  | zero => intro n acc k _ _; rw [fmt_digits]; omega
  | succ f ih =>
    intro n acc k hk hn
    rw [fmt_digits]
    by_cases h10 : n < 10
    · rw [if_pos h10, List.length_cons]; omega
    · rw [if_neg h10]
      obtain ⟨j, rfl⟩ : ∃ j, k = j + 1 := ⟨k - 1, by omega⟩
      have hj : 0 < j := by
        rcases Nat.eq_zero_or_pos j with h0 | h0
        · subst h0; simp at hn; omega
        · exact h0
      have hdiv : n / 10 < 10 ^ j := by
        rw [pow_succ] at hn
        exact Nat.div_lt_of_lt_mul (by rw [Nat.mul_comm]; exact hn)
      have := ih (n / 10) (digit_char (n % 10) :: acc) j hj hdiv
      rw [List.length_cons] at this
      omega

/-- The text of a 32-bit integer has at most 11 characters. -/
theorem fmt_d_length (v : Int) (hlo : -(2 : Int) ^ 31 ≤ v) (hhi : v < (2 : Int) ^ 31) :
    (fmt_d v).length ≤ 11 := by
  have hu : (fmt_u v.natAbs).length ≤ 10 := by
    have := fmt_digits_length (v.natAbs + 1) v.natAbs [] 10 (by decide) (by norm_num; omega)
    simpa [fmt_u] using this
  unfold fmt_d
  split_ifs
  · rw [List.length_cons]; omega
  · omega

/-- The NUL behind a lexeme of less than 24 characters stays inside the chunk
of its buffer. -/
theorem store_fits_short (n : Nat) (h : n < 24) : store_fits n n 1 = true := by
  unfold store_fits malloc_usable_size
  rw [decide_eq_true_iff]
  have := Nat.le_max_left 32 ((n + 8 + 15) / 16 * 16)
  omega

/-- The text of a 32-bit integer, followed by a boundary, lexes to its
IntegerLiteral. -/
theorem lex_erased_int (v : Int) (x : List Char) (hlo : -(2 : Int) ^ 31 ≤ v)
    (hhi : v < (2 : Int) ^ 31) (hx : boundary x) :
    lex_erased (fmt_d v ++ x) =
      (lex_erased x).map (List.cons
        { punct token_type.INTEGER_LITERAL with value := token_value.number v }) := by
  obtain ⟨hch, hne⟩ := fmt_d_chars v
  have hn : nul_free (fmt_d v) := fun c hc => (hch c hc).2
  have hfirst : is_number (char_at (fmt_d v ++ x) 0) = true := by
    cases hd : fmt_d v with
    | nil => exact absurd hd hne
    | cons c r => exact (hch c (by rw [hd]; exact List.mem_cons_self _ _)).1
  have hfit : store_fits (fmt_d v).length (fmt_d v).length 1 = true :=
    store_fits_short _ (by have := fmt_d_length v hlo hhi; omega)
  have hs : lex_step (fmt_d v ++ x) 0 =
      some (some { type := token_type.INTEGER_LITERAL, value := token_value.number v,
                   start := (fmt_d v).length, end_ := (fmt_d v).length + 1 },
        (fmt_d v).length) := by
    rw [lex_step_number _ 0 hfirst,
      gobble_number_run (fmt_d v) x hch (fun c r e => (hx c r e).1)
        (fun r e => (hx '.' r e).2 rfl),
      if_pos hfit, atoi_fmt_d v hlo hhi]
    rfl
  have := lex_erased_first_lexeme _ x hn hne _ hs
  rw [this]
  cases lex_erased x <;> rfl

/-! ### Round trip -/

/-- A newline is a boundary. -/
theorem boundary_newline (r : List Char) : boundary ('\n' :: r) := by
  intro c r2 h
  have hc : c = '\n' := by injection h with h1 _; exact h1.symm
  subst hc
  exact ⟨rfl, by decide⟩

/-- A comma is a boundary. -/
theorem boundary_comma (r : List Char) : boundary (',' :: r) := by
  intro c r2 h
  have hc : c = ',' := by injection h with h1 _; exact h1.symm
  subst hc
  exact ⟨rfl, by decide⟩

/-- The end of the text is a boundary. -/
theorem boundary_nil : boundary [] := by
  intro c r h
  cases h

mutual
/-- The printer writes a printable Document, and what it writes lexes to the
canonical tokens of the Document with its blocks cut: the payloads hold the
texts and no terminator. -/
theorem lex_print : ∀ (d : json) (n w : Int), printable d →
    ∃ text, pretty_print_json d n w = some text ∧
      ∀ x, boundary x →
        lex_erased (text ++ x) = (lex_erased x).map (fun r => toks (unterminated d) ++ r)
  | json.OBJECT pairs, n, w, h => by
    rw [printable] at h
    obtain ⟨body, hb, hl⟩ := lex_print_pairs pairs n w h.2
    refine ⟨['{', '\n'] ++ body ++ pad n ++ ['}'], ?_, ?_⟩
    · rw [pretty_print_json, hb]
    · intro x _
      simp only [List.append_assoc, List.cons_append, List.nil_append]
      rw [lex_erased_open_brace, lex_erased_ws '\n' _ rfl, hl, lex_erased_pad,
        lex_erased_close_brace, unterminated, toks]
      cases lex_erased x with
      | none => rfl
      | some r => simp
  | json.ARRAY values, n, w, h => by
    rw [printable] at h
    obtain ⟨body, hb, hl⟩ := lex_print_values values n w h.2
    refine ⟨['[', '\n'] ++ body ++ pad n ++ [']'], ?_, ?_⟩
    · rw [pretty_print_json, hb]
    · intro x _
      simp only [List.append_assoc, List.cons_append, List.nil_append]
      rw [lex_erased_open_bracket, lex_erased_ws '\n' _ rfl, hl, lex_erased_pad,
        lex_erased_close_bracket, unterminated, toks]
      cases lex_erased x with
      | none => rfl
      | some r => simp
  | json.STRING s, n, w, h => by
    rw [printable, plain] at h
    refine ⟨['"'] ++ text_of s ++ ['"'], by rw [pretty_print_json, c_string_text_of s h.1], ?_⟩
    intro x _
    simp only [List.append_assoc, List.cons_append, List.nil_append]
    rw [lex_erased_quoted (text_of s) x h.2 (text_of_nul_free s), unterminated, toks]
    rfl
  | json.INT v, n, w, h => by
    rw [printable] at h
    refine ⟨fmt_d v, by rw [pretty_print_json], ?_⟩
    intro x hx
    rw [lex_erased_int v x h.1 h.2 hx, unterminated, toks]
    rfl
  | json.FLOAT _, _, _, h => by
    rw [printable] at h
    exact h.elim
  | json.NULL_, n, w, _ => by
    refine ⟨['n', 'u', 'l', 'l'], by rw [pretty_print_json], ?_⟩
    intro x _
    simp only [List.cons_append, List.nil_append]
    rw [lex_erased_null, unterminated, toks]
    rfl
/-- The lines the printer writes for the pairs of an Object lex to the
canonical tokens of the pairs with their blocks cut. -/
theorem lex_print_pairs : ∀ (ps : List (List Char × Option json)) (n w : Int),
    printable_pairs ps →
    ∃ body, print_pairs ps n w = some body ∧
      ∀ x, lex_erased (body ++ x) =
        (lex_erased x).map (fun r => toks_pairs (unterminated_pairs ps) ++ r)
  | [], n, w, _ => ⟨[], by rw [print_pairs], fun x => by
      rw [unterminated_pairs, toks_pairs, List.nil_append]
      cases lex_erased x <;> rfl⟩
  | (_, none) :: _, _, _, h => by
    rw [printable_pairs] at h
    exact h.elim
  | (key, some v) :: rest, n, w, h => by
    rw [printable_pairs, plain] at h
    obtain ⟨text, ht, hl⟩ := lex_print v (n + w) w h.2.1
    obtain ⟨more, hm, hlm⟩ := lex_print_pairs rest n w h.2.2
    have hempty : (unterminated_pairs rest).isEmpty = rest.isEmpty := by
      cases rest with
      | nil => rfl
      | cons p q =>
        obtain ⟨k, ov⟩ := p
        cases ov <;> rfl
    refine ⟨pad n ++ [' ', ' ', '"'] ++ text_of key ++ ['"', ':', ' '] ++ text
      ++ (if rest.isEmpty then [] else [',']) ++ ['\n'] ++ more, ?_, ?_⟩
    · rw [print_pairs, c_string_text_of key h.1.1, ht, hm]
    · intro x
      simp only [List.append_assoc, List.cons_append, List.nil_append]
      rw [lex_erased_pad, lex_erased_ws ' ' _ rfl, lex_erased_ws ' ' _ rfl,
        lex_erased_quoted (text_of key) _ h.1.2 (text_of_nul_free key), lex_erased_colon,
        lex_erased_ws ' ' _ rfl, unterminated_pairs, toks_pairs, hempty]
      by_cases he : rest.isEmpty = true
      · simp only [he, if_true, List.nil_append]
        rw [hl _ (boundary_newline _), lex_erased_ws '\n' _ rfl, hlm]
        cases lex_erased x with
        | none => rfl
        | some r => simp
      · simp only [he, Bool.false_eq_true, if_false, List.cons_append, List.nil_append]
        rw [hl _ (boundary_comma _), lex_erased_comma, lex_erased_ws '\n' _ rfl, hlm]
        cases lex_erased x with
        | none => rfl
        | some r => simp
/-- The lines the printer writes for the values of an Array lex to the
canonical tokens of the values with their blocks cut. -/
theorem lex_print_values : ∀ (vs : List (Option json)) (n w : Int),
    printable_values vs →
    ∃ body, print_values vs n w = some body ∧
      ∀ x, lex_erased (body ++ x) =
        (lex_erased x).map (fun r => toks_values (unterminated_values vs) ++ r)
  | [], n, w, _ => ⟨[], by rw [print_values], fun x => by
      rw [unterminated_values, toks_values, List.nil_append]
      cases lex_erased x <;> rfl⟩
  | none :: _, _, _, h => by
    rw [printable_values] at h
    exact h.elim
  | some v :: rest, n, w, h => by
    rw [printable_values] at h
    obtain ⟨text, ht, hl⟩ := lex_print v (n + w) w h.1
    obtain ⟨more, hm, hlm⟩ := lex_print_values rest n w h.2
    have hempty : (unterminated_values rest).isEmpty = rest.isEmpty := by
      cases rest with
      | nil => rfl
      | cons p q => cases p <;> rfl
    refine ⟨pad (n + 2) ++ text ++ (if rest.isEmpty then [] else [',']) ++ ['\n'] ++ more,
      ?_, ?_⟩
    · rw [print_values, ht, hm]
    · intro x
      simp only [List.append_assoc, List.cons_append, List.nil_append]
      rw [lex_erased_pad, unterminated_values, toks_values, hempty]
      by_cases he : rest.isEmpty = true
      · simp only [he, if_true, List.nil_append]
        rw [hl _ (boundary_newline _), lex_erased_ws '\n' _ rfl, hlm]
        cases lex_erased x with
        | none => rfl
        | some r => simp
      · simp only [he, Bool.false_eq_true, if_false, List.cons_append, List.nil_append]
        rw [hl _ (boundary_comma _), lex_erased_comma, lex_erased_ws '\n' _ rfl, hlm]
        cases lex_erased x with
        | none => rfl
        | some r => simp
end

mutual
/-- A printable Document with its blocks cut is a Document. -/
theorem is_document_of_printable : ∀ d : json, printable d → is_document (unterminated d)
  | json.OBJECT pairs, h => by
    rw [printable] at h
    rw [unterminated, is_document]
    refine ⟨?_, is_document_pairs_of_printable pairs h.2⟩
    cases pairs with
    | nil => exact absurd rfl h.1
    | cons p q =>
      obtain ⟨k, ov⟩ := p
      cases ov <;> (rw [unterminated_pairs]; exact List.cons_ne_nil _ _)
  | json.ARRAY values, h => by
    rw [printable] at h
    rw [unterminated, is_document]
    refine ⟨?_, is_document_values_of_printable values h.2⟩
    cases values with
    | nil => exact absurd rfl h.1
    | cons p q => cases p <;> (rw [unterminated_values]; exact List.cons_ne_nil _ _)
  | json.STRING _, _ => by rw [unterminated, is_document]; trivial
  | json.INT _, _ => by rw [unterminated, is_document]; trivial
  | json.FLOAT _, _ => by rw [unterminated, is_document]; trivial
  | json.NULL_, _ => by rw [unterminated, is_document]; trivial
/-- Printable pairs hold Documents. -/
theorem is_document_pairs_of_printable : ∀ ps : List (List Char × Option json),
    printable_pairs ps → is_document_pairs (unterminated_pairs ps)
  | [], _ => by rw [unterminated_pairs, is_document_pairs]; trivial
  | (_, none) :: _, h => by rw [printable_pairs] at h; exact h.elim
  | (_, some v) :: rest, h => by
    rw [printable_pairs] at h
    rw [unterminated_pairs, is_document_pairs]
    exact ⟨is_document_of_printable v h.2.1, is_document_pairs_of_printable rest h.2.2⟩
/-- Printable values are Documents. -/
theorem is_document_values_of_printable : ∀ vs : List (Option json),
    printable_values vs → is_document_values (unterminated_values vs)
  | [], _ => by rw [unterminated_values, is_document_values]; trivial
  | none :: _, h => by rw [printable_values] at h; exact h.elim
  | some v :: rest, h => by
    rw [printable_values] at h
    rw [unterminated_values, is_document_values]
    exact ⟨is_document_of_printable v h.1, is_document_values_of_printable rest h.2⟩
end

/-- Cutting the blocks keeps the number of pairs. -/
theorem unterminated_pairs_length : ∀ ps : List (List Char × Option json),
    (unterminated_pairs ps).length = ps.length
  | [] => by rw [unterminated_pairs]
  | (_, none) :: rest => by
    rw [unterminated_pairs, List.length_cons, List.length_cons, unterminated_pairs_length rest]
  | (_, some _) :: rest => by
    rw [unterminated_pairs, List.length_cons, List.length_cons, unterminated_pairs_length rest]

/-- Cutting the blocks keeps the number of values. -/
theorem unterminated_values_length : ∀ vs : List (Option json),
    (unterminated_values vs).length = vs.length
  | [] => by rw [unterminated_values]
  | none :: rest => by
    rw [unterminated_values, List.length_cons, List.length_cons, unterminated_values_length rest]
  | some _ :: rest => by
    rw [unterminated_values, List.length_cons, List.length_cons, unterminated_values_length rest]

mutual
/-- Cutting the blocks does not change what fits the blocks of slots. -/
theorem within_capacity_unterminated : ∀ d : json,
    within_capacity (unterminated d) ↔ within_capacity d
  | json.OBJECT pairs => by
    rw [unterminated, within_capacity, within_capacity, unterminated_pairs_length,
      within_capacity_unterminated_pairs pairs]
  | json.ARRAY values => by
    rw [unterminated, within_capacity, within_capacity, unterminated_values_length,
      within_capacity_unterminated_values values]
  | json.STRING _ => by rw [unterminated, within_capacity, within_capacity]
  | json.INT _ => by rw [unterminated]
  | json.FLOAT _ => by rw [unterminated]
  | json.NULL_ => by rw [unterminated]
/-- Cutting the blocks does not change what fits, for pairs. -/
theorem within_capacity_unterminated_pairs : ∀ ps : List (List Char × Option json),
    within_capacity_pairs (unterminated_pairs ps) ↔ within_capacity_pairs ps
  | [] => by rw [unterminated_pairs]
  | (_, none) :: rest => by
    rw [unterminated_pairs, within_capacity_pairs, within_capacity_pairs,
      within_capacity_unterminated_pairs rest]
  | (_, some v) :: rest => by
    rw [unterminated_pairs, within_capacity_pairs, within_capacity_pairs,
      within_capacity_unterminated v, within_capacity_unterminated_pairs rest]
/-- Cutting the blocks does not change what fits, for values. -/
theorem within_capacity_unterminated_values : ∀ vs : List (Option json),
    within_capacity_values (unterminated_values vs) ↔ within_capacity_values vs
  | [] => by rw [unterminated_values]
  | none :: rest => by
    rw [unterminated_values, within_capacity_values, within_capacity_values,
      within_capacity_unterminated_values rest]
  | some v :: rest => by
    rw [unterminated_values, within_capacity_values, within_capacity_values,
      within_capacity_unterminated v, within_capacity_unterminated_values rest]
end

mutual
/-- A tree that holds no block of characters has nothing to cut. -/
theorem unterminated_string_free : ∀ d : json, string_free d → unterminated d = d
  | json.OBJECT pairs, h => by
    rw [string_free] at h
    subst h
    rw [unterminated, unterminated_pairs]
  | json.ARRAY values, h => by
    rw [string_free] at h
    rw [unterminated, unterminated_values_string_free values h]
  | json.STRING _, h => by rw [string_free] at h; exact h.elim
  | json.INT _, _ => by rw [unterminated]
  | json.FLOAT _, _ => by rw [unterminated]
  | json.NULL_, _ => by rw [unterminated]
/-- Values that hold no block of characters have nothing to cut. -/
theorem unterminated_values_string_free : ∀ vs : List (Option json),
    string_free_values vs → unterminated_values vs = vs
  | [], _ => by rw [unterminated_values]
  | none :: rest, h => by
    rw [string_free_values] at h
    rw [unterminated_values, unterminated_values_string_free rest h]
  | some v :: rest, h => by
    rw [string_free_values] at h
    rw [unterminated_values, unterminated_string_free v h.1,
      unterminated_values_string_free rest h.2]
end

mutual
/-- Printing the tree the round trip hands back reads a block without
terminator, as soon as the Document holds a key or a String. -/
theorem print_unterminated : ∀ (d : json) (n w : Int), printable d → ¬ string_free d →
    pretty_print_json (unterminated d) n w = none
  | json.OBJECT pairs, n, w, h, _ => by
    rw [printable] at h
    cases pairs with
    | nil => exact absurd rfl h.1
    | cons p q =>
      obtain ⟨k, ov⟩ := p
      cases ov with
      | none => have h2 := h.2; rw [printable_pairs] at h2; exact h2.elim
      | some v =>
        rw [unterminated, unterminated_pairs, pretty_print_json, print_pairs, c_string_of_text]
  | json.ARRAY values, n, w, h, hs => by
    rw [printable] at h
    rw [string_free] at hs
    rw [unterminated, pretty_print_json, print_unterminated_values values n w h.2 hs]
  | json.STRING s, n, w, _, _ => by
    rw [unterminated, pretty_print_json, c_string_of_text]
  | json.INT _, _, _, _, hs => by rw [string_free] at hs; exact absurd trivial hs
  | json.FLOAT _, _, _, _, hs => by rw [string_free] at hs; exact absurd trivial hs
  | json.NULL_, _, _, _, hs => by rw [string_free] at hs; exact absurd trivial hs
/-- Printing the values the round trip hands back reads a block without
terminator, as soon as one of them holds a key or a String. -/
theorem print_unterminated_values : ∀ (vs : List (Option json)) (n w : Int),
    printable_values vs → ¬ string_free_values vs →
    print_values (unterminated_values vs) n w = none
  | [], _, _, _, hs => by rw [string_free_values] at hs; exact absurd trivial hs
  | none :: _, _, _, h, _ => by rw [printable_values] at h; exact h.elim
  | some v :: rest, n, w, h, hs => by
    rw [printable_values] at h
    rw [string_free_values] at hs
    rw [unterminated_values, print_values]
    by_cases hv : string_free v
    · have hr : ¬ string_free_values rest := fun hr => hs ⟨hv, hr⟩
      rw [print_unterminated_values rest n w h.2 hr]
      cases pretty_print_json (unterminated v) (n + w) w <;> rfl
    · rw [print_unterminated v (n + w) w h.1 hv]
end

/-- The tokens of the empty text. -/
theorem lex_erased_nil : lex_erased [] = some [] := by decide

/-- C1 (the code on a printed Document). Round trip: for every Document `d`
whose leaves are String, Integer (32-bit signed) or Null, whose Objects and
Arrays all have at least one child, and whose string values and keys are C
strings without `"`, and for every `indent_width`, `pprint` writes a text and
`lex` returns tokens for that text; when the children of every container fit
its block of 100 slots, parsing these tokens from cursor 0 returns, for every
fuel from some bound on and with the cursor behind the last token, not `d`
but `d` with every block of a key or String cut in front of its NUL:
`gobble_text` copies the characters between the quotes and writes no
terminator. When `d` holds no key and no String this tree is `d`; when it
holds one the tree is not `d`, and reading it back runs out of a block:
`pprint` of it has no defined output. When the children do not fit, the parser
stores a child behind the chunk of a block. -/
theorem round_trip (d : json) (hd : printable d) (indent_width : Int) :
    ∃ text ts, pprint d indent_width = some text ∧ lex text = some ts ∧
      (within_capacity d → ∃ fuel, ∀ fuel2, fuel ≤ fuel2 →
        parse_json ts fuel2 0 = Except.ok (some (unterminated d), ts.length)) ∧
      (¬ within_capacity d → ∃ fuel, ∀ fuel2, fuel ≤ fuel2 →
        parse_json ts fuel2 0 = Except.error fault.heap_overrun) ∧
      (string_free d → unterminated d = d) ∧
      (¬ string_free d →
        unterminated d ≠ d ∧ pprint (unterminated d) indent_width = none) := by
  obtain ⟨text, ht, hl⟩ := lex_print d 0 indent_width hd
  have hlex := hl [] boundary_nil
  rw [List.append_nil, lex_erased_nil, Option.map_some', List.append_nil] at hlex
  unfold lex_erased at hlex
  cases hts : lex text with
  | none => rw [hts] at hlex; cases hlex
  | some ts =>
    rw [hts, Option.map_some'] at hlex
    have hmap : ts.map erase_span = toks (unterminated d) := Option.some.inj hlex
    have hr := renders_toks (unterminated d) ts [] (is_document_of_printable d hd) hmap
    refine ⟨text, ts, ht, hts, ?_, ?_, unterminated_string_free d, ?_⟩
    · intro hcap
      have := parse_of_renders (p := []) hr ((within_capacity_unterminated d).mpr hcap)
      simpa using this
    · intro hcap
      have := overrun_of_renders (p := []) hr
        (fun h => hcap ((within_capacity_unterminated d).mp h))
      simpa using this
    · intro hs
      have hnone := print_unterminated d 0 indent_width hd hs
      refine ⟨fun e => ?_, hnone⟩
      rw [e, ht] at hnone
      cases hnone

/-- C1 at the Document `{"k": [-12, null, "s"]}` and indent width 4: the tree
handed back holds the blocks `k` and `s` without terminator. -/
theorem round_trip_witness :
    printable (json.OBJECT [(['k', '\x00'], some (json.ARRAY [some (json.INT (-12)),
      some json.NULL_, some (json.STRING ['s', '\x00'])]))]) ∧
    ∃ text ts,
      pprint (json.OBJECT [(['k', '\x00'], some (json.ARRAY [some (json.INT (-12)),
        some json.NULL_, some (json.STRING ['s', '\x00'])]))]) 4 = some text ∧
      lex text = some ts ∧
      (∃ fuel, ∀ fuel2, fuel ≤ fuel2 → parse_json ts fuel2 0 =
        Except.ok (some (json.OBJECT [(['k'], some (json.ARRAY [some (json.INT (-12)),
          some json.NULL_, some (json.STRING ['s'])]))]), ts.length)) ∧
      pprint (json.OBJECT [(['k'], some (json.ARRAY [some (json.INT (-12)),
        some json.NULL_, some (json.STRING ['s'])]))]) 4 = none := by
  have hd : printable (json.OBJECT [(['k', '\x00'], some (json.ARRAY [some (json.INT (-12)),
      some json.NULL_, some (json.STRING ['s', '\x00'])]))]) := by
    simp [printable, printable_pairs, printable_values, plain, text_of]
  have hcap : within_capacity (json.OBJECT [(['k', '\x00'], some (json.ARRAY
      [some (json.INT (-12)), some json.NULL_, some (json.STRING ['s', '\x00'])]))]) := by
    simp [within_capacity, within_capacity_pairs, within_capacity_values, slots_fit_object,
      slots_fit_array]
  have hs : ¬ string_free (json.OBJECT [(['k', '\x00'], some (json.ARRAY
      [some (json.INT (-12)), some json.NULL_, some (json.STRING ['s', '\x00'])]))]) := by
    simp [string_free]
  obtain ⟨text, ts, h1, h2, h3, -, -, h6⟩ := round_trip _ hd 4
  exact ⟨hd, text, ts, h1, h2, h3 hcap, (h6 hs).2⟩

/-! ### A comma in front of the closing delimiter -/

mutual
/-- What renders a tree is a word in front of the rest, and the word renders
the tree in front of any rest. -/
theorem renders_frame : ∀ (d : json) (ts rest : List token), renders d ts rest →
    ∃ w, ts = w ++ rest ∧ ∀ rest2, renders d (w ++ rest2) rest2
  | json.OBJECT pairs, ts, rest, h => by
    rw [renders] at h
    obtain ⟨t, ts1, r, rfl, ht, hp, hcl⟩ := h
    obtain ⟨w1, rfl, hf⟩ := renders_pairs_frame pairs ts1 r hp
    obtain ⟨r2, c, hoc, hc, rfl⟩ := hcl
    rcases hoc with rfl | ⟨m, hm, rfl⟩
    · refine ⟨t :: (w1 ++ [c]), by simp, fun rest2 => ?_⟩
      rw [renders]
      exact ⟨t, w1 ++ (c :: rest2), c :: rest2, by simp, ht, hf _,
        ⟨c :: rest2, c, Or.inl rfl, hc, rfl⟩⟩
    · refine ⟨t :: (w1 ++ [m, c]), by simp, fun rest2 => ?_⟩
      rw [renders]
      exact ⟨t, w1 ++ (m :: c :: rest2), m :: c :: rest2, by simp, ht, hf _,
        ⟨c :: rest2, c, Or.inr ⟨m, hm, rfl⟩, hc, rfl⟩⟩
  | json.ARRAY values, ts, rest, h => by
    rw [renders] at h
    obtain ⟨t, ts1, r, rfl, ht, hp, hcl⟩ := h
    obtain ⟨w1, rfl, hf⟩ := renders_values_frame values ts1 r hp
    obtain ⟨r2, c, hoc, hc, rfl⟩ := hcl
    rcases hoc with rfl | ⟨m, hm, rfl⟩
    · refine ⟨t :: (w1 ++ [c]), by simp, fun rest2 => ?_⟩
      rw [renders]
      exact ⟨t, w1 ++ (c :: rest2), c :: rest2, by simp, ht, hf _,
        ⟨c :: rest2, c, Or.inl rfl, hc, rfl⟩⟩
    · refine ⟨t :: (w1 ++ [m, c]), by simp, fun rest2 => ?_⟩
      rw [renders]
      exact ⟨t, w1 ++ (m :: c :: rest2), m :: c :: rest2, by simp, ht, hf _,
        ⟨c :: rest2, c, Or.inr ⟨m, hm, rfl⟩, hc, rfl⟩⟩
  | json.STRING v, ts, rest, h => by
    rw [renders] at h
    obtain ⟨t, rfl, ht, hv⟩ := h
    exact ⟨[t], rfl, fun rest2 => by rw [renders]; exact ⟨t, rfl, ht, hv⟩⟩
  | json.INT v, ts, rest, h => by
    rw [renders] at h
    obtain ⟨t, rfl, ht, hv⟩ := h
    exact ⟨[t], rfl, fun rest2 => by rw [renders]; exact ⟨t, rfl, ht, hv⟩⟩
  | json.FLOAT v, ts, rest, h => by
    rw [renders] at h
    obtain ⟨t, rfl, ht, hv⟩ := h
    exact ⟨[t], rfl, fun rest2 => by rw [renders]; exact ⟨t, rfl, ht, hv⟩⟩
  | json.NULL_, ts, rest, h => by
    rw [renders] at h
    obtain ⟨t, rfl, ht⟩ := h
    exact ⟨[t], rfl, fun rest2 => by rw [renders]; exact ⟨t, rfl, ht⟩⟩
/-- The same for the pairs of an Object. -/
theorem renders_pairs_frame : ∀ (ps : List (List Char × Option json)) (ts rest : List token),
    renders_pairs ps ts rest →
    ∃ w, ts = w ++ rest ∧ ∀ rest2, renders_pairs ps (w ++ rest2) rest2
  | [], _, _, h => by rw [renders_pairs] at h; exact h.elim
  | (_, none) :: _, _, _, h => by rw [renders_pairs] at h; exact h.elim
  | (key, some v) :: more, ts, rest, h => by
    rw [renders_pairs] at h
    obtain ⟨k, c, ts1, r1, rfl, hk, hkv, hc, hv, hrest⟩ := h
    obtain ⟨wv, rfl, hfv⟩ := renders_frame v ts1 r1 hv
    rcases hrest with ⟨hm, rfl⟩ | ⟨hm, r2, hoc, hmore⟩
    · refine ⟨k :: c :: wv, rfl, fun rest2 => ?_⟩
      rw [renders_pairs]
      exact ⟨k, c, wv ++ rest2, rest2, rfl, hk, hkv, hc, hfv rest2, Or.inl ⟨hm, rfl⟩⟩
    · obtain ⟨wm, rfl, hfm⟩ := renders_pairs_frame more r2 rest hmore
      rcases hoc with rfl | ⟨m, hmc, rfl⟩
      · refine ⟨k :: c :: (wv ++ wm), by simp, fun rest2 => ?_⟩
        rw [renders_pairs]
        exact ⟨k, c, wv ++ (wm ++ rest2), wm ++ rest2, by simp, hk, hkv, hc, hfv _,
          Or.inr ⟨hm, wm ++ rest2, Or.inl rfl, hfm rest2⟩⟩
      · refine ⟨k :: c :: (wv ++ m :: wm), by simp, fun rest2 => ?_⟩
        rw [renders_pairs]
        exact ⟨k, c, wv ++ (m :: (wm ++ rest2)), m :: (wm ++ rest2), by simp, hk, hkv, hc,
          hfv _, Or.inr ⟨hm, wm ++ rest2, Or.inr ⟨m, hmc, rfl⟩, hfm rest2⟩⟩
/-- The same for the values of an Array. -/
theorem renders_values_frame : ∀ (vs : List (Option json)) (ts rest : List token),
    renders_values vs ts rest →
    ∃ w, ts = w ++ rest ∧ ∀ rest2, renders_values vs (w ++ rest2) rest2
  | [], _, _, h => by rw [renders_values] at h; exact h.elim
  | none :: _, _, _, h => by rw [renders_values] at h; exact h.elim
  | some v :: more, ts, rest, h => by
    rw [renders_values] at h
    obtain ⟨r1, hv, hrest⟩ := h
    obtain ⟨wv, rfl, hfv⟩ := renders_frame v ts r1 hv
    rcases hrest with ⟨hm, rfl⟩ | ⟨hm, r2, hoc, hmore⟩
    · refine ⟨wv, rfl, fun rest2 => ?_⟩
      rw [renders_values]
      exact ⟨rest2, hfv rest2, Or.inl ⟨hm, rfl⟩⟩
    · obtain ⟨wm, rfl, hfm⟩ := renders_values_frame more r2 rest hmore
      rcases hoc with rfl | ⟨m, hmc, rfl⟩
      · refine ⟨wv ++ wm, by simp, fun rest2 => ?_⟩
        rw [renders_values]
        exact ⟨wm ++ rest2, by rw [List.append_assoc]; exact hfv _,
          Or.inr ⟨hm, wm ++ rest2, Or.inl rfl, hfm rest2⟩⟩
      · refine ⟨wv ++ m :: wm, by simp, fun rest2 => ?_⟩
        rw [renders_values]
        exact ⟨m :: (wm ++ rest2), by rw [List.append_assoc]; exact hfv _,
          Or.inr ⟨hm, wm ++ rest2, Or.inr ⟨m, hmc, rfl⟩, hfm rest2⟩⟩
end

/-- The closing delimiter of a rendered container, when no comma stands in
front of it, may be given one. -/
theorem closes_comma_inserted {kind : token_type} {w body s r : List token}
    {t close comma : token}
    (he : body ++ close :: s = t :: (w ++ r)) (hcl : closes kind r s)
    (hlast : ∀ m, body.getLast? = some m → m.type ≠ token_type.COMMA)
    (hcomma : comma.type = token_type.COMMA) :
    body ++ comma :: close :: s = t :: (w ++ comma :: close :: s) ∧
      closes kind (comma :: close :: s) s := by
  obtain ⟨r2, c, hoc, hc, rfl⟩ := hcl
  rcases hoc with rfl | ⟨m, hm, rfl⟩
  · have h1 : (body ++ [close]) ++ s = (t :: w ++ [c]) ++ s := by simpa using he
    have h2 := List.append_cancel_right h1
    have h3 : body = t :: w ∧ [close] = [c] := List.append_inj' h2 rfl
    obtain ⟨rfl, h4⟩ := h3
    have h5 : close = c := by simpa using h4
    subst h5
    exact ⟨by simp, ⟨close :: s, close, Or.inr ⟨comma, hcomma, rfl⟩, hc, rfl⟩⟩
  · have h1 : (body ++ [close]) ++ s = ((t :: w ++ [m]) ++ [c]) ++ s := by simpa using he
    have h2 := List.append_cancel_right h1
    have h3 : body = t :: w ++ [m] ∧ [close] = [c] := List.append_inj' h2 rfl
    have h6 : body.getLast? = some m := by
      rw [h3.1]
      exact List.getLast?_concat _
    exact absurd hm (hlast m h6)

/-- A comma put in front of the closing delimiter of a rendered Array or
Object that has none there renders the same tree. -/
theorem renders_comma_inserted (d : json) (body s : List token) (close comma : token)
    (hcont : (∃ pairs, d = json.OBJECT pairs) ∨ (∃ values, d = json.ARRAY values))
    (h : renders d (body ++ close :: s) s)
    (hlast : ∀ m, body.getLast? = some m → m.type ≠ token_type.COMMA)
    (hcomma : comma.type = token_type.COMMA) :
    renders d (body ++ comma :: close :: s) s := by
  rcases hcont with ⟨pairs, rfl⟩ | ⟨values, rfl⟩
  · rw [renders] at h
    obtain ⟨t, ts1, r, he, ht, hp, hcl⟩ := h
    obtain ⟨w, rfl, hf⟩ := renders_pairs_frame pairs ts1 r hp
    obtain ⟨he2, hcl2⟩ := closes_comma_inserted he hcl hlast hcomma
    rw [renders]
    exact ⟨t, w ++ comma :: close :: s, comma :: close :: s, he2, ht, hf _, hcl2⟩
  · rw [renders] at h
    obtain ⟨t, ts1, r, he, ht, hp, hcl⟩ := h
    obtain ⟨w, rfl, hf⟩ := renders_values_frame values ts1 r hp
    obtain ⟨he2, hcl2⟩ := closes_comma_inserted he hcl hlast hcomma
    rw [renders]
    exact ⟨t, w ++ comma :: close :: s, comma :: close :: s, he2, ht, hf _, hcl2⟩

/-- C3, amended. Trailing comma tolerance: for every sequence `body ++ [close]`
of well-formed tokens that `parse_json` parses, between any prefix `p` and
suffix `s`, to an Array or Object Document `d` (no `NULL` child) with the
cursor ending one past `close`, the closing delimiter, and in which no Comma
stands in front of `close` already: with one Comma token inserted immediately
before `close` the sequence parses to the same `d`, for every fuel from some
bound on, the cursor again ending one past the closing delimiter. And
`[1,2,3,]` and `[1,2,3]` both lex and parse to the Array of the Integers 1, 2,
3. -/
theorem trailing_comma_tolerated (p body s : List token) (close comma : token) (d : json)
    (fuel : Nat) (hwf : ∀ t ∈ p ++ (body ++ [close]) ++ s, t.wf)
    (hrun : parse_json (p ++ (body ++ [close]) ++ s) fuel p.length =
      Except.ok (some d, p.length + (body ++ [close]).length))
    (hd : complete d)
    (hcont : (∃ pairs, d = json.OBJECT pairs) ∨ (∃ values, d = json.ARRAY values))
    (hlast : ∀ m, body.getLast? = some m → m.type ≠ token_type.COMMA)
    (hcomma : comma.type = token_type.COMMA) :
    (∃ fuel1, ∀ fuel2, fuel1 ≤ fuel2 →
      parse_json (p ++ (body ++ [comma, close]) ++ s) fuel2 p.length =
        Except.ok (some d, p.length + (body ++ [comma, close]).length)) ∧
    (∃ ts, lex "[1,2,3,]".toList = some ts ∧ ∀ k, parse_json ts (6 + k) 0 =
      Except.ok (some (json.ARRAY [some (json.INT 1), some (json.INT 2), some (json.INT 3)]),
        ts.length)) ∧
    (∃ ts, lex "[1,2,3]".toList = some ts ∧ ∀ k, parse_json ts (6 + k) 0 =
      Except.ok (some (json.ARRAY [some (json.INT 1), some (json.INT 2), some (json.INT 3)]),
        ts.length)) := by
  refine ⟨?_, ?_, ?_⟩
  · have hder := (parse_sound _ hwf fuel).1 p.length d _ hrun hd
    have e1 : (p ++ (body ++ [close]) ++ s).drop p.length = body ++ [close] ++ s := by
      rw [List.append_assoc, List.drop_left]
    have e2 : (p ++ (body ++ [close]) ++ s).drop (p.length + (body ++ [close]).length) = s := by
      rw [List.append_assoc, ← List.drop_drop, List.drop_left, List.drop_left]
    rw [e1, e2] at hder
    have hwf2 : ∀ t ∈ body ++ [close] ++ s, t.wf := by
      intro t ht
      apply hwf t
      rw [List.append_assoc]
      exact List.mem_append_right _ ht
    obtain ⟨d2, hr⟩ := renders_of_derives hder hwf2
    have hc : at_cursor (p ++ (body ++ [close]) ++ s) p.length (body ++ [close] ++ s) := by
      rw [List.append_assoc]; exact at_cursor_append p _
    obtain ⟨fuel2, hrun2⟩ := parse_renders d2 _ s _ p.length hr hc
    rcases hrun2 with ⟨hcap, c2, hrun2, -⟩ | ⟨-, hrun2⟩
    · have heq := parse_json_deterministic (settled_of_ok hrun) (settled_of_ok hrun2)
      rw [hrun, hrun2] at heq
      injection heq with heq
      injection heq with h1 _
      injection h1 with h1
      subst h1
      have hr2 := renders_comma_inserted d body s close comma hcont (by simpa using hr)
        hlast hcomma
      exact @parse_of_renders d p (body ++ [comma, close]) s (by simpa using hr2) hcap
    · have heq := parse_json_deterministic (settled_of_ok hrun)
        (settled_of_error hrun2 (by decide))
      rw [hrun, hrun2] at heq
      cases heq
  · refine ⟨_, (by decide : lex "[1,2,3,]".toList = some
      [make_token token_type.OPEN_BRACKET 0,
       { make_token token_type.INTEGER_LITERAL 2 with value := token_value.number 1 },
       make_token token_type.COMMA 2,
       { make_token token_type.INTEGER_LITERAL 4 with value := token_value.number 2 },
       make_token token_type.COMMA 4,
       { make_token token_type.INTEGER_LITERAL 6 with value := token_value.number 3 },
       make_token token_type.COMMA 6, make_token token_type.CLOSE_BRACKET 7]), fun k => ?_⟩
    exact parse_json_add_ok 6 k rfl
  · refine ⟨_, (by decide : lex "[1,2,3]".toList = some
      [make_token token_type.OPEN_BRACKET 0,
       { make_token token_type.INTEGER_LITERAL 2 with value := token_value.number 1 },
       make_token token_type.COMMA 2,
       { make_token token_type.INTEGER_LITERAL 4 with value := token_value.number 2 },
       make_token token_type.COMMA 4,
       { make_token token_type.INTEGER_LITERAL 6 with value := token_value.number 3 },
       make_token token_type.CLOSE_BRACKET 6]), fun k => ?_⟩
    exact parse_json_add_ok 6 k rfl

/-- C3, amended, at the tokens of `[[1,] 2]`, which parse to the Array of the
Array of 1 and of 2: with a comma in front of the last `]` they parse to the
same Array. -/
theorem trailing_comma_tolerated_witness :
    (∀ t ∈ ([] : List token) ++
      ([punct token_type.OPEN_BRACKET, punct token_type.OPEN_BRACKET,
        { punct token_type.INTEGER_LITERAL with value := token_value.number 1 },
        punct token_type.COMMA, punct token_type.CLOSE_BRACKET,
        { punct token_type.INTEGER_LITERAL with value := token_value.number 2 }] ++
        [punct token_type.CLOSE_BRACKET]) ++ [], t.wf) ∧
    parse_json (([] : List token) ++
      ([punct token_type.OPEN_BRACKET, punct token_type.OPEN_BRACKET,
        { punct token_type.INTEGER_LITERAL with value := token_value.number 1 },
        punct token_type.COMMA, punct token_type.CLOSE_BRACKET,
        { punct token_type.INTEGER_LITERAL with value := token_value.number 2 }] ++
        [punct token_type.CLOSE_BRACKET]) ++ []) 12 ([] : List token).length =
      Except.ok (some (json.ARRAY [some (json.ARRAY [some (json.INT 1)]), some (json.INT 2)]),
        ([] : List token).length +
          ([punct token_type.OPEN_BRACKET, punct token_type.OPEN_BRACKET,
            { punct token_type.INTEGER_LITERAL with value := token_value.number 1 },
            punct token_type.COMMA, punct token_type.CLOSE_BRACKET,
            { punct token_type.INTEGER_LITERAL with value := token_value.number 2 }] ++
            [punct token_type.CLOSE_BRACKET]).length) ∧
    complete (json.ARRAY [some (json.ARRAY [some (json.INT 1)]), some (json.INT 2)]) ∧
    (make_token token_type.COMMA 7).type = token_type.COMMA ∧
    ∃ fuel1, ∀ fuel2, fuel1 ≤ fuel2 →
      parse_json (([] : List token) ++
        ([punct token_type.OPEN_BRACKET, punct token_type.OPEN_BRACKET,
          { punct token_type.INTEGER_LITERAL with value := token_value.number 1 },
          punct token_type.COMMA, punct token_type.CLOSE_BRACKET,
          { punct token_type.INTEGER_LITERAL with value := token_value.number 2 }] ++
          [make_token token_type.COMMA 7, punct token_type.CLOSE_BRACKET]) ++ []) fuel2
          ([] : List token).length =
        Except.ok (some (json.ARRAY [some (json.ARRAY [some (json.INT 1)]),
          some (json.INT 2)]), ([] : List token).length +
          ([punct token_type.OPEN_BRACKET, punct token_type.OPEN_BRACKET,
            { punct token_type.INTEGER_LITERAL with value := token_value.number 1 },
            punct token_type.COMMA, punct token_type.CLOSE_BRACKET,
            { punct token_type.INTEGER_LITERAL with value := token_value.number 2 }] ++
            [make_token token_type.COMMA 7, punct token_type.CLOSE_BRACKET]).length) :=
  have hwf : ∀ t ∈ ([] : List token) ++
      ([punct token_type.OPEN_BRACKET, punct token_type.OPEN_BRACKET,
        { punct token_type.INTEGER_LITERAL with value := token_value.number 1 },
        punct token_type.COMMA, punct token_type.CLOSE_BRACKET,
        { punct token_type.INTEGER_LITERAL with value := token_value.number 2 }] ++
        [punct token_type.CLOSE_BRACKET]) ++ [], t.wf := by
    simp [token.wf, punct]
  have hd : complete (json.ARRAY [some (json.ARRAY [some (json.INT 1)]),
      some (json.INT 2)]) := by
    simp [complete, complete_values]
  ⟨hwf, rfl, hd, rfl,
    (trailing_comma_tolerated [] _ [] _ (make_token token_type.COMMA 7) _ 12 hwf rfl hd
      (Or.inr ⟨_, rfl⟩) (by simp [punct]) rfl).1⟩

end JsonParserC
